import Mathlib

/-!
Verification of the core claims of the `hidva/sqlite-mirror` repository
against a shallow Lean embedding of its source.

The embedding covers:

* `src/vdbesort.c` — the external merge sorter: the in-memory merge sort
  (`vdbeSorterMerge`, `vdbeSorterSort`), the write path
  (`sqlite3VdbeSorterWrite` flush decision), the PMA writer error handling
  (`vdbePmaWriteBlob`, `vdbePmaWriterFinish`), the merge-tree shape
  (`vdbeSorterTreeDepth`, `vdbeSorterAddToTree`,
  `vdbeSorterMergeTreeBuild`), the single-threaded read-back through the
  tournament trees of the merge engines (`vdbeMergeEngineInit`,
  `vdbeSorterNext`, `sqlite3VdbeSorterRewind`) and the key comparison
  entry point (`sqlite3VdbeSorterCompare`).
* `src/expr.c` — the expression module: `sqlite3ExprDup`,
  `sqlite3ExprCompare`, `sqlite3ExprIsInteger`, `sqlite3ExprType`,
  the bytecode emitters `sqlite3ExprCode` / `sqlite3ExprIfTrue` /
  `sqlite3ExprIfFalse`, and the identifier resolution helper `lookupName`.

Machine integers are modelled as `Nat`/`Int`; allocation always succeeds in
the model (OOM paths are not the subject of the claims verified here).
Host routines that live outside the repository snapshot (the record
comparator `sqlite3VdbeRecordCompare`, `sqlite3Dequote`,
`sqlite3FitsIn32Bits`, `atoi`, `sqlite3ErrorMsg`) are modelled from the
specification where needed and marked as such.
-/

namespace SqliteSort

/-! ### In-memory list sort (`vdbesort.c` lines 1194–1277)

`vdbeSorterMerge` merges two sorted linked lists of records; the record
type is abstract (`α`) and the host comparator `c` returns a three-valued
`Int` result, exactly as `vdbeSorterCompare` does in the source.  The C
routine takes `p1` whenever `res <= 0`; when either list runs out the
remainder of the other is appended (`*pp = p1 ? p1 : p2`).
-/

/-- `vdbeSorterMerge` (vdbesort.c:1194): merge the two sorted lists `p1` and
`p2` into a single list; on `res <= 0` the element of `p1` is taken. -/
def vdbeSorterMerge (c : α → α → Int) : List α → List α → List α
  | [], l2 => l2
  | a :: l1, [] => a :: l1
  | a :: l1, b :: l2 =>
    if c a b ≤ 0 then a :: vdbeSorterMerge c l1 (b :: l2)
    else b :: vdbeSorterMerge c (a :: l1) l2
  termination_by l1 l2 => l1.length + l2.length

theorem vdbeSorterMerge_nil (c : α → α → Int) (l2 : List α) :
    vdbeSorterMerge c [] l2 = l2 := by
  rw [vdbeSorterMerge]

theorem vdbeSorterMerge_nil_right (c : α → α → Int) (l1 : List α) :
    vdbeSorterMerge c l1 [] = l1 := by
  cases l1 <;> rw [vdbeSorterMerge]

theorem vdbeSorterMerge_cons_cons (c : α → α → Int) (a b : α)
    (l1 l2 : List α) :
    vdbeSorterMerge c (a :: l1) (b :: l2) =
      if c a b ≤ 0 then a :: vdbeSorterMerge c l1 (b :: l2)
      else b :: vdbeSorterMerge c (a :: l1) l2 := by
  rw [vdbeSorterMerge]

/-- The inner loop of `vdbeSorterSort` (vdbesort.c:1258–1262): the record
`p` is repeatedly merged with the contents of slot `i` (which is then
cleared) until an empty slot is found; that slot receives the result.  The
source uses a fixed array of 64 slots; the model uses an unbounded list of
slots (`[]` standing for a cleared slot), which agrees with the source for
every input of fewer than 2^64 records. -/
def slotInsert (c : α → α → Int) (p : List α) : List (List α) → List (List α)
  | [] => [p]
  | s :: rest =>
    if s.isEmpty then p :: rest
    else [] :: slotInsert c (vdbeSorterMerge c p s) rest

/-- The outer loop of `vdbeSorterSort` (vdbesort.c:1244–1264): walk the
in-memory list head-first, detaching each record (`p->u.pNext = 0`) and
inserting it into the slot array. -/
def sortPass (c : α → α → Int) : List α → List (List α) → List (List α)
  | [], slots => slots
  | p :: rest, slots => sortPass c rest (slotInsert c [p] slots)

/-- `vdbeSorterSort` (vdbesort.c:1229): distribute the records of the list
over the slots, then merge all slots left-to-right
(vdbesort.c:1266–1269, `vdbeSorterMerge(pTask, p, aSlot[i], &p)`). -/
def vdbeSorterSort (c : α → α → Int) (l : List α) : List α :=
  (sortPass c l []).foldl (fun p s => vdbeSorterMerge c p s) []

/-! #### Sortedness of the in-memory sort -/

/-- The ordering relation induced by the host comparator. -/
def cle (c : α → α → Int) (a b : α) : Prop := c a b ≤ 0

theorem mem_vdbeSorterMerge (c : α → α → Int) {x : α} :
    ∀ l1 l2 : List α, x ∈ vdbeSorterMerge c l1 l2 → x ∈ l1 ∨ x ∈ l2 := by
  intro l1
  induction l1 with
  | nil => intro l2 h; rw [vdbeSorterMerge_nil] at h; exact Or.inr h
  | cons a l1 ih1 =>
    intro l2
    induction l2 with
    | nil =>
        intro h; rw [vdbeSorterMerge_nil_right] at h; exact Or.inl h
    | cons b l2 ih2 =>
        intro h
        rw [vdbeSorterMerge_cons_cons] at h
        by_cases hc : c a b ≤ 0
        · rw [if_pos hc] at h
          rcases List.mem_cons.mp h with h | h
          · exact Or.inl (h ▸ List.mem_cons_self _ _)
          · rcases ih1 (b :: l2) h with h' | h'
            · exact Or.inl (List.mem_cons_of_mem _ h')
            · exact Or.inr h'
        · rw [if_neg hc] at h
          rcases List.mem_cons.mp h with h | h
          · exact Or.inr (h ▸ List.mem_cons_self _ _)
          · rcases ih2 h with h' | h'
            · exact Or.inl h'
            · exact Or.inr (List.mem_cons_of_mem _ h')

theorem sorted_vdbeSorterMerge (c : α → α → Int)
    (htot : ∀ a b : α, 0 < c a b → c b a ≤ 0)
    (htrans : ∀ a b d : α, c a b ≤ 0 → c b d ≤ 0 → c a d ≤ 0) :
    ∀ l1 l2 : List α, l1.Pairwise (cle c) → l2.Pairwise (cle c) →
      (vdbeSorterMerge c l1 l2).Pairwise (cle c) := by
  intro l1
  induction l1 with
  | nil => intro l2 _ h2; rw [vdbeSorterMerge_nil]; exact h2
  | cons a l1 ih1 =>
    intro l2
    induction l2 with
    | nil => intro h1 _; rw [vdbeSorterMerge_nil_right]; exact h1
    | cons b l2 ih2 =>
        intro h1 h2
        rw [vdbeSorterMerge_cons_cons]
        rcases List.pairwise_cons.mp h1 with ⟨ha, h1'⟩
        rcases List.pairwise_cons.mp h2 with ⟨hb, h2'⟩
        by_cases hc : c a b ≤ 0
        · rw [if_pos hc]
          refine List.pairwise_cons.mpr ⟨?_, ih1 (b :: l2) h1' h2⟩
          intro x hx
          rcases mem_vdbeSorterMerge c l1 (b :: l2) hx with hx | hx
          · exact ha x hx
          · rcases List.mem_cons.mp hx with hx | hx
            · exact hx ▸ hc
            · exact htrans a b x hc (hb x hx)
        · rw [if_neg hc]
          push_neg at hc
          have hba : cle c b a := htot a b hc
          refine List.pairwise_cons.mpr ⟨?_, ih2 h1 h2'⟩
          intro x hx
          rcases mem_vdbeSorterMerge c (a :: l1) l2 hx with hx | hx
          · rcases List.mem_cons.mp hx with hx | hx
            · exact hx ▸ hba
            · exact htrans b a x hba (ha x hx)
          · exact hb x hx

/-- Every slot produced by `slotInsert` is sorted, provided the inserted
run and the existing slots are. -/
theorem sorted_slotInsert (c : α → α → Int)
    (htot : ∀ a b : α, 0 < c a b → c b a ≤ 0)
    (htrans : ∀ a b d : α, c a b ≤ 0 → c b d ≤ 0 → c a d ≤ 0)
    : ∀ (slots : List (List α)) (p : List α), p.Pairwise (cle c) →
      (∀ s ∈ slots, s.Pairwise (cle c)) →
      ∀ s ∈ slotInsert c p slots, s.Pairwise (cle c) := by
  intro slots
  induction slots with
  | nil =>
      intro p hp _ s hmem
      rcases List.mem_cons.mp hmem with hmem | hmem
      · exact hmem ▸ hp
      · simp at hmem
  | cons s0 rest ih =>
      intro p hp hs s hmem
      rw [slotInsert] at hmem
      by_cases h0 : s0.isEmpty
      · rw [if_pos h0] at hmem
        rcases List.mem_cons.mp hmem with hmem | hmem
        · exact hmem ▸ hp
        · exact hs s (List.mem_cons_of_mem _ hmem)
      · rw [if_neg h0] at hmem
        rcases List.mem_cons.mp hmem with hmem | hmem
        · exact hmem ▸ List.Pairwise.nil
        · exact ih (vdbeSorterMerge c p s0)
            (sorted_vdbeSorterMerge c htot htrans p s0 hp
              (hs s0 (List.mem_cons_self _ _)))
            (fun t ht => hs t (List.mem_cons_of_mem _ ht)) s hmem

theorem sorted_sortPass (c : α → α → Int)
    (htot : ∀ a b : α, 0 < c a b → c b a ≤ 0)
    (htrans : ∀ a b d : α, c a b ≤ 0 → c b d ≤ 0 → c a d ≤ 0)
    : ∀ (l : List α) (slots : List (List α)),
      (∀ s ∈ slots, s.Pairwise (cle c)) →
      ∀ s ∈ sortPass c l slots, s.Pairwise (cle c) := by
  intro l
  induction l with
  | nil => intro slots hs; rw [sortPass]; exact hs
  | cons p rest ih =>
      intro slots hs
      rw [sortPass]
      exact ih _ (sorted_slotInsert c htot htrans slots [p]
        (List.pairwise_singleton _ _) hs)

theorem sorted_foldl_merge (c : α → α → Int)
    (htot : ∀ a b : α, 0 < c a b → c b a ≤ 0)
    (htrans : ∀ a b d : α, c a b ≤ 0 → c b d ≤ 0 → c a d ≤ 0)
    : ∀ (slots : List (List α)) (acc : List α), acc.Pairwise (cle c) →
      (∀ s ∈ slots, s.Pairwise (cle c)) →
      ((slots.foldl (fun p s => vdbeSorterMerge c p s) acc).Pairwise (cle c)) := by
  intro slots
  induction slots with
  | nil => intro acc hacc _; simpa using hacc
  | cons s0 rest ih =>
      intro acc hacc hs
      rw [List.foldl_cons]
      exact ih _
        (sorted_vdbeSorterMerge c htot htrans acc s0 hacc
          (hs s0 (List.mem_cons_self _ _)))
        (fun t ht => hs t (List.mem_cons_of_mem _ ht))

theorem sorted_vdbeSorterSort (c : α → α → Int)
    (htot : ∀ a b : α, 0 < c a b → c b a ≤ 0)
    (htrans : ∀ a b d : α, c a b ≤ 0 → c b d ≤ 0 → c a d ≤ 0)
    (l : List α) : (vdbeSorterSort c l).Pairwise (cle c) :=
  sorted_foldl_merge c htot htrans _ [] List.Pairwise.nil
    (sorted_sortPass c htot htrans l [] (by simp))

/-! ### Merge-tree depth (`vdbesort.c` lines 2040–2058)

`SORTER_MAX_MERGE_COUNT` is 16 (vdbesort.c:439).  `vdbeSorterTreeDepth`
computes the depth of the incremental merge tree built by
`vdbeSorterMergeTreeBuild`; per its own header comment the returned value
does not include the leaf level (`nPMA<=16 -> 0`, `nPMA<=256 -> 1`,
`nPMA<=65536 -> 2`).
-/

/-- Maximum number of PMAs that a single MergeEngine can merge
(vdbesort.c:439). -/
def SORTER_MAX_MERGE_COUNT : Nat := 16

/-- The loop of `vdbeSorterTreeDepth` (vdbesort.c:2050–2058):
`while (nDiv < nPMA) { nDiv *= 16; nDepth++; }`.  The `0 < nDiv` conjunct
is vacuous for every reachable argument (`nDiv` starts at 16 and only
grows) and is present only to make termination evident. -/
def treeDepthLoop (nPMA nDiv : Nat) : Nat :=
  if h : 0 < nDiv ∧ nDiv < nPMA then
    treeDepthLoop nPMA (nDiv * SORTER_MAX_MERGE_COUNT) + 1
  else 0
  termination_by nPMA - nDiv
  decreasing_by
    have h1 : nDiv + 1 ≤ nDiv * SORTER_MAX_MERGE_COUNT := by
      rw [SORTER_MAX_MERGE_COUNT]; omega
    omega

/-- `vdbeSorterTreeDepth` (vdbesort.c:2050): the depth of a merge tree
over `nPMA` PMAs with fan-in `SORTER_MAX_MERGE_COUNT`, not counting the
leaf level. -/
def vdbeSorterTreeDepth (nPMA : Nat) : Nat :=
  treeDepthLoop nPMA SORTER_MAX_MERGE_COUNT

theorem treeDepthLoop_le_pow (nPMA : Nat) :
    ∀ nDiv : Nat, 0 < nDiv →
      nPMA ≤ nDiv * SORTER_MAX_MERGE_COUNT ^ treeDepthLoop nPMA nDiv := by
  intro nDiv
  induction nDiv using treeDepthLoop.induct nPMA with
  | case1 nDiv h ih =>
      intro _
      rw [treeDepthLoop, dif_pos h, pow_succ]
      have := ih (by rw [SORTER_MAX_MERGE_COUNT]; omega)
      calc nPMA ≤ nDiv * SORTER_MAX_MERGE_COUNT
            * SORTER_MAX_MERGE_COUNT ^ treeDepthLoop nPMA
              (nDiv * SORTER_MAX_MERGE_COUNT) := this
        _ = nDiv * (SORTER_MAX_MERGE_COUNT ^ treeDepthLoop nPMA
              (nDiv * SORTER_MAX_MERGE_COUNT) * SORTER_MAX_MERGE_COUNT) := by
            ring
  | case2 nDiv h =>
      intro hpos
      rw [treeDepthLoop, dif_neg h]
      simp only [pow_zero, Nat.mul_one]
      omega

theorem treeDepthLoop_pow_lt (nPMA : Nat) :
    ∀ nDiv : Nat, 0 < treeDepthLoop nPMA nDiv →
      nDiv * SORTER_MAX_MERGE_COUNT ^ (treeDepthLoop nPMA nDiv - 1) < nPMA := by
  intro nDiv
  induction nDiv using treeDepthLoop.induct nPMA with
  | case1 nDiv h ih =>
      intro _
      rw [treeDepthLoop, dif_pos h]
      simp only [Nat.add_sub_cancel]
      by_cases h0 : 0 < treeDepthLoop nPMA (nDiv * SORTER_MAX_MERGE_COUNT)
      · have hlt := ih h0
        have harith : nDiv * SORTER_MAX_MERGE_COUNT ^ treeDepthLoop nPMA
              (nDiv * SORTER_MAX_MERGE_COUNT) =
            nDiv * SORTER_MAX_MERGE_COUNT * SORTER_MAX_MERGE_COUNT ^
              (treeDepthLoop nPMA (nDiv * SORTER_MAX_MERGE_COUNT) - 1) := by
          conv_lhs => rw [show treeDepthLoop nPMA (nDiv * SORTER_MAX_MERGE_COUNT)
            = (treeDepthLoop nPMA (nDiv * SORTER_MAX_MERGE_COUNT) - 1) + 1 by omega]
          rw [pow_succ]; ring
        omega
      · have h0' : treeDepthLoop nPMA (nDiv * SORTER_MAX_MERGE_COUNT) = 0 := by omega
        rw [h0', pow_zero, Nat.mul_one]
        exact h.2
  | case2 nDiv h =>
      intro hpos
      rw [treeDepthLoop, dif_neg h] at hpos
      omega

/-- For more than one full fan-in of PMAs the loop runs at least once. -/
theorem vdbeSorterTreeDepth_pos {n : Nat} (hn : SORTER_MAX_MERGE_COUNT < n) :
    0 < vdbeSorterTreeDepth n := by
  rw [vdbeSorterTreeDepth, treeDepthLoop,
    dif_pos (⟨by rw [SORTER_MAX_MERGE_COUNT]; omega, hn⟩ :
      0 < SORTER_MAX_MERGE_COUNT ∧ SORTER_MAX_MERGE_COUNT < n)]
  omega

/-- `vdbeSorterTreeDepth` computes one less than the number of engine
levels of the merge tree: `16^d < n <= 16^(d+1)`, i.e.
`d = ⌈log₁₆ n⌉ − 1` for `n > 16` (its header comment: the value "does
not include leaf nodes"). -/
theorem treeDepth_eq_clog_sub_one (n : Nat)
    (hn : SORTER_MAX_MERGE_COUNT < n) :
    vdbeSorterTreeDepth n = Nat.clog 16 n - 1 ∧
      0 < vdbeSorterTreeDepth n := by
  have hpos := vdbeSorterTreeDepth_pos hn
  have hub : n ≤ 16 ^ (vdbeSorterTreeDepth n + 1) := by
    have := treeDepthLoop_le_pow n SORTER_MAX_MERGE_COUNT
      (by rw [SORTER_MAX_MERGE_COUNT]; omega)
    rw [vdbeSorterTreeDepth]
    calc n ≤ SORTER_MAX_MERGE_COUNT
          * SORTER_MAX_MERGE_COUNT ^ treeDepthLoop n SORTER_MAX_MERGE_COUNT := this
      _ = 16 ^ (treeDepthLoop n SORTER_MAX_MERGE_COUNT + 1) := by
          rw [SORTER_MAX_MERGE_COUNT, pow_succ]; ring
  have hlb : 16 ^ vdbeSorterTreeDepth n < n := by
    have := treeDepthLoop_pow_lt n SORTER_MAX_MERGE_COUNT hpos
    rw [vdbeSorterTreeDepth]
    calc 16 ^ treeDepthLoop n SORTER_MAX_MERGE_COUNT
        = SORTER_MAX_MERGE_COUNT * SORTER_MAX_MERGE_COUNT ^
            (treeDepthLoop n SORTER_MAX_MERGE_COUNT - 1) := by
          conv_lhs => rw [show treeDepthLoop n SORTER_MAX_MERGE_COUNT
            = (treeDepthLoop n SORTER_MAX_MERGE_COUNT - 1) + 1 by
              rw [vdbeSorterTreeDepth] at hpos; omega]
          rw [SORTER_MAX_MERGE_COUNT, pow_succ]; ring
      _ < n := this
  have h16 : (1:Nat) < 16 := by omega
  have hle : Nat.clog 16 n ≤ vdbeSorterTreeDepth n + 1 :=
    (Nat.le_pow_iff_clog_le h16).mp hub
  have hgt : vdbeSorterTreeDepth n < Nat.clog 16 n :=
    (Nat.pow_lt_iff_lt_clog h16).mp hlb
  exact ⟨by omega, hpos⟩

/-! #### The merge tree built at rewind (`vdbeSorterMergeTreeBuild`,
vdbesort.c lines 2124–2184, and `vdbeSorterAddToTree`, lines 2068–2111)

The tree of merge engines is modelled structurally: a `leaf` is a
level-0 engine created by `vdbeMergeEngineLevel0` over up to 16 PMA
readers (the leaf records the reader count), and a `node` is a
16-reader engine whose slots (`aIter[].pIncr`) hold lower engines;
empty slots are readers never attached to an incremental merger.
-/

mutual
inductive MTree where
  | leaf (nReader : Nat)
  | node (slots : MSlots)
inductive OMTree where
  | none
  | some (t : MTree)
inductive MSlots where
  | nil
  | cons (s : OMTree) (rest : MSlots)
end

/-- The zeroed slot array of `vdbeMergeEngineNew`. -/
def emptySlots : Nat → MSlots
  | 0 => .nil
  | n + 1 => .cons .none (emptySlots n)

/-- `vdbeMergeEngineNew(SORTER_MAX_MERGE_COUNT)`: a fresh 16-slot
engine. -/
def emptyNode16 : MTree := .node (emptySlots SORTER_MAX_MERGE_COUNT)

def slotsGet : MSlots → Nat → OMTree
  | .nil, _ => .none
  | .cons s _, 0 => s
  | .cons _ rest, n + 1 => slotsGet rest n

def slotsSet : MSlots → Nat → OMTree → MSlots
  | .nil, _, _ => .nil
  | .cons _ rest, 0, v => .cons v rest
  | .cons s rest, n + 1, v => .cons s (slotsSet rest n v)

def slotsLen : MSlots → Nat
  | .nil => 0
  | .cons _ rest => slotsLen rest + 1

/-- The engines attached below a slot array. -/
def slotsSome : MSlots → List MTree
  | .nil => []
  | .cons .none rest => slotsSome rest
  | .cons (.some t) rest => t :: slotsSome rest

mutual
/-- Number of engine levels of a merge tree (a level-0 engine counts
as one level). -/
def mtreeDepth : MTree → Nat
  | .leaf _ => 1
  | .node slots => 1 + slotsDepth slots
def slotsDepth : MSlots → Nat
  | .nil => 0
  | .cons .none rest => slotsDepth rest
  | .cons (.some t) rest => max (mtreeDepth t) (slotsDepth rest)
end

/-- The loop body of `vdbeSorterAddToTree` (vdbesort.c:2090–2106): with
`k` iterations remaining, descend into slot `(iSeq / nDiv) % 16`
(creating a fresh 16-slot engine when the slot is empty, vdbesort.c:2095)
and divide `nDiv` by 16; with none remaining, install the leaf engine at
slot `iSeq % 16` (vdbesort.c:2104). -/
def addToTreeGo (iSeq : Nat) : Nat → Nat → MTree → MTree → MTree
  | 0, _, p, pLeaf =>
    match p with
    | .node slots =>
      .node (slotsSet slots (iSeq % SORTER_MAX_MERGE_COUNT) (.some pLeaf))
    | .leaf n => .leaf n
  | k + 1, nDiv, p, pLeaf =>
    match p with
    | .node slots =>
      let iIter := (iSeq / nDiv) % SORTER_MAX_MERGE_COUNT
      let child := match slotsGet slots iIter with
        | OMTree.some t => t
        | OMTree.none => emptyNode16
      .node (slotsSet slots iIter
        (.some (addToTreeGo iSeq k (nDiv / SORTER_MAX_MERGE_COUNT) child
          pLeaf)))
    | .leaf n => .leaf n

/-- `vdbeSorterAddToTree` (vdbesort.c:2068): the first loop raises
`nDiv` to `16^(nDepth-1)`, the second runs `nDepth-1` times. -/
def vdbeSorterAddToTree (nDepth iSeq : Nat) (pRoot pLeaf : MTree) : MTree :=
  addToTreeGo iSeq (nDepth - 1) (SORTER_MAX_MERGE_COUNT ^ (nDepth - 1))
    pRoot pLeaf

/-- `vdbeSorterMergeTreeBuild` (vdbesort.c:2124) for one subtask: with
more than 16 PMAs, create a 16-slot root engine and add one level-0
engine per group of up to 16 consecutive PMAs (`i += 16`, `iSeq++`,
`nReader = MIN(nPMA - i, 16)`); with at most 16 PMAs the root is the
single level-0 engine over all of them. -/
def vdbeSorterMergeTreeBuild (nPMA : Nat) : MTree :=
  if nPMA ≤ SORTER_MAX_MERGE_COUNT then .leaf nPMA
  else
    let nDepth := vdbeSorterTreeDepth nPMA
    (List.range
        ((nPMA + SORTER_MAX_MERGE_COUNT - 1) / SORTER_MAX_MERGE_COUNT)).foldl
      (fun root iSeq =>
        vdbeSorterAddToTree nDepth iSeq root
          (.leaf (min (nPMA - SORTER_MAX_MERGE_COUNT * iSeq)
            SORTER_MAX_MERGE_COUNT)))
      emptyNode16

/-- A well-formed subtree of height `k`: height 0 is a level-0 leaf
engine, height `k+1` a full 16-slot engine with at least one child, all
children of height `k`. -/
def chainOK : Nat → MTree → Prop
  | 0, t => ∃ m, t = MTree.leaf m
  | k + 1, t => ∃ slots, t = MTree.node slots ∧
      slotsLen slots = SORTER_MAX_MERGE_COUNT ∧
      (∀ u ∈ slotsSome slots, chainOK k u) ∧ slotsSome slots ≠ []

/-- A possibly still-empty engine whose children (if any) have height
`k`. -/
def nodeOK (k : Nat) (t : MTree) : Prop :=
  ∃ slots, t = MTree.node slots ∧
    slotsLen slots = SORTER_MAX_MERGE_COUNT ∧
    ∀ u ∈ slotsSome slots, chainOK k u

theorem slotsLen_set : ∀ (slots : MSlots) (i : Nat) (v : OMTree),
    slotsLen (slotsSet slots i v) = slotsLen slots
  | .nil, _, _ => rfl
  | .cons _ _, 0, _ => rfl
  | .cons s rest, n + 1, v => by
      show slotsLen (slotsSet rest n v) + 1 = slotsLen rest + 1
      rw [slotsLen_set rest n v]

theorem slotsSome_set_subset : ∀ (slots : MSlots) (i : Nat) (t u : MTree),
    u ∈ slotsSome (slotsSet slots i (.some t)) → u = t ∨ u ∈ slotsSome slots
  | .nil, _, _, _ => fun hu => Or.inr hu
  | .cons s rest, 0, t, u => fun hu => by
      have hu' : u ∈ t :: slotsSome rest := hu
      rcases List.mem_cons.mp hu' with h | h
      · exact Or.inl h
      · cases s with
        | none => exact Or.inr h
        | some t' =>
            exact Or.inr (show u ∈ t' :: slotsSome rest from
              List.mem_cons_of_mem _ h)
  | .cons s rest, n + 1, t, u => fun hu => by
      cases s with
      | none =>
          have hu' : u ∈ slotsSome (slotsSet rest n (.some t)) := hu
          exact slotsSome_set_subset rest n t u hu'
      | some t' =>
          have hu' : u ∈ t' :: slotsSome (slotsSet rest n (.some t)) := hu
          rcases List.mem_cons.mp hu' with h | h
          · exact Or.inr (show u ∈ t' :: slotsSome rest from
              h ▸ List.mem_cons_self _ _)
          · rcases slotsSome_set_subset rest n t u h with h' | h'
            · exact Or.inl h'
            · exact Or.inr (show u ∈ t' :: slotsSome rest from
                List.mem_cons_of_mem _ h')

theorem slotsSome_set_mem : ∀ (slots : MSlots) (i : Nat) (t : MTree),
    i < slotsLen slots → t ∈ slotsSome (slotsSet slots i (.some t))
  | .nil, i, t => fun h => absurd h (by rw [slotsLen]; omega)
  | .cons s rest, 0, t => fun _ =>
      show t ∈ t :: slotsSome rest from List.mem_cons_self _ _
  | .cons s rest, n + 1, t => fun h => by
      have hn : n < slotsLen rest := by
        rw [slotsLen] at h; omega
      cases s with
      | none => exact slotsSome_set_mem rest n t hn
      | some t' =>
          exact show t ∈ t' :: slotsSome (slotsSet rest n (.some t)) from
            List.mem_cons_of_mem _ (slotsSome_set_mem rest n t hn)

theorem slotsGet_mem : ∀ (slots : MSlots) (i : Nat) (t : MTree),
    slotsGet slots i = .some t → t ∈ slotsSome slots
  | .nil, _, t => fun h => absurd h (by rw [slotsGet]; intro h; cases h)
  | .cons s rest, 0, t => fun h => by
      have hs : s = .some t := h
      subst hs
      exact show t ∈ t :: slotsSome rest from List.mem_cons_self _ _
  | .cons s rest, n + 1, t => fun h => by
      have := slotsGet_mem rest n t h
      cases s with
      | none => exact this
      | some t' =>
          exact show t ∈ t' :: slotsSome rest from List.mem_cons_of_mem _ this

theorem emptySlots_len : ∀ n, slotsLen (emptySlots n) = n := by
  intro n
  induction n with
  | zero => rfl
  | succ n ih =>
      show slotsLen (emptySlots n) + 1 = n + 1
      rw [ih]

theorem emptySlots_some : ∀ n, slotsSome (emptySlots n) = [] := by
  intro n
  induction n with
  | zero => rfl
  | succ n ih =>
      show slotsSome (emptySlots n) = []
      exact ih

theorem emptyNode16_nodeOK (k : Nat) : nodeOK k emptyNode16 :=
  ⟨emptySlots SORTER_MAX_MERGE_COUNT, rfl, emptySlots_len _, by
    intro u hu
    rw [emptySlots_some] at hu
    exact absurd hu (List.not_mem_nil u)⟩

theorem chainOK_nodeOK {k : Nat} {t : MTree} (h : chainOK (k + 1) t) :
    nodeOK k t := by
  obtain ⟨slots, ht, hlen, hch, _⟩ := h
  exact ⟨slots, ht, hlen, hch⟩

/-- `vdbeSorterAddToTree` turns a partial engine of height `k+1` into a
well-formed one: it installs a complete chain ending in the new leaf. -/
theorem addToTreeGo_chainOK (iSeq : Nat) (pLeaf : MTree)
    (hleaf : chainOK 0 pLeaf) :
    ∀ (k nDiv : Nat) (p : MTree), nodeOK k p →
      chainOK (k + 1) (addToTreeGo iSeq k nDiv p pLeaf) := by
  intro k
  induction k with
  | zero =>
      intro nDiv p hp
      obtain ⟨slots, hpt, hlen, hch⟩ := hp
      subst hpt
      have heq : addToTreeGo iSeq 0 nDiv (MTree.node slots) pLeaf =
          MTree.node (slotsSet slots (iSeq % SORTER_MAX_MERGE_COUNT)
            (OMTree.some pLeaf)) := rfl
      rw [heq]
      refine ⟨_, rfl, by rw [slotsLen_set, hlen], ?_, ?_⟩
      · intro u hu
        rcases slotsSome_set_subset slots _ pLeaf u hu with h | h
        · exact h ▸ hleaf
        · exact hch u h
      · intro hnil
        have hmem : pLeaf ∈ slotsSome
            (slotsSet slots (iSeq % SORTER_MAX_MERGE_COUNT)
              (OMTree.some pLeaf)) :=
          slotsSome_set_mem slots _ pLeaf (by
            rw [hlen, SORTER_MAX_MERGE_COUNT]
            exact Nat.mod_lt _ (by omega))
        rw [hnil] at hmem
        exact absurd hmem (List.not_mem_nil _)
  | succ k ih =>
      intro nDiv p hp
      obtain ⟨slots, hpt, hlen, hch⟩ := hp
      subst hpt
      have heq : addToTreeGo iSeq (k + 1) nDiv (MTree.node slots) pLeaf =
          MTree.node (slotsSet slots ((iSeq / nDiv) % SORTER_MAX_MERGE_COUNT)
            (OMTree.some (addToTreeGo iSeq k (nDiv / SORTER_MAX_MERGE_COUNT)
              (match slotsGet slots ((iSeq / nDiv) % SORTER_MAX_MERGE_COUNT)
                with
                | OMTree.some t => t
                | OMTree.none => emptyNode16) pLeaf))) := rfl
      rw [heq]
      have hchildOK : nodeOK k
          (match slotsGet slots ((iSeq / nDiv) % SORTER_MAX_MERGE_COUNT) with
            | OMTree.some t => t
            | OMTree.none => emptyNode16) := by
        cases hg : slotsGet slots ((iSeq / nDiv) % SORTER_MAX_MERGE_COUNT) with
        | none => exact emptyNode16_nodeOK k
        | some t => exact chainOK_nodeOK (hch t (slotsGet_mem slots _ t hg))
      have hrec := ih (nDiv / SORTER_MAX_MERGE_COUNT) _ hchildOK
      refine ⟨_, rfl, by rw [slotsLen_set, hlen], ?_, ?_⟩
      · intro u hu
        rcases slotsSome_set_subset slots _ _ u hu with h | h
        · exact h ▸ hrec
        · exact hch u h
      · intro hnil
        have hmem := slotsSome_set_mem slots
          ((iSeq / nDiv) % SORTER_MAX_MERGE_COUNT)
          (addToTreeGo iSeq k (nDiv / SORTER_MAX_MERGE_COUNT)
            (match slotsGet slots ((iSeq / nDiv) % SORTER_MAX_MERGE_COUNT)
              with
              | OMTree.some t => t
              | OMTree.none => emptyNode16) pLeaf)
          (by
            rw [hlen, SORTER_MAX_MERGE_COUNT]
            exact Nat.mod_lt _ (by omega))
        rw [hnil] at hmem
        exact absurd hmem (List.not_mem_nil _)

theorem slotsDepth_of_no_some : ∀ (slots : MSlots),
    slotsSome slots = [] → slotsDepth slots = 0
  | .nil => fun _ => rfl
  | .cons .none rest => fun h => by
      show slotsDepth rest = 0
      exact slotsDepth_of_no_some rest h
  | .cons (.some t) rest => fun h => by
      exact absurd (show t :: slotsSome rest = [] from h) (by simp)

theorem slotsDepth_eq (d : Nat) : ∀ (slots : MSlots),
    (∀ u ∈ slotsSome slots, mtreeDepth u = d) → slotsSome slots ≠ [] →
    slotsDepth slots = d
  | .nil => fun _ hne => absurd rfl hne
  | .cons .none rest => fun hall hne => by
      show slotsDepth rest = d
      exact slotsDepth_eq d rest hall hne
  | .cons (.some t) rest => fun hall hne => by
      show max (mtreeDepth t) (slotsDepth rest) = d
      have ht := hall t (show t ∈ t :: slotsSome rest from
        List.mem_cons_self _ _)
      by_cases hrest : slotsSome rest = []
      · rw [slotsDepth_of_no_some rest hrest, ht]
        omega
      · rw [ht, slotsDepth_eq d rest
          (fun u hu => hall u (show u ∈ t :: slotsSome rest from
            List.mem_cons_of_mem _ hu)) hrest]
        omega

theorem chainOK_depth : ∀ (k : Nat) (t : MTree), chainOK k t →
    mtreeDepth t = k + 1 := by
  intro k
  induction k with
  | zero =>
      intro t ht
      obtain ⟨m, hm⟩ := ht
      subst hm; rfl
  | succ k ih =>
      intro t ht
      obtain ⟨slots, hts, _, hch, hne⟩ := ht
      subst hts
      rw [mtreeDepth, slotsDepth_eq (k + 1) slots
        (fun u hu => ih u (hch u hu)) hne]
      omega

theorem build_foldl_chainOK (nDepth : Nat) (hd : 1 ≤ nDepth)
    (step : MTree → Nat → MTree)
    (hstep : ∀ root iSeq, nodeOK (nDepth - 1) root →
      chainOK nDepth (step root iSeq)) :
    ∀ (L : List Nat) (root : MTree), nodeOK (nDepth - 1) root → L ≠ [] →
      chainOK nDepth (L.foldl step root) := by
  intro L
  induction L with
  | nil => intro root _ hne; exact absurd rfl hne
  | cons i rest ih =>
      intro root hroot _
      rw [List.foldl_cons]
      by_cases hrest : rest = []
      · subst hrest
        exact hstep root i hroot
      · refine ih (step root i) ?_ hrest
        have := hstep root i hroot
        have heq : nDepth = (nDepth - 1) + 1 := by omega
        rw [heq] at this
        exact chainOK_nodeOK this

/-- **C9.** When the number of PMAs `n` produced by one subtask exceeds
the fan-in constant 16, rewind builds a tree of merge engines whose root
merges at most 16 readers (it is a full 16-slot engine), and the depth
of that tree — counting engine levels, the level-0 leaf engines
included — is `⌈log₁₆ n⌉`; equivalently it is `vdbeSorterTreeDepth n + 1`,
the return value of `vdbeSorterTreeDepth` excluding the leaf level per
its header comment. -/
theorem mergeTree_built (n : Nat) (hn : SORTER_MAX_MERGE_COUNT < n) :
    (∃ slots, vdbeSorterMergeTreeBuild n = .node slots ∧
      slotsLen slots = SORTER_MAX_MERGE_COUNT) ∧
    mtreeDepth (vdbeSorterMergeTreeBuild n) = Nat.clog 16 n ∧
    mtreeDepth (vdbeSorterMergeTreeBuild n) = vdbeSorterTreeDepth n + 1 := by
  have hd := vdbeSorterTreeDepth_pos hn
  have hn' : ¬ n ≤ SORTER_MAX_MERGE_COUNT := by omega
  have hck : chainOK (vdbeSorterTreeDepth n) (vdbeSorterMergeTreeBuild n) := by
    rw [vdbeSorterMergeTreeBuild, if_neg hn']
    exact build_foldl_chainOK (vdbeSorterTreeDepth n) hd _
      (fun root iSeq hroot => by
        have h1 := addToTreeGo_chainOK iSeq
          (.leaf (min (n - SORTER_MAX_MERGE_COUNT * iSeq)
            SORTER_MAX_MERGE_COUNT))
          ⟨_, rfl⟩ (vdbeSorterTreeDepth n - 1)
          (SORTER_MAX_MERGE_COUNT ^ (vdbeSorterTreeDepth n - 1)) root hroot
        have heq : (vdbeSorterTreeDepth n - 1) + 1 = vdbeSorterTreeDepth n :=
          by omega
        rw [heq] at h1
        exact h1)
      _ emptyNode16 (emptyNode16_nodeOK _)
      (by
        intro hL
        rw [List.range_eq_nil] at hL
        rw [SORTER_MAX_MERGE_COUNT] at hn hL
        omega)
  have hdepth := chainOK_depth _ _ hck
  have hclog := treeDepth_eq_clog_sub_one n hn
  have hclog2 : 1 < Nat.clog 16 n := by
    have h16 : (16:Nat) ^ 1 < n := by
      rw [SORTER_MAX_MERGE_COUNT] at hn
      omega
    exact (Nat.pow_lt_iff_lt_clog (by omega)).mp h16
  refine ⟨?_, by omega, by omega⟩
  rw [show vdbeSorterTreeDepth n = (vdbeSorterTreeDepth n - 1) + 1 by omega]
    at hck
  obtain ⟨slots, hts, hlen, _, _⟩ := hck
  exact ⟨slots, hts, hlen⟩

/-- Witness for C9 at `n = 300` PMAs (`⌈log₁₆ 300⌉ = 3` engine levels:
root, one intermediate level, leaf engines). -/
theorem mergeTree_built_witness :
    SORTER_MAX_MERGE_COUNT < 300 ∧
    ((∃ slots, vdbeSorterMergeTreeBuild 300 = .node slots ∧
      slotsLen slots = SORTER_MAX_MERGE_COUNT) ∧
    mtreeDepth (vdbeSorterMergeTreeBuild 300) = Nat.clog 16 300 ∧
    mtreeDepth (vdbeSorterMergeTreeBuild 300) =
      vdbeSorterTreeDepth 300 + 1) :=
  ⟨by decide, mergeTree_built 300 (by decide)⟩

/-! ### Status codes and small helpers -/

/-- `SQLITE_OK`. -/
def SQLITE_OK : Int := 0

/-- `SQLITE_NOMEM`. -/
def SQLITE_NOMEM : Int := 7

/-- `ROUND8` (sqliteInt.h, not in the snapshot): round up to the next
multiple of 8. -/
def ROUND8 (x : Nat) : Nat := 8 * ((x + 7) / 8)

/-- Loop of the varint length computation: the first 7-bit digit is
always consumed, then more while bits remain, capped at 9 bytes. -/
def varintLenLoop (v i : Nat) : Nat :=
  if v ≠ 0 ∧ i < 9 then varintLenLoop (v / 128) (i + 1) else i
  termination_by v
  decreasing_by exact Nat.div_lt_self (Nat.pos_of_ne_zero (by omega)) (by omega)

/-- Modelled from the spec: `sqlite3VarintLen` (util.c, not in the
snapshot) — the number of bytes of the varint encoding described in §4.4,
one byte per 7-bit group, at most 9. -/
def sqlite3VarintLen (v : Nat) : Nat := varintLenLoop (v / 128) 1

/-- `sizeof(SorterRecord)` (vdbesort.c:418): the in-memory record header
(an `int` and a pointer-sized union).  The exact value is
platform-dependent; 16 is the common 64-bit value and no claim depends on
the particular constant. -/
def sizeofSorterRecord : Nat := 16

/-! ### The sorter write path (`sqlite3VdbeSorterWrite`, vdbesort.c
lines 1594–1683, and the single-threaded `vdbeSorterFlushPMA`,
vdbesort.c lines 1527–1530)

The state below keeps the fields of `VdbeSorter` that the write path
reads or writes.  Records are byte lists; `list.pList` holds the
in-memory records most-recent-first, regardless of whether they live in
separate allocations or in the bulk arena (`aMemory`).  Flushed PMAs are
recorded as the sorted record sequences written to disk.
`unpackedErrCode` is the sticky comparison-scratch error
(`pTask->pUnpacked->errCode`).  Allocation and I/O succeed in the
model. -/
structure SorterList where
  pList : List (List Nat)
  szPMA : Nat
  aMemory : Bool
  deriving Repr, DecidableEq

structure VdbeSorterW where
  mnPmaSize : Nat
  mxPmaSize : Nat
  mxKeysize : Nat
  iMemory : Nat
  nMemory : Nat
  list : SorterList
  bUsePMA : Bool
  nPMA : Nat
  pmas : List (List (List Nat))
  unpackedErrCode : Int
  deriving Repr, DecidableEq

/-- The doubling loop of the arena realloc in `sqlite3VdbeSorterWrite`
(vdbesort.c:1653–1656): `nNew = nMemory*2; while (nNew < nMin) nNew *= 2;
if (nNew > mxPmaSize) nNew = mxPmaSize; if (nNew < nMin) nNew = nMin`.
The `0 < nNew` conjunct is vacuous for reachable arguments (`nMemory` is
at least a page) and only makes termination evident. -/
def growMemLoop (nNew nMin : Nat) : Nat :=
  if h : 0 < nNew ∧ nNew < nMin then growMemLoop (nNew * 2) nMin else nNew
  termination_by nMin - nNew
  decreasing_by omega

def growMem (nMemory nMin mxPmaSize : Nat) : Nat :=
  let nNew := growMemLoop (nMemory * 2) nMin
  let nNew := if nNew > mxPmaSize then mxPmaSize else nNew
  if nNew < nMin then nMin else nNew

/-- `vdbeSorterFlushPMA` in the single-threaded build
(vdbesort.c:1528–1530): set `bUsePMA` and run `vdbeSorterListToPMA`,
which sorts the in-memory list, appends it to the temp file as a new PMA
(`pTask->nPMA++`) and empties the list. -/
def vdbeSorterFlushPMA (c : List Nat → List Nat → Int) (s : VdbeSorterW) :
    VdbeSorterW × Int :=
  ({ s with
      bUsePMA := true
      nPMA := s.nPMA + 1
      pmas := s.pmas ++ [vdbeSorterSort c s.list.pList]
      list := { s.list with pList := [] } }, SQLITE_OK)

/-- `sqlite3VdbeSorterWrite` (vdbesort.c:1594): decide whether to flush
the in-memory list to a PMA, then link the new record in at the head of
the list.  The flush decision (vdbesort.c:1626–1634) is:

* nothing when `mxPmaSize == 0`;
* with the bulk arena: `iMemory && (iMemory + nReq) > mxPmaSize`;
* without: `szPMA > mxPmaSize || (szPMA > mnPmaSize && heapNearlyFull)`.

`sqlite3HeapNearlyFull` is a host hint, passed in as `heap`. -/
def sqlite3VdbeSorterWrite (c : List Nat → List Nat → Int) (heap : Bool)
    (pVal : List Nat) (s : VdbeSorterW) : VdbeSorterW × Int :=
  let nReq := pVal.length + sizeofSorterRecord
  let nPMA := pVal.length + sqlite3VarintLen pVal.length
  let bFlush :=
    if s.mxPmaSize ≠ 0 then
      if s.list.aMemory then
        s.iMemory ≠ 0 && decide (s.iMemory + nReq > s.mxPmaSize)
      else
        decide (s.list.szPMA > s.mxPmaSize) ||
          (decide (s.list.szPMA > s.mnPmaSize) && heap)
    else false
  let (s, rc) :=
    if bFlush then
      let (s, rc) := vdbeSorterFlushPMA c s
      ({ s with list := { s.list with szPMA := 0 }, iMemory := 0 }, rc)
    else (s, SQLITE_OK)
  let s := { s with
    list := { s.list with szPMA := s.list.szPMA + nPMA }
    mxKeysize := if nPMA > s.mxKeysize then nPMA else s.mxKeysize }
  let s :=
    if s.list.aMemory then
      let nMin := s.iMemory + nReq
      let s := if nMin > s.nMemory then
          { s with nMemory := growMem s.nMemory nMin s.mxPmaSize }
        else s
      { s with
          iMemory := s.iMemory + ROUND8 nReq
          list := { s.list with pList := pVal :: s.list.pList } }
    else
      { s with list := { s.list with pList := pVal :: s.list.pList } }
  (s, rc)

/-- `sqlite3VdbeSorterReset` (vdbesort.c:1078): unconditionally release
the merger, the per-task resources and the in-memory list, and clear all
accounting fields; the comparison scratch (and with it its sticky
`errCode`) is freed.  The bulk arena itself is kept (it is freed by
`sqlite3VdbeSorterClose`). -/
def sqlite3VdbeSorterReset (s : VdbeSorterW) : VdbeSorterW :=
  { s with
      list := { pList := [], szPMA := 0, aMemory := s.list.aMemory }
      bUsePMA := false
      iMemory := 0
      mxKeysize := 0
      nPMA := 0
      pmas := []
      unpackedErrCode := 0 }

/-- The flush condition as the specification states it, amended with the
two guards present in the code: a configured (nonzero) maximum PMA size,
and, in the arena case, at least one record already buffered. -/
def flushRequiredSpec (heap : Bool) (s : VdbeSorterW) (recLen : Nat) : Bool :=
  decide (0 < s.mxPmaSize) &&
    (if s.list.aMemory then
        decide (0 < s.iMemory) &&
          decide (s.mxPmaSize < s.iMemory + (recLen + sizeofSorterRecord))
      else
        decide (s.mxPmaSize < s.list.szPMA) ||
          (decide (s.mnPmaSize < s.list.szPMA) && heap))

/-- **C5 (counterexample).** The claim states that with a bulk-memory
arena a flush occurs whenever `used + n_req > max_pma_size`.  In the
state below (`aMemory` in use, `iMemory = 0`, `mxPmaSize = 10`) a
100-byte record makes `used + n_req = 116 > 10`, yet
`sqlite3VdbeSorterWrite` does not flush (no PMA is created): the code
additionally requires `iMemory != 0`, i.e. at least one record already
in memory (vdbesort.c:1628). -/
theorem sorter_write_counterexample :
    (let s0 : VdbeSorterW :=
      { mnPmaSize := 5, mxPmaSize := 10, mxKeysize := 0, iMemory := 0
        nMemory := 64
        list := { pList := [], szPMA := 0, aMemory := true }
        bUsePMA := false, nPMA := 0, pmas := [], unpackedErrCode := 0 }
     let out := sqlite3VdbeSorterWrite (fun _ _ => 0) false
        (List.replicate 100 0) s0
     0 + (100 + sizeofSorterRecord) > s0.mxPmaSize ∧
       out.1.nPMA = 0 ∧ out.1.pmas = [] ∧ out.2 = SQLITE_OK) := by
  exact ⟨by decide, by decide, by decide, by decide⟩

/-- **C5 (amended).** On every sorter write, a flush to a PMA occurs
exactly under the spec conditions amended by the two code guards: a
nonzero configured `max_pma_size`, and — with a bulk-memory arena — at
least one record already buffered (`used > 0`) and
`used + n_req > max_pma_size`; without an arena, the list PMA size
exceeding `max_pma_size`, or exceeding `min_pma_size` while the
heap-nearly-full hint is true.  In all other cases the record is
appended without flushing, and the write reports `SQLITE_OK`. -/
theorem sorter_write_flush_amended (c : List Nat → List Nat → Int)
    (heap : Bool) (pVal : List Nat) (s : VdbeSorterW) :
    (sqlite3VdbeSorterWrite c heap pVal s).1.nPMA =
        (if flushRequiredSpec heap s pVal.length then s.nPMA + 1 else s.nPMA) ∧
      (sqlite3VdbeSorterWrite c heap pVal s).1.list.pList =
        (if flushRequiredSpec heap s pVal.length then [pVal]
          else pVal :: s.list.pList) ∧
      (sqlite3VdbeSorterWrite c heap pVal s).2 = SQLITE_OK := by
  have hcond : (if s.mxPmaSize ≠ 0 then
      if s.list.aMemory then
        s.iMemory ≠ 0 &&
          decide (s.iMemory + (pVal.length + sizeofSorterRecord) > s.mxPmaSize)
      else
        decide (s.list.szPMA > s.mxPmaSize) ||
          (decide (s.list.szPMA > s.mnPmaSize) && heap)
    else false) = flushRequiredSpec heap s pVal.length := by
    rw [flushRequiredSpec]
    by_cases hmx : s.mxPmaSize = 0
    · simp [hmx]
    · have h1 : 0 < s.mxPmaSize := Nat.pos_of_ne_zero hmx
      by_cases ha : s.list.aMemory
      · by_cases hi : s.iMemory = 0
        · simp [hmx, ha, hi]
        · simp [hmx, ha, hi, h1, Nat.pos_of_ne_zero hi, gt_iff_lt]
      · simp [hmx, ha, h1, gt_iff_lt]
  rw [sqlite3VdbeSorterWrite]
  simp only [hcond]
  cases hf : flushRequiredSpec heap s pVal.length
  · simp only [Bool.false_eq_true, if_false]
    refine ⟨?_, ?_, ?_⟩ <;>
      (first
        | rfl
        | (split <;> (try split) <;> (first | rfl | trivial))
        | trivial)
  · simp only [if_true]
    rw [vdbeSorterFlushPMA]
    refine ⟨?_, ?_, ?_⟩ <;>
      (first
        | rfl
        | (split <;> (try split) <;> (first | rfl | trivial))
        | trivial)

/-! ### PMA writer (`vdbesort.c` lines 1280–1361)

The buffered page-aligned writer.  The temp file is modelled as the list
of `(offset, bytes)` writes issued through `sqlite3OsWrite`, which is
assumed to succeed (I/O errors are injected only through a pre-set
`eFWErr`).  `aBuffer` is the page buffer. -/
structure PmaWriter where
  eFWErr : Int
  aBuffer : List Nat
  nBuffer : Nat
  iBufStart : Nat
  iBufEnd : Nat
  iWriteOff : Int
  deriving Repr, DecidableEq

/-- A temp file: the sequence of `(offset, bytes)` writes issued. -/
abbrev SorterIOFile : Type := List (Int × List Nat)

/-- Overwrite `buf[i .. i+xs.length)` with `xs`. -/
def listOverwrite (buf : List Nat) (i : Nat) (xs : List Nat) : List Nat :=
  buf.take i ++ xs ++ buf.drop (i + xs.length)

/-- The loop body of `vdbePmaWriteBlob` (vdbesort.c:1304–1326):
`while (nRem > 0 && p->eFWErr == 0)` copy up to `nBuffer - iBufEnd`
bytes into the buffer, and when the buffer fills, write it out and reset
it.  The `nCopy = 0` escape is unreachable: the source maintains
`iBufEnd < nBuffer` at every loop entry (assert at vdbesort.c:1322); it
is present only to make termination evident. -/
def vdbePmaWriteBlob (p : PmaWriter) (f : SorterIOFile) (data : List Nat) :
    PmaWriter × SorterIOFile :=
  if p.eFWErr ≠ 0 ∨ data = [] then (p, f)
  else
    let nCopy := min data.length (p.nBuffer - p.iBufEnd)
    if h : nCopy = 0 then (p, f)
    else
      let p1 := { p with
        aBuffer := listOverwrite p.aBuffer p.iBufEnd (data.take nCopy)
        iBufEnd := p.iBufEnd + nCopy }
      let pf2 :=
        if p1.iBufEnd = p1.nBuffer then
          ({ p1 with
              iBufStart := 0
              iBufEnd := 0
              iWriteOff := p1.iWriteOff + Int.ofNat p1.nBuffer },
            f ++ [(p1.iWriteOff + Int.ofNat p1.iBufStart,
              (p1.aBuffer.drop p1.iBufStart).take (p1.iBufEnd - p1.iBufStart))])
        else (p1, f)
      vdbePmaWriteBlob pf2.1 pf2.2 (data.drop nCopy)
  termination_by data.length
  decreasing_by
    have h1 : 0 < nCopy := Nat.pos_of_ne_zero h
    have h2 : ¬ data = [] := by tauto
    have h3 : 0 < data.length := List.length_pos.mpr h2
    simp only [List.length_drop]
    omega

/-- `vdbePmaWriterFinish` (vdbesort.c:1337): flush the buffered tail if
no error is pending, report the end-of-file offset, release the buffer
and surface the stored error code.  Returns
`(cleared writer, file, iEof, rc)`. -/
def vdbePmaWriterFinish (p : PmaWriter) (f : SorterIOFile) :
    PmaWriter × SorterIOFile × Int × Int :=
  let f1 :=
    if p.eFWErr = 0 ∧ p.iBufEnd > p.iBufStart then
      f ++ [(p.iWriteOff + Int.ofNat p.iBufStart,
        (p.aBuffer.drop p.iBufStart).take (p.iBufEnd - p.iBufStart))]
    else f
  let iEof := p.iWriteOff + Int.ofNat p.iBufEnd
  ({ eFWErr := 0, aBuffer := [], nBuffer := 0, iBufStart := 0, iBufEnd := 0,
      iWriteOff := 0 }, f1, iEof, p.eFWErr)

/-- **C8 (counterexample).** The claim states that once the sorter has
observed an error, every subsequent operation first tests the stored
error state, performs no work, and re-surfaces the same error code.  But
`sqlite3VdbeSorterWrite` tests no stored error: from a state whose
comparison scratch holds the sticky `SQLITE_NOMEM`
(`pTask->pUnpacked->errCode`), a write appends the record and returns
`SQLITE_OK`, not the stored error. -/
theorem sorter_sticky_counterexample :
    (let s0 : VdbeSorterW :=
      { mnPmaSize := 5, mxPmaSize := 10, mxKeysize := 0, iMemory := 0
        nMemory := 64
        list := { pList := [], szPMA := 0, aMemory := false }
        bUsePMA := false, nPMA := 0, pmas := []
        unpackedErrCode := SQLITE_NOMEM }
     let out := sqlite3VdbeSorterWrite (fun _ _ => 0) false [1, 2, 3] s0
     s0.unpackedErrCode = SQLITE_NOMEM ∧ out.2 = SQLITE_OK ∧
       SQLITE_OK ≠ SQLITE_NOMEM ∧ out.1.list.pList = [[1, 2, 3]]) := by
  exact ⟨by decide, by decide, by decide, by decide⟩

/-- **C8 (amended).** Error stickiness lives in the PMA writer, not at
the sorter entry points: once the writer error flag `eFWErr` is set,
`vdbePmaWriteBlob` performs no work (writer and file are unchanged) and
`vdbePmaWriterFinish` re-surfaces the same stored code without touching
the file; the sorter write operation itself performs no stored-error
test (it returns `SQLITE_OK` whatever the stored comparison-scratch
error is); and reset always runs to completion, releasing the in-memory
list and PMAs and clearing the error state, regardless of the stored
error. -/
theorem sorter_sticky_amended (p : PmaWriter) (f : SorterIOFile)
    (data : List Nat) (herr : p.eFWErr ≠ 0) :
    vdbePmaWriteBlob p f data = (p, f) ∧
      (vdbePmaWriterFinish p f).2.2.2 = p.eFWErr ∧
      (vdbePmaWriterFinish p f).2.1 = f ∧
      (∀ (s : VdbeSorterW) (c : List Nat → List Nat → Int) (heap : Bool)
          (rec : List Nat) (e : Int),
        (sqlite3VdbeSorterWrite c heap rec
            { s with unpackedErrCode := e }).2 = SQLITE_OK ∧
        sqlite3VdbeSorterReset { s with unpackedErrCode := e } =
          sqlite3VdbeSorterReset s ∧
        (sqlite3VdbeSorterReset s).list.pList = [] ∧
        (sqlite3VdbeSorterReset s).pmas = [] ∧
        (sqlite3VdbeSorterReset s).unpackedErrCode = 0) := by
  refine ⟨?_, ?_, ?_, ?_⟩
  · rw [vdbePmaWriteBlob, if_pos (Or.inl herr)]
  · rw [vdbePmaWriterFinish]
  · rw [vdbePmaWriterFinish]
    simp only [if_neg (by tauto : ¬ (p.eFWErr = 0 ∧ p.iBufEnd > p.iBufStart))]
  · intro s c heap rec e
    refine ⟨(sorter_write_flush_amended c heap rec _).2.2, rfl, rfl, rfl, rfl⟩

/-- Witness for the amended C8 theorem: a writer with a pending error
discards a write and re-surfaces its error code. -/
theorem sorter_sticky_amended_witness :
    (vdbePmaWriteBlob
        { eFWErr := 10, aBuffer := [0, 0], nBuffer := 2, iBufStart := 0,
          iBufEnd := 0, iWriteOff := 0 } [] [7, 8]).1.eFWErr = 10 := by
  have h := sorter_sticky_amended
    { eFWErr := 10, aBuffer := [0, 0], nBuffer := 2, iBufStart := 0,
      iBufEnd := 0, iWriteOff := 0 } [] [7, 8] (by decide)
  rw [h.1]

/-! ### Sorter key comparison (`sqlite3VdbeSorterCompare`,
vdbesort.c lines 2403–2435)

The decoded form of a record key is a list of fields, `none` standing for
an SQL NULL (`MEM_Null`).  `sqlite3VdbeRecordUnpack` and
`sqlite3VdbeRecordCompare` live in `vdbeaux.c`, outside the snapshot, so
the decoder is taken as given (the current sorter key is passed in
decoded form) and the record comparator is a parameter.  On the first
call the scratch is sized to `pKeyInfo->nField - nIgnore` fields
(vdbesort.c:2420), which bounds both the NULL scan and the comparison. -/
abbrev DecodedKey : Type := List (Option Int)

/-- `sqlite3VdbeSorterCompare` (vdbesort.c:2403): decode the current
sorter key; if any of the compared fields is NULL report `-1` — the
code's encoding of "the sorter key is less than `pVal`" per its header
comment — otherwise report the host comparator's three-valued result of
`pVal` against the decoded key.  Returns `(rc, *pRes)`. -/
def sqlite3VdbeSorterCompare
    (recordCompare : DecodedKey → DecodedKey → Int)
    (nKeyField : Nat) (sorterKey : DecodedKey) (pVal : DecodedKey)
    (nIgnore : Nat) : Int × Int :=
  let nField := nKeyField - nIgnore
  let r2 := sorterKey.take nField
  if r2.any (fun fld => fld.isNone) then (SQLITE_OK, -1)
  else (SQLITE_OK, recordCompare pVal r2)

/-- **C7.** For every state of the sorter read phase, the compare
operation decodes the current sorter key and returns the three-valued
comparison against the caller-owned key; whenever the decoded sorter key
contains a NULL in any compared field, the reported result is the fixed
verdict `-1` — the code's encoding of "the sorter key is less than the
caller's key" (vdbesort.c:2392–2393) — regardless of the caller's key,
the host comparator, and any NULLs in the caller's key; and either way
the operation succeeds with `SQLITE_OK`. -/
theorem sorterCompare_ok
    (nKeyField nIgnore : Nat) (sorterKey : DecodedKey)
    (hnull : (sorterKey.take (nKeyField - nIgnore)).any
        (fun fld => fld.isNone) = true) :
    (∀ (recordCompare : DecodedKey → DecodedKey → Int) (pVal : DecodedKey),
        sqlite3VdbeSorterCompare recordCompare nKeyField sorterKey pVal
          nIgnore = (SQLITE_OK, -1)) ∧
    (∀ (recordCompare : DecodedKey → DecodedKey → Int) (pVal : DecodedKey)
        (sorterKey' : DecodedKey),
        (sorterKey'.take (nKeyField - nIgnore)).any
            (fun fld => fld.isNone) = false →
        sqlite3VdbeSorterCompare recordCompare nKeyField sorterKey' pVal
          nIgnore =
          (SQLITE_OK,
            recordCompare pVal (sorterKey'.take (nKeyField - nIgnore)))) := by
  constructor
  · intro recordCompare pVal
    rw [sqlite3VdbeSorterCompare]
    simp only [hnull, if_true]
  · intro recordCompare pVal sorterKey' hnotnull
    rw [sqlite3VdbeSorterCompare]
    simp only [hnotnull, Bool.false_eq_true, if_false]

/-- Witness for C7: with a two-field key whose second field is NULL, the
reported result is `-1` whatever the comparator says, and with no NULL
the comparator's verdict is passed through. -/
theorem sorterCompare_ok_witness :
    sqlite3VdbeSorterCompare (fun _ _ => 55) 2 [some 4, none]
        [some 9, some 9] 0 = (SQLITE_OK, -1) ∧
    sqlite3VdbeSorterCompare (fun _ _ => 55) 2 [some 4, some 5]
        [some 9, some 9] 0 = (SQLITE_OK, 55) :=
  ⟨(sorterCompare_ok 2 0 [some 4, none] (by decide)).1 (fun _ _ => 55)
      [some 9, some 9],
    (sorterCompare_ok 2 0 [some 4, none] (by decide)).2 (fun _ _ => 55)
      [some 9, some 9] [some 4, some 5] (by decide)⟩

/-! ### The PMA merge engine (`MergeEngine`, vdbesort.c lines 190–250,
`vdbeSorterDoCompare` lines 754–798, `vdbeSorterNext` lines 1441–1507)

A PMA reader (`PmaReader`) is modelled as the list of its remaining
records, `[]` standing for EOF (`pFile==0`); `vdbePmaReaderInit`
positions a reader at its first record, so a freshly opened reader is
simply the full record sequence of its PMA.  The merge engine holds the
reader array `aIter` (oldest PMA first), the comparison tree `aTree`
and its size `nTree` (a power of two, at most the fan-in 16;
`vdbeMergeEngineNew` zeroes the unused readers, leaving them at EOF).
-/

/-- `vdbePmaReaderNext` (vdbesort.c:650): advance reader `i` past its
current record. -/
def vdbePmaReaderNext (aIter : List (List α)) (i : Nat) : List (List α) :=
  aIter.set i (aIter.getD i []).tail

structure MergeEngine (α : Type) where
  nTree : Nat
  aIter : List (List α)
  aTree : List Nat

/-- The host comparator applied to the current records of readers `i1`
and `i2` (both positioned on a record). -/
def cHd (c : α → α → Int) (aIter : List (List α)) (i1 i2 : Nat) : Int :=
  match (aIter.getD i1 []).head?, (aIter.getD i2 []).head? with
  | Option.some k1, Option.some k2 => c k1 k2
  | _, _ => 0

/-- The local `i1` of `vdbeSorterDoCompare` (vdbesort.c:767–773): the
left leaf below `iOut` in the lower half of the tree, the left child's
stored winner above. -/
def dcIdx1 (nTree : Nat) (aTree : List Nat) (iOut : Nat) : Nat :=
  if iOut ≥ nTree / 2 then (iOut - nTree / 2) * 2
  else aTree.getD (iOut * 2) 0

/-- The local `i2` of `vdbeSorterDoCompare`. -/
def dcIdx2 (nTree : Nat) (aTree : List Nat) (iOut : Nat) : Nat :=
  if iOut ≥ nTree / 2 then (iOut - nTree / 2) * 2 + 1
  else aTree.getD (iOut * 2 + 1) 0

/-- `vdbeSorterDoCompare` (vdbesort.c:754): recompute `aTree[iOut]`.
The two candidates are the pair of leaf readers below `iOut` when it is
in the lower half of the tree, otherwise the winners stored by its two
children; an EOF reader loses, and otherwise `res <= 0` picks the
first (the lower-indexed, older) reader. -/
def vdbeSorterDoCompare (c : α → α → Int) (aIter : List (List α))
    (nTree : Nat) (aTree : List Nat) (iOut : Nat) : List Nat :=
  aTree.set iOut
    (if (aIter.getD (dcIdx1 nTree aTree iOut) []).isEmpty then
      dcIdx2 nTree aTree iOut
    else if (aIter.getD (dcIdx2 nTree aTree iOut) []).isEmpty then
      dcIdx1 nTree aTree iOut
    else if cHd c aIter (dcIdx1 nTree aTree iOut) (dcIdx2 nTree aTree iOut)
        ≤ 0 then dcIdx1 nTree aTree iOut
    else dcIdx2 nTree aTree iOut)

/-- The comparison loop of `vdbeIncrInitMerger` (vdbesort.c:1881–1883):
`for (i = nTree-1; i > 0; i--) vdbeSorterDoCompare(i)`. -/
def initLoop (c : α → α → Int) (aIter : List (List α)) (nTree : Nat) :
    Nat → List Nat → List Nat
  | 0, aTree => aTree
  | k + 1, aTree =>
    initLoop c aIter nTree k (vdbeSorterDoCompare c aIter nTree aTree (k + 1))

/-- The doubling loop of `vdbeMergeEngineNew` (vdbesort.c:1031–1033):
the smallest power of two that is at least `nIter`, starting from 2.
The loop doubles `N`, so `nIter` steps of fuel always suffice. -/
def powLoop (nIter : Nat) : Nat → Nat → Nat
  | 0, n => n
  | f + 1, n => if n < nIter then powLoop nIter f (n + n) else n

/-- `vdbeMergeEngineNew` + `vdbePmaReaderInit` for each PMA +
`vdbeIncrInitMerger` in the single-threaded `INCRINIT_NORMAL` path:
allocate `N` reader slots (the unused ones zeroed, i.e. at EOF),
position every reader on its first record, and fill the whole
comparison tree bottom-up. -/
def mergeEngineInit (c : α → α → Int) (readers : List (List α)) :
    MergeEngine α :=
  let N := powLoop readers.length readers.length 2
  { nTree := N
    aIter := readers ++ List.replicate (N - readers.length) []
    aTree := initLoop c (readers ++ List.replicate (N - readers.length) [])
      N (N - 1) (List.replicate N 0) }

/-- The `iRes` computation of `vdbeSorterNext` (vdbesort.c:1469–1477):
an EOF `pIter1` loses (`+1`), an EOF `pIter2` loses (`-1`), otherwise
the comparator decides. -/
def nextRes (c : α → α → Int) (aIter : List (List α)) (i1 i2 : Nat) : Int :=
  if (aIter.getD i1 []).isEmpty then 1
  else if (aIter.getD i2 []).isEmpty then -1
  else cHd c aIter i1 i2

/-- The `aTree[]` update loop of `vdbeSorterNext` (vdbesort.c:1465–1502):
walk from the parent of the advanced leaf up to the root; at each node
store the winner of the two current candidates (`iRes < 0`, or a tie
with `pIter1` the lower-indexed — older — reader, keeps `pIter1`,
vdbesort.c:1489–1494) and fetch the sibling's stored winner
(`aTree[i ^ 0x0001]`) as the next opponent. -/
def nextLoop (c : α → α → Int) (aIter : List (List α)) :
    Nat → Nat → Nat → List Nat → List Nat
  | i, i1, i2, aTree =>
    if h : i = 0 then aTree
    else
      if nextRes c aIter i1 i2 < 0 ∨ (nextRes c aIter i1 i2 = 0 ∧ i1 < i2)
      then
        nextLoop c aIter (i / 2) i1 ((aTree.set i i1).getD (i ^^^ 1) 0)
          (aTree.set i i1)
      else
        nextLoop c aIter (i / 2) ((aTree.set i i2).getD (i ^^^ 1) 0) i2
          (aTree.set i i2)
  termination_by i _ _ _ => i
  decreasing_by
    all_goals exact Nat.div_lt_self (Nat.pos_of_ne_zero h) (by omega)

/-- `vdbeSorterNext` (vdbesort.c:1441) for the single-threaded merger:
advance the current winner's reader (`iPrev = aTree[1]`), recompute the
path from its leaf pair (`iPrev & 0xFFFE`, `iPrev | 0x0001`) starting at
node `(nTree+iPrev)/2`, and report EOF when the new overall winner is at
EOF (vdbesort.c:1503). -/
def vdbeSorterNextM (c : α → α → Int) (m : MergeEngine α) :
    MergeEngine α × Bool :=
  let iPrev := m.aTree.getD 1 0
  let aIter := vdbePmaReaderNext m.aIter iPrev
  let aTree := nextLoop c aIter ((m.nTree + iPrev) / 2)
    (iPrev &&& 0xFFFE) (iPrev ||| 1) m.aTree
  ({ nTree := m.nTree, aIter := aIter, aTree := aTree },
    (aIter.getD (aTree.getD 1 0) []).isEmpty)

/-- The read loop of the VDBE driver over the merger
(`sqlite3VdbeSorterRowkey` then `sqlite3VdbeSorterNext`,
vdbesort.c:2330–2366): the current record is the head of the reader
`aIter[aTree[1]]`.  The fuel is immaterial once it reaches the number of
buffered records. -/
def mergerOut (c : α → α → Int) : Nat → MergeEngine α → List α
  | 0, _ => []
  | fuel + 1, m =>
    match (m.aIter.getD (m.aTree.getD 1 0) []).head? with
    | Option.none => []
    | Option.some k =>
      let step := vdbeSorterNextM c m
      if step.2 then [k] else k :: mergerOut c fuel step.1

/-- Total number of records buffered across a reader array. -/
def totalLen (readers : List (List α)) : Nat :=
  (readers.map List.length).sum

/-- A level-0 merge engine (`vdbeMergeEngineLevel0`) over the given PMAs,
read to exhaustion. -/
def engineOut (c : α → α → Int) (readers : List (List α)) : List α :=
  mergerOut c (totalLen readers) (mergeEngineInit c readers)

/-! #### Shape of the comparison tree

The tree shape is finite (`nTree ∈ {2,4,8,16}`), so its combinatorial
facts are settled by evaluation.  `leaves nTree i` is the set of reader
indices below node `i`; `pathNodes i` the chain of nodes from `i` up to
the root.  Both recursions halve their argument, so the argument itself
is enough fuel. -/

def leavesF : Nat → Nat → Nat → List Nat
  | 0, _, _ => []
  | f + 1, nTree, i =>
    if i = 0 then []
    else if nTree / 2 ≤ i then [2 * i - nTree, 2 * i - nTree + 1]
    else leavesF f nTree (2 * i) ++ leavesF f nTree (2 * i + 1)

/-- Reader indices covered by tree node `i`. -/
def leaves (nTree i : Nat) : List Nat := leavesF nTree nTree i

def pathNodesF : Nat → Nat → List Nat
  | 0, _ => []
  | f + 1, i => if i = 0 then [] else i :: pathNodesF f (i / 2)

/-- The chain of tree nodes from `i` up to the root. -/
def pathNodes (i : Nat) : List Nat := pathNodesF i i

/-- The reader indices compared at node `i`: the left input of
`vdbeSorterDoCompare` — a leaf pair in the lower half, the left
subtree's coverage above. -/
def childL (nTree i : Nat) : List Nat :=
  if nTree / 2 ≤ i then [(i - nTree / 2) * 2] else leaves nTree (2 * i)

def childR (nTree i : Nat) : List Nat :=
  if nTree / 2 ≤ i then [(i - nTree / 2) * 2 + 1]
  else leaves nTree (2 * i + 1)

/-- Reader `i` is at EOF. -/
def rdEof (aIter : List (List α)) (i : Nat) : Prop := aIter.getD i [] = []

/-- The winner stored for a range `R` of readers: a member that either
witnesses that the whole range is at EOF, or is itself live and `beats`
every other reader of the range. -/
def winnerProp (beats : Nat → Nat → Prop) (aIter : List (List α))
    (R : List Nat) (w : Nat) : Prop :=
  w ∈ R ∧ ((∀ j ∈ R, rdEof aIter j) ∨
    (¬ rdEof aIter w ∧ ∀ j ∈ R, j ≠ w → beats w j))

theorem winnerProp_transport {beats beats' : Nat → Nat → Prop}
    {aI aI' : List (List α)} {R : List Nat} {w : Nat}
    (hsame : ∀ j ∈ R, aI'.getD j [] = aI.getD j [])
    (hb : ∀ a b, a ∈ R → b ∈ R → beats a b → beats' a b)
    (h : winnerProp beats aI R w) : winnerProp beats' aI' R w := by
  obtain ⟨hw, hcase⟩ := h
  refine ⟨hw, ?_⟩
  rcases hcase with hall | ⟨hne, hbeats⟩
  · refine Or.inl (fun j hj => ?_)
    show aI'.getD j [] = []
    rw [hsame j hj]
    exact hall j hj
  · refine Or.inr ⟨?_, fun j hj hjw => hb w j hw hj (hbeats j hj hjw)⟩
    show ¬ aI'.getD w [] = []
    rw [hsame w hw]
    exact hne

theorem winnerProp_congr {beats : Nat → Nat → Prop}
    {aI : List (List α)} {R R' : List Nat} {w : Nat}
    (hR : ∀ x, x ∈ R' ↔ x ∈ R)
    (h : winnerProp beats aI R w) : winnerProp beats aI R' w := by
  obtain ⟨hw, hcase⟩ := h
  refine ⟨(hR w).mpr hw, ?_⟩
  rcases hcase with hall | ⟨hne, hbeats⟩
  · exact Or.inl (fun j hj => hall j ((hR j).mp hj))
  · exact Or.inr ⟨hne, fun j hj hjw => hbeats j ((hR j).mp hj) hjw⟩

/-- The index picked by both comparison sites: an EOF reader loses, a
tie is broken towards the lower index. -/
def pickOf (c : α → α → Int) (aIter : List (List α)) (i1 i2 : Nat) : Nat :=
  if (aIter.getD i1 []).isEmpty then i2
  else if (aIter.getD i2 []).isEmpty then i1
  else if cHd c aIter i1 i2 < 0 ∨ (cHd c aIter i1 i2 = 0 ∧ i1 < i2) then i1
  else i2

/-- `vdbeSorterDoCompare`'s selection agrees with `pickOf` whenever its
first input has the lower index — which holds at every call site, the
left subtree covering lower reader indices. -/
theorem doCompare_pick_eq (c : α → α → Int) (aIter : List (List α))
    (i1 i2 : Nat) (h12 : i1 < i2) :
    (if (aIter.getD i1 []).isEmpty then i2
      else if (aIter.getD i2 []).isEmpty then i1
      else if cHd c aIter i1 i2 ≤ 0 then i1 else i2) =
      pickOf c aIter i1 i2 := by
  rw [pickOf]
  by_cases h1 : (aIter.getD i1 []).isEmpty
  · rw [if_pos h1, if_pos h1]
  · rw [if_neg h1, if_neg h1]
    by_cases h2 : (aIter.getD i2 []).isEmpty
    · rw [if_pos h2, if_pos h2]
    · rw [if_neg h2, if_neg h2]
      by_cases hc : cHd c aIter i1 i2 ≤ 0
      · rw [if_pos hc, if_pos (by omega : cHd c aIter i1 i2 < 0 ∨
          (cHd c aIter i1 i2 = 0 ∧ i1 < i2))]
      · rw [if_neg hc, if_neg (by omega : ¬ (cHd c aIter i1 i2 < 0 ∨
          (cHd c aIter i1 i2 = 0 ∧ i1 < i2)))]

/-- `vdbeSorterNext`'s selection agrees with `pickOf` for any
orientation of the pair. -/
theorem nextRes_pick_eq (c : α → α → Int) (aIter : List (List α))
    (i1 i2 : Nat) :
    (if nextRes c aIter i1 i2 < 0 ∨ (nextRes c aIter i1 i2 = 0 ∧ i1 < i2)
      then i1 else i2) = pickOf c aIter i1 i2 := by
  rw [pickOf, nextRes]
  by_cases h1 : (aIter.getD i1 []).isEmpty
  · rw [if_pos h1, if_pos h1, if_neg (by omega : ¬ ((1:Int) < 0 ∨
      ((1:Int) = 0 ∧ i1 < i2)))]
  · rw [if_neg h1, if_neg h1]
    by_cases h2 : (aIter.getD i2 []).isEmpty
    · rw [if_pos h2, if_pos h2, if_pos (by omega : (-1:Int) < 0 ∨
        ((-1:Int) = 0 ∧ i1 < i2))]
    · rw [if_neg h2, if_neg h2]

/-- The winner of the combination of two ranges, under the hypotheses
satisfied by the comparison relation (`beats`) of each instantiation:
EOF readers always lose; a strictly smaller or equal-but-lower-indexed
live record wins; `beats` is transitive between live readers. -/
theorem winnerProp_pick (c : α → α → Int) (beats : Nat → Nat → Prop)
    (aIter : List (List α))
    (hEOF : ∀ w j, rdEof aIter j → beats w j)
    (hLT : ∀ w j, ¬ rdEof aIter w → ¬ rdEof aIter j →
      cHd c aIter w j < 0 → beats w j)
    (hEQ : ∀ w j, ¬ rdEof aIter w → ¬ rdEof aIter j →
      cHd c aIter w j = 0 → w < j → beats w j)
    (hGT : ∀ w j, ¬ rdEof aIter w → ¬ rdEof aIter j →
      0 < cHd c aIter w j → beats j w)
    (hEQ' : ∀ w j, ¬ rdEof aIter w → ¬ rdEof aIter j →
      cHd c aIter w j = 0 → j < w → beats j w)
    (hTR : ∀ a b d, ¬ rdEof aIter a → ¬ rdEof aIter b →
      beats a b → beats b d → beats a d)
    (i1 i2 : Nat) (hne : i1 ≠ i2) (R1 R2 R : List Nat)
    (hR : ∀ x, x ∈ R ↔ x ∈ R1 ∨ x ∈ R2)
    (h1 : winnerProp beats aIter R1 i1)
    (h2 : winnerProp beats aIter R2 i2) :
    winnerProp beats aIter R (pickOf c aIter i1 i2) := by
  obtain ⟨hw1, hc1⟩ := h1
  obtain ⟨hw2, hc2⟩ := h2
  have hEofIff : ∀ i, (aIter.getD i []).isEmpty = true ↔ rdEof aIter i := by
    intro i
    rw [rdEof, List.isEmpty_iff]
  rw [pickOf]
  by_cases h1e : (aIter.getD i1 []).isEmpty
  · -- reader i1 at EOF: its whole range is at EOF, i2 is picked
    rw [if_pos h1e]
    have hall1 : ∀ j ∈ R1, rdEof aIter j := by
      rcases hc1 with hall | ⟨hne1, _⟩
      · exact hall
      · exact absurd ((hEofIff i1).mp h1e) hne1
    refine ⟨(hR i2).mpr (Or.inr hw2), ?_⟩
    rcases hc2 with hall2 | ⟨hne2, hb2⟩
    · refine Or.inl (fun j hj => ?_)
      rcases (hR j).mp hj with h | h
      · exact hall1 j h
      · exact hall2 j h
    · refine Or.inr ⟨hne2, fun j hj hjne => ?_⟩
      rcases (hR j).mp hj with h | h
      · exact hEOF i2 j (hall1 j h)
      · exact hb2 j h hjne
  · rw [if_neg h1e]
    have hne1 : ¬ rdEof aIter i1 := fun h => h1e ((hEofIff i1).mpr h)
    have hb1 : ∀ j ∈ R1, j ≠ i1 → beats i1 j := by
      rcases hc1 with hall | ⟨_, hb⟩
      · exact absurd (hall i1 hw1) hne1
      · exact hb
    by_cases h2e : (aIter.getD i2 []).isEmpty
    · -- reader i2 at EOF: its whole range is at EOF, i1 is picked
      rw [if_pos h2e]
      have hall2 : ∀ j ∈ R2, rdEof aIter j := by
        rcases hc2 with hall | ⟨hne2, _⟩
        · exact hall
        · exact absurd ((hEofIff i2).mp h2e) hne2
      refine ⟨(hR i1).mpr (Or.inl hw1), Or.inr ⟨hne1, fun j hj hjne => ?_⟩⟩
      rcases (hR j).mp hj with h | h
      · exact hb1 j h hjne
      · exact hEOF i1 j (hall2 j h)
    · rw [if_neg h2e]
      have hne2 : ¬ rdEof aIter i2 := fun h => h2e ((hEofIff i2).mpr h)
      have hb2 : ∀ j ∈ R2, j ≠ i2 → beats i2 j := by
        rcases hc2 with hall | ⟨_, hb⟩
        · exact absurd (hall i2 hw2) hne2
        · exact hb
      by_cases hcond : cHd c aIter i1 i2 < 0 ∨
          (cHd c aIter i1 i2 = 0 ∧ i1 < i2)
      · -- i1 wins
        rw [if_pos hcond]
        have h12 : beats i1 i2 := by
          rcases hcond with h | ⟨h, hlt⟩
          · exact hLT i1 i2 hne1 hne2 h
          · exact hEQ i1 i2 hne1 hne2 h hlt
        refine ⟨(hR i1).mpr (Or.inl hw1), Or.inr ⟨hne1,
          fun j hj hjne => ?_⟩⟩
        rcases (hR j).mp hj with h | h
        · exact hb1 j h hjne
        · by_cases hji2 : j = i2
          · exact hji2 ▸ h12
          · exact hTR i1 i2 j hne1 hne2 h12 (hb2 j h hji2)
      · -- i2 wins
        rw [if_neg hcond]
        have h21 : beats i2 i1 := by
          by_cases hgt : 0 < cHd c aIter i1 i2
          · exact hGT i1 i2 hne1 hne2 hgt
          · have h0 : cHd c aIter i1 i2 = 0 := by omega
            have h21' : i2 < i1 := by
              rcases Nat.lt_or_ge i2 i1 with h | h
              · exact h
              · exact absurd (Or.inr ⟨h0, by omega⟩) hcond
            exact hEQ' i1 i2 hne1 hne2 h0 h21'
        refine ⟨(hR i2).mpr (Or.inr hw2), Or.inr ⟨hne2,
          fun j hj hjne => ?_⟩⟩
        rcases (hR j).mp hj with h | h
        · by_cases hji1 : j = i1
          · exact hji1 ▸ h21
          · exact hTR i2 i1 j hne2 hne1 h21 (hb1 j h hji1)
        · exact hb2 j h hjne

theorem getD_set_ne : ∀ (l : List β) (i j : Nat) (v d : β), i ≠ j →
    (l.set i v).getD j d = l.getD j d
  | [], _, _, _, _, _ => by rw [List.set_nil]
  | a :: l, 0, 0, v, d, h => absurd rfl h
  | a :: l, 0, j + 1, v, d, _ => by
      rw [List.set_cons_zero, List.getD_cons_succ, List.getD_cons_succ]
  | a :: l, i + 1, 0, v, d, _ => by
      rw [List.set_cons_succ, List.getD_cons_zero, List.getD_cons_zero]
  | a :: l, i + 1, j + 1, v, d, h => by
      rw [List.set_cons_succ, List.getD_cons_succ, List.getD_cons_succ]
      exact getD_set_ne l i j v d (by omega)

theorem getD_set_self : ∀ (l : List β) (i : Nat) (v d : β), i < l.length →
    (l.set i v).getD i d = v
  | [], i, v, d, h => absurd h (by simp)
  | a :: l, 0, v, d, _ => by
      rw [List.set_cons_zero, List.getD_cons_zero]
  | a :: l, i + 1, v, d, h => by
      rw [List.set_cons_succ, List.getD_cons_succ]
      exact getD_set_self l i v d (by simp at h; omega)

theorem winnerProp_singleton (beats : Nat → Nat → Prop)
    (aIter : List (List α)) (j : Nat) : winnerProp beats aIter [j] j := by
  refine ⟨List.mem_singleton_self j, ?_⟩
  by_cases h : rdEof aIter j
  · exact Or.inl (fun x hx => (List.mem_singleton.mp hx) ▸ h)
  · refine Or.inr ⟨h, fun x hx hxj => ?_⟩
    exact absurd (List.mem_singleton.mp hx) hxj

/-! #### Finite facts about the comparison-tree shape

`nTree` is one of `2, 4, 8, 16` (a power of two bounded by the fan-in),
so each structural fact is settled by evaluation over the finitely many
nodes and leaves. -/

theorem tf_leaves_split {nTree : Nat}
    (hN : nTree = 2 ∨ nTree = 4 ∨ nTree = 8 ∨ nTree = 16) :
    ∀ i, i < nTree → 1 ≤ i →
      leaves nTree i = childL nTree i ++ childR nTree i := by
  rcases hN with h | h | h | h <;> subst h <;> decide

theorem tf_child_lt {nTree : Nat}
    (hN : nTree = 2 ∨ nTree = 4 ∨ nTree = 8 ∨ nTree = 16) :
    ∀ i, i < nTree → 1 ≤ i →
      ∀ x ∈ childL nTree i, ∀ y ∈ childR nTree i, x < y := by
  rcases hN with h | h | h | h <;> subst h <;> decide

theorem tf_leaves_ub {nTree : Nat}
    (hN : nTree = 2 ∨ nTree = 4 ∨ nTree = 8 ∨ nTree = 16) :
    ∀ i, i < nTree → 1 ≤ i → ∀ x ∈ leaves nTree i, x < nTree := by
  rcases hN with h | h | h | h <;> subst h <;> decide

theorem tf_root_mem {nTree : Nat}
    (hN : nTree = 2 ∨ nTree = 4 ∨ nTree = 8 ∨ nTree = 16) :
    ∀ x, x < nTree → x ∈ leaves nTree 1 := by
  rcases hN with h | h | h | h <;> subst h <;> decide

theorem tf_path_bounds {nTree : Nat}
    (hN : nTree = 2 ∨ nTree = 4 ∨ nTree = 8 ∨ nTree = 16) :
    ∀ l, l < nTree → ∀ j ∈ pathNodes ((nTree + l) / 2),
      1 ≤ j ∧ j < nTree := by
  rcases hN with h | h | h | h <;> subst h <;> decide

theorem tf_path_head {nTree : Nat}
    (hN : nTree = 2 ∨ nTree = 4 ∨ nTree = 8 ∨ nTree = 16) :
    ∀ l, l < nTree → (nTree + l) / 2 ∈ pathNodes ((nTree + l) / 2) := by
  rcases hN with h | h | h | h <;> subst h <;> decide

theorem tf_path_leaves {nTree : Nat}
    (hN : nTree = 2 ∨ nTree = 4 ∨ nTree = 8 ∨ nTree = 16) :
    ∀ l, l < nTree → ∀ j, j < nTree → 1 ≤ j →
      (j ∈ pathNodes ((nTree + l) / 2) ↔ l ∈ leaves nTree j) := by
  rcases hN with h | h | h | h <;> subst h <;> decide

theorem tf_path_half {nTree : Nat}
    (hN : nTree = 2 ∨ nTree = 4 ∨ nTree = 8 ∨ nTree = 16) :
    ∀ l, l < nTree → ∀ i ∈ pathNodes ((nTree + l) / 2),
      i / 2 = 0 ∨ i / 2 ∈ pathNodes ((nTree + l) / 2) := by
  rcases hN with h | h | h | h <;> subst h <;> decide

theorem tf_path_above {nTree : Nat}
    (hN : nTree = 2 ∨ nTree = 4 ∨ nTree = 8 ∨ nTree = 16) :
    ∀ l, l < nTree → ∀ i ∈ pathNodes ((nTree + l) / 2),
      ∀ j ∈ pathNodes ((nTree + l) / 2), i / 2 < j → j = i ∨ i < j := by
  rcases hN with h | h | h | h <;> subst h <;> decide

theorem tf_sib {nTree : Nat}
    (hN : nTree = 2 ∨ nTree = 4 ∨ nTree = 8 ∨ nTree = 16) :
    ∀ l, l < nTree → ∀ i ∈ pathNodes ((nTree + l) / 2), 2 ≤ i →
      (i ^^^ 1) ∉ pathNodes ((nTree + l) / 2) ∧ 1 ≤ i ^^^ 1 ∧
        i ^^^ 1 < nTree ∧ i ^^^ 1 ≠ i := by
  rcases hN with h | h | h | h <;> subst h <;> decide

theorem tf_parent_children {nTree : Nat}
    (hN : nTree = 2 ∨ nTree = 4 ∨ nTree = 8 ∨ nTree = 16) :
    ∀ i, i < nTree → 2 ≤ i →
      (childL nTree (i / 2) = leaves nTree i ∧
        childR nTree (i / 2) = leaves nTree (i ^^^ 1)) ∨
      (childL nTree (i / 2) = leaves nTree (i ^^^ 1) ∧
        childR nTree (i / 2) = leaves nTree i) := by
  rcases hN with h | h | h | h <;> subst h <;> decide

theorem tf_start {nTree : Nat}
    (hN : nTree = 2 ∨ nTree = 4 ∨ nTree = 8 ∨ nTree = 16) :
    ∀ l, l < nTree →
      childL nTree ((nTree + l) / 2) = [l &&& 0xFFFE] ∧
      childR nTree ((nTree + l) / 2) = [l ||| 1] := by
  rcases hN with h | h | h | h <;> subst h <;> decide

theorem tf_path_le {nTree : Nat}
    (hN : nTree = 2 ∨ nTree = 4 ∨ nTree = 8 ∨ nTree = 16) :
    ∀ l, l < nTree → ∀ j ∈ pathNodes ((nTree + l) / 2),
      j ≤ (nTree + l) / 2 := by
  rcases hN with h | h | h | h <;> subst h <;> decide

theorem tf_lower {nTree : Nat}
    (hN : nTree = 2 ∨ nTree = 4 ∨ nTree = 8 ∨ nTree = 16) :
    ∀ i, i < nTree → 1 ≤ i → ¬ (nTree / 2 ≤ i) →
      i * 2 < nTree ∧ i * 2 + 1 < nTree ∧ i < i * 2 ∧
        childL nTree i = leaves nTree (i * 2) ∧
        childR nTree i = leaves nTree (i * 2 + 1) := by
  rcases hN with h | h | h | h <;> subst h <;> decide

theorem doCompare_eq (c : α → α → Int) (aIter : List (List α))
    (nTree : Nat) (aTree : List Nat) (iOut : Nat)
    (h12 : dcIdx1 nTree aTree iOut < dcIdx2 nTree aTree iOut) :
    vdbeSorterDoCompare c aIter nTree aTree iOut =
      aTree.set iOut
        (pickOf c aIter (dcIdx1 nTree aTree iOut) (dcIdx2 nTree aTree iOut))
    := by
  rw [vdbeSorterDoCompare, doCompare_pick_eq c aIter _ _ h12]

/-- The init loop establishes the winner invariant for every node: when
node `iOut` is recomputed, both its children have already been (the loop
runs top index down), and the stored entry becomes the winner of the
node's reader range. -/
theorem initLoop_inv (c : α → α → Int) (beats : Nat → Nat → Prop)
    (aIter : List (List α)) {nTree : Nat}
    (hN : nTree = 2 ∨ nTree = 4 ∨ nTree = 8 ∨ nTree = 16)
    (hEOF : ∀ w j, rdEof aIter j → beats w j)
    (hLT : ∀ w j, ¬ rdEof aIter w → ¬ rdEof aIter j →
      cHd c aIter w j < 0 → beats w j)
    (hEQ : ∀ w j, ¬ rdEof aIter w → ¬ rdEof aIter j →
      cHd c aIter w j = 0 → w < j → beats w j)
    (hGT : ∀ w j, ¬ rdEof aIter w → ¬ rdEof aIter j →
      0 < cHd c aIter w j → beats j w)
    (hEQ' : ∀ w j, ¬ rdEof aIter w → ¬ rdEof aIter j →
      cHd c aIter w j = 0 → j < w → beats j w)
    (hTR : ∀ a b d, ¬ rdEof aIter a → ¬ rdEof aIter b →
      beats a b → beats b d → beats a d) :
    ∀ (k : Nat) (aTree : List Nat), k < nTree → aTree.length = nTree →
      (∀ j, j < nTree → k < j →
        winnerProp beats aIter (leaves nTree j) (aTree.getD j 0)) →
      (initLoop c aIter nTree k aTree).length = nTree ∧
      ∀ j, j < nTree → 1 ≤ j →
        winnerProp beats aIter (leaves nTree j)
          ((initLoop c aIter nTree k aTree).getD j 0) := by
  intro k
  induction k with
  | zero =>
      intro aTree _ hlen hAbove
      exact ⟨hlen, fun j hj h1j => hAbove j hj (by omega)⟩
  | succ k ih =>
      intro aTree hk hlen hAbove
      refine ih (vdbeSorterDoCompare c aIter nTree aTree (k + 1))
        (by omega) ?_ ?_
      · rw [vdbeSorterDoCompare, List.length_set]
        exact hlen
      · intro j hj hkj
        by_cases hjk : j = k + 1
        · subst hjk
          by_cases hhalf : nTree / 2 ≤ k + 1
          · have hL : childL nTree (k + 1) = [(k + 1 - nTree / 2) * 2] := by
              rw [childL, if_pos hhalf]
            have hR : childR nTree (k + 1) =
                [(k + 1 - nTree / 2) * 2 + 1] := by
              rw [childR, if_pos hhalf]
            have hd1 : dcIdx1 nTree aTree (k + 1) =
                (k + 1 - nTree / 2) * 2 := by
              rw [dcIdx1, if_pos hhalf]
            have hd2 : dcIdx2 nTree aTree (k + 1) =
                (k + 1 - nTree / 2) * 2 + 1 := by
              rw [dcIdx2, if_pos hhalf]
            rw [doCompare_eq c aIter nTree aTree (k + 1)
              (by rw [hd1, hd2]; omega)]
            rw [getD_set_self _ _ _ _ (by rw [hlen]; omega)]
            refine winnerProp_pick c beats aIter hEOF hLT hEQ hGT hEQ' hTR
              _ _ (by rw [hd1, hd2]; omega)
              (childL nTree (k + 1)) (childR nTree (k + 1)) _
              (fun x => by
                rw [tf_leaves_split hN (k + 1) hj (by omega)]
                exact List.mem_append) ?_ ?_
            · rw [hL, hd1]
              exact winnerProp_singleton beats aIter _
            · rw [hR, hd2]
              exact winnerProp_singleton beats aIter _
          · obtain ⟨h2l, h2l1, hlt2, hcl, hcr⟩ :=
              tf_lower hN (k + 1) hj (by omega) hhalf
            have hd1 : dcIdx1 nTree aTree (k + 1) =
                aTree.getD ((k + 1) * 2) 0 := by
              rw [dcIdx1, if_neg hhalf]
            have hd2 : dcIdx2 nTree aTree (k + 1) =
                aTree.getD ((k + 1) * 2 + 1) 0 := by
              rw [dcIdx2, if_neg hhalf]
            have hw1 := hAbove ((k + 1) * 2) h2l (by omega)
            have hw2 := hAbove ((k + 1) * 2 + 1) h2l1 (by omega)
            have h12 : dcIdx1 nTree aTree (k + 1) <
                dcIdx2 nTree aTree (k + 1) := by
              refine tf_child_lt hN (k + 1) hj (by omega) _ ?_ _ ?_
              · rw [hcl, hd1]
                exact hw1.1
              · rw [hcr, hd2]
                exact hw2.1
            rw [doCompare_eq c aIter nTree aTree (k + 1) h12]
            rw [getD_set_self _ _ _ _ (by rw [hlen]; omega)]
            refine winnerProp_pick c beats aIter hEOF hLT hEQ hGT hEQ' hTR
              _ _ (by omega)
              (childL nTree (k + 1)) (childR nTree (k + 1)) _
              (fun x => by
                rw [tf_leaves_split hN (k + 1) hj (by omega)]
                exact List.mem_append) ?_ ?_
            · rw [hcl, hd1]
              exact hw1
            · rw [hcr, hd2]
              exact hw2
        · rw [vdbeSorterDoCompare, getD_set_ne _ _ _ _ _ (by omega)]
          exact hAbove j hj (by omega)

/-- The path-update loop of `vdbeSorterNext` restores the winner
invariant: off-path nodes keep valid entries, processed path nodes get
the recomputed winner of their range, and the pair carried by the loop
is always the two child winners of the current node. -/
theorem nextLoop_inv (c : α → α → Int) (beats : Nat → Nat → Prop)
    (aIter : List (List α)) {nTree : Nat}
    (hN : nTree = 2 ∨ nTree = 4 ∨ nTree = 8 ∨ nTree = 16)
    (hEOF : ∀ w j, rdEof aIter j → beats w j)
    (hLT : ∀ w j, ¬ rdEof aIter w → ¬ rdEof aIter j →
      cHd c aIter w j < 0 → beats w j)
    (hEQ : ∀ w j, ¬ rdEof aIter w → ¬ rdEof aIter j →
      cHd c aIter w j = 0 → w < j → beats w j)
    (hGT : ∀ w j, ¬ rdEof aIter w → ¬ rdEof aIter j →
      0 < cHd c aIter w j → beats j w)
    (hEQ' : ∀ w j, ¬ rdEof aIter w → ¬ rdEof aIter j →
      cHd c aIter w j = 0 → j < w → beats j w)
    (hTR : ∀ a b d, ¬ rdEof aIter a → ¬ rdEof aIter b →
      beats a b → beats b d → beats a d)
    (l : Nat) (hl : l < nTree) :
    ∀ i, (i = 0 ∨ i ∈ pathNodes ((nTree + l) / 2)) →
    ∀ (i1 i2 : Nat) (aTree : List Nat), aTree.length = nTree →
    (∀ j, j < nTree → 1 ≤ j → j ∉ pathNodes ((nTree + l) / 2) →
      winnerProp beats aIter (leaves nTree j) (aTree.getD j 0)) →
    (∀ j ∈ pathNodes ((nTree + l) / 2), i < j →
      winnerProp beats aIter (leaves nTree j) (aTree.getD j 0)) →
    (i ≠ 0 →
      (winnerProp beats aIter (childL nTree i) i1 ∧
        winnerProp beats aIter (childR nTree i) i2) ∨
      (winnerProp beats aIter (childR nTree i) i1 ∧
        winnerProp beats aIter (childL nTree i) i2)) →
    (nextLoop c aIter i i1 i2 aTree).length = nTree ∧
    ∀ j, j < nTree → 1 ≤ j →
      winnerProp beats aIter (leaves nTree j)
        ((nextLoop c aIter i i1 i2 aTree).getD j 0) := by
  intro i
  induction i using Nat.strong_induction_on with
  | _ i IH =>
    intro hi i1 i2 aTree hlen hOff hDone hPair
    by_cases hi0 : i = 0
    · subst hi0
      rw [nextLoop, dif_pos rfl]
      refine ⟨hlen, fun j hj h1j => ?_⟩
      by_cases hp : j ∈ pathNodes ((nTree + l) / 2)
      · exact hDone j hp (by omega)
      · exact hOff j hj h1j hp
    · have hpath : i ∈ pathNodes ((nTree + l) / 2) := hi.resolve_left hi0
      have hib := tf_path_bounds hN l hl i hpath
      have hpair := hPair hi0
      have hii12 : i1 ≠ i2 := by
        rcases hpair with ⟨hA, hB⟩ | ⟨hA, hB⟩
        · have := tf_child_lt hN i hib.2 hib.1 i1 hA.1 i2 hB.1
          omega
        · have := tf_child_lt hN i hib.2 hib.1 i2 hB.1 i1 hA.1
          omega
      have hWin : winnerProp beats aIter (leaves nTree i)
          (pickOf c aIter i1 i2) := by
        rcases hpair with ⟨hA, hB⟩ | ⟨hA, hB⟩
        · exact winnerProp_pick c beats aIter hEOF hLT hEQ hGT hEQ' hTR
            i1 i2 hii12 _ _ _
            (fun x => by
              rw [tf_leaves_split hN i hib.2 hib.1]
              exact List.mem_append) hA hB
        · refine winnerProp_pick c beats aIter hEOF hLT hEQ hGT hEQ' hTR
            i1 i2 hii12 _ _ _ (fun x => ?_) hA hB
          rw [tf_leaves_split hN i hib.2 hib.1]
          rw [List.mem_append]
          exact or_comm
      have hidiv : i / 2 < i := Nat.div_lt_self (by omega) (by omega)
      have hi' : i / 2 = 0 ∨ i / 2 ∈ pathNodes ((nTree + l) / 2) :=
        tf_path_half hN l hl i hpath
      rw [nextLoop, dif_neg hi0]
      by_cases hcond : nextRes c aIter i1 i2 < 0 ∨
          (nextRes c aIter i1 i2 = 0 ∧ i1 < i2)
      · rw [if_pos hcond]
        have hpick : pickOf c aIter i1 i2 = i1 := by
          rw [← nextRes_pick_eq c aIter i1 i2, if_pos hcond]
        rw [hpick] at hWin
        refine IH (i / 2) hidiv hi' i1 _ (aTree.set i i1)
          (by rw [List.length_set]; exact hlen) ?_ ?_ ?_
        · intro j hj h1j hjp
          rw [getD_set_ne _ _ _ _ _ (fun h => hjp (by rw [← h]; exact hpath))]
          exact hOff j hj h1j hjp
        · intro j hjp hij
          rcases tf_path_above hN l hl i hpath j hjp hij with hji | hij'
          · subst hji
            rw [getD_set_self _ _ _ _ (by rw [hlen]; exact hib.2)]
            exact hWin
          · rw [getD_set_ne _ _ _ _ _ (by omega)]
            exact hDone j hjp hij'
        · intro h20
          have h2i : 2 ≤ i := by
            rcases Nat.lt_or_ge i 2 with h | h
            · interval_cases i
              · exact absurd rfl hi0
              · exact absurd rfl h20
            · exact h
          obtain ⟨hsiboff, hsib1, hsibN, hsibne⟩ :=
            tf_sib hN l hl i hpath h2i
          have hsval : (aTree.set i i1).getD (i ^^^ 1) 0 =
              aTree.getD (i ^^^ 1) 0 :=
            getD_set_ne _ _ _ _ _ (fun h => hsibne h.symm)
          have hsw : winnerProp beats aIter (leaves nTree (i ^^^ 1))
              ((aTree.set i i1).getD (i ^^^ 1) 0) := by
            rw [hsval]
            exact hOff (i ^^^ 1) hsibN hsib1 hsiboff
          rcases tf_parent_children hN i hib.2 h2i with ⟨hcl, hcr⟩ |
            ⟨hcl, hcr⟩
          · exact Or.inl ⟨by rw [hcl]; exact hWin, by rw [hcr]; exact hsw⟩
          · exact Or.inr ⟨by rw [hcr]; exact hWin, by rw [hcl]; exact hsw⟩
      · rw [if_neg hcond]
        have hpick : pickOf c aIter i1 i2 = i2 := by
          rw [← nextRes_pick_eq c aIter i1 i2, if_neg hcond]
        rw [hpick] at hWin
        refine IH (i / 2) hidiv hi' _ i2 (aTree.set i i2)
          (by rw [List.length_set]; exact hlen) ?_ ?_ ?_
        · intro j hj h1j hjp
          rw [getD_set_ne _ _ _ _ _ (fun h => hjp (by rw [← h]; exact hpath))]
          exact hOff j hj h1j hjp
        · intro j hjp hij
          rcases tf_path_above hN l hl i hpath j hjp hij with hji | hij'
          · subst hji
            rw [getD_set_self _ _ _ _ (by rw [hlen]; exact hib.2)]
            exact hWin
          · rw [getD_set_ne _ _ _ _ _ (by omega)]
            exact hDone j hjp hij'
        · intro h20
          have h2i : 2 ≤ i := by
            rcases Nat.lt_or_ge i 2 with h | h
            · interval_cases i
              · exact absurd rfl hi0
              · exact absurd rfl h20
            · exact h
          obtain ⟨hsiboff, hsib1, hsibN, hsibne⟩ :=
            tf_sib hN l hl i hpath h2i
          have hsval : (aTree.set i i2).getD (i ^^^ 1) 0 =
              aTree.getD (i ^^^ 1) 0 :=
            getD_set_ne _ _ _ _ _ (fun h => hsibne h.symm)
          have hsw : winnerProp beats aIter (leaves nTree (i ^^^ 1))
              ((aTree.set i i2).getD (i ^^^ 1) 0) := by
            rw [hsval]
            exact hOff (i ^^^ 1) hsibN hsib1 hsiboff
          rcases tf_parent_children hN i hib.2 h2i with ⟨hcl, hcr⟩ |
            ⟨hcl, hcr⟩
          · exact Or.inr ⟨by rw [hcr]; exact hsw, by rw [hcl]; exact hWin⟩
          · exact Or.inl ⟨by rw [hcl]; exact hsw, by rw [hcr]; exact hWin⟩

/-- The merge-engine invariant: a valid tree size, arrays of that size,
and every internal node storing the winner of its reader range. -/
def MInv (beats : List (List α) → Nat → Nat → Prop) (m : MergeEngine α) :
    Prop :=
  (m.nTree = 2 ∨ m.nTree = 4 ∨ m.nTree = 8 ∨ m.nTree = 16) ∧
  m.aIter.length = m.nTree ∧ m.aTree.length = m.nTree ∧
  ∀ j, j < m.nTree → 1 ≤ j →
    winnerProp (beats m.aIter) m.aIter (leaves m.nTree j) (m.aTree.getD j 0)

theorem powLoop_facts : ∀ n, n ≤ 16 →
    (powLoop n n 2 = 2 ∨ powLoop n n 2 = 4 ∨ powLoop n n 2 = 8 ∨
      powLoop n n 2 = 16) ∧ n ≤ powLoop n n 2 := by decide

/-- `vdbeSorterNextM` unfolded. -/
theorem vdbeSorterNextM_eq (c : α → α → Int) (m : MergeEngine α) :
    vdbeSorterNextM c m =
      ({ nTree := m.nTree
         aIter := vdbePmaReaderNext m.aIter (m.aTree.getD 1 0)
         aTree := nextLoop c (vdbePmaReaderNext m.aIter (m.aTree.getD 1 0))
           ((m.nTree + m.aTree.getD 1 0) / 2)
           ((m.aTree.getD 1 0) &&& 0xFFFE) ((m.aTree.getD 1 0) ||| 1)
           m.aTree },
        ((vdbePmaReaderNext m.aIter (m.aTree.getD 1 0)).getD
          ((nextLoop c (vdbePmaReaderNext m.aIter (m.aTree.getD 1 0))
            ((m.nTree + m.aTree.getD 1 0) / 2)
            ((m.aTree.getD 1 0) &&& 0xFFFE) ((m.aTree.getD 1 0) ||| 1)
            m.aTree).getD 1 0) []).isEmpty) := rfl

/-- `mergeEngineInit` establishes the invariant for any reader array of
at most fan-in size. -/
theorem mergeEngineInit_inv (c : α → α → Int)
    (beats : List (List α) → Nat → Nat → Prop)
    (hEOF : ∀ (aI : List (List α)) w j, rdEof aI j → beats aI w j)
    (hLT : ∀ (aI : List (List α)) w j, ¬ rdEof aI w → ¬ rdEof aI j →
      cHd c aI w j < 0 → beats aI w j)
    (hEQ : ∀ (aI : List (List α)) w j, ¬ rdEof aI w → ¬ rdEof aI j →
      cHd c aI w j = 0 → w < j → beats aI w j)
    (hGT : ∀ (aI : List (List α)) w j, ¬ rdEof aI w → ¬ rdEof aI j →
      0 < cHd c aI w j → beats aI j w)
    (hEQ' : ∀ (aI : List (List α)) w j, ¬ rdEof aI w → ¬ rdEof aI j →
      cHd c aI w j = 0 → j < w → beats aI j w)
    (hTR : ∀ (aI : List (List α)) a b d, ¬ rdEof aI a → ¬ rdEof aI b →
      beats aI a b → beats aI b d → beats aI a d)
    (readers : List (List α)) (hr : readers.length ≤ 16) :
    MInv beats (mergeEngineInit c readers) := by
  obtain ⟨hN, hge⟩ := powLoop_facts readers.length hr
  have hlenI : (readers ++
      List.replicate (powLoop readers.length readers.length 2 -
        readers.length) ([] : List α)).length =
      powLoop readers.length readers.length 2 := by
    rw [List.length_append, List.length_replicate]
    omega
  have h2N : 2 ≤ powLoop readers.length readers.length 2 := by
    rcases hN with h | h | h | h <;> omega
  have hinit := initLoop_inv c
    (beats (readers ++
      List.replicate (powLoop readers.length readers.length 2 -
        readers.length) []))
    (readers ++
      List.replicate (powLoop readers.length readers.length 2 -
        readers.length) []) hN
    (hEOF _) (hLT _) (hEQ _) (hGT _) (hEQ' _) (hTR _)
    (powLoop readers.length readers.length 2 - 1)
    (List.replicate (powLoop readers.length readers.length 2) 0)
    (by omega) (by rw [List.length_replicate])
    (fun j hj hgt => absurd hj (by omega))
  exact ⟨hN, hlenI, hinit.1, hinit.2⟩

/-- `vdbeSorterNext` preserves the engine invariant: it pops the current
winner's record and recomputes exactly the comparison path from that
reader to the root; all other winners transport unchanged. -/
theorem vdbeSorterNextM_inv (c : α → α → Int)
    (beats : List (List α) → Nat → Nat → Prop)
    (hEOF : ∀ (aI : List (List α)) w j, rdEof aI j → beats aI w j)
    (hLT : ∀ (aI : List (List α)) w j, ¬ rdEof aI w → ¬ rdEof aI j →
      cHd c aI w j < 0 → beats aI w j)
    (hEQ : ∀ (aI : List (List α)) w j, ¬ rdEof aI w → ¬ rdEof aI j →
      cHd c aI w j = 0 → w < j → beats aI w j)
    (hGT : ∀ (aI : List (List α)) w j, ¬ rdEof aI w → ¬ rdEof aI j →
      0 < cHd c aI w j → beats aI j w)
    (hEQ' : ∀ (aI : List (List α)) w j, ¬ rdEof aI w → ¬ rdEof aI j →
      cHd c aI w j = 0 → j < w → beats aI j w)
    (hTR : ∀ (aI : List (List α)) a b d, ¬ rdEof aI a → ¬ rdEof aI b →
      beats aI a b → beats aI b d → beats aI a d)
    (hloc : ∀ (aI aI' : List (List α)) w j,
      aI'.getD w [] = aI.getD w [] → aI'.getD j [] = aI.getD j [] →
      beats aI w j → beats aI' w j)
    (m : MergeEngine α) (hInv : MInv beats m) :
    MInv beats (vdbeSorterNextM c m).1 := by
  obtain ⟨hN, hlenI, hlenT, hW⟩ := hInv
  have h2N : 2 ≤ m.nTree := by rcases hN with h | h | h | h <;> omega
  have hroot := hW 1 (by omega) (le_refl 1)
  have hl : m.aTree.getD 1 0 < m.nTree :=
    tf_leaves_ub hN 1 (by omega) (by omega) _ hroot.1
  have hsame : ∀ j, j ≠ m.aTree.getD 1 0 →
      (vdbePmaReaderNext m.aIter (m.aTree.getD 1 0)).getD j [] =
        m.aIter.getD j [] := by
    intro j hj
    rw [vdbePmaReaderNext]
    exact getD_set_ne _ _ _ _ _ (fun h => hj h.symm)
  have hnext := nextLoop_inv c
    (beats (vdbePmaReaderNext m.aIter (m.aTree.getD 1 0)))
    (vdbePmaReaderNext m.aIter (m.aTree.getD 1 0)) hN
    (hEOF _) (hLT _) (hEQ _) (hGT _) (hEQ' _) (hTR _)
    (m.aTree.getD 1 0) hl
    ((m.nTree + m.aTree.getD 1 0) / 2)
    (Or.inr (tf_path_head hN _ hl))
    ((m.aTree.getD 1 0) &&& 0xFFFE) ((m.aTree.getD 1 0) ||| 1)
    m.aTree hlenT
    (fun j hj h1j hjp => by
      have hnotin : m.aTree.getD 1 0 ∉ leaves m.nTree j := fun hmem =>
        hjp ((tf_path_leaves hN _ hl j hj h1j).mpr hmem)
      refine winnerProp_transport
        (fun x hx => hsame x (fun h => hnotin (h ▸ hx)))
        (fun a b ha hb hba => hloc _ _ a b
          (hsame a (fun h => hnotin (h ▸ ha)))
          (hsame b (fun h => hnotin (h ▸ hb))) hba)
        (hW j hj h1j))
    (fun j hjp hgt =>
      absurd hgt (by
        have := tf_path_le hN _ hl j hjp
        omega))
    (fun _ => Or.inl
      ⟨by
        rw [(tf_start hN _ hl).1]
        exact winnerProp_singleton _ _ _,
       by
        rw [(tf_start hN _ hl).2]
        exact winnerProp_singleton _ _ _⟩)
  rw [vdbeSorterNextM_eq]
  refine ⟨hN, ?_, hnext.1, hnext.2⟩
  show (vdbePmaReaderNext m.aIter (m.aTree.getD 1 0)).length = m.nTree
  rw [vdbePmaReaderNext, List.length_set]
  exact hlenI

theorem head_of_not_eof {aIter : List (List α)} {j : Nat}
    (h : ¬ rdEof aIter j) :
    ∃ y t, aIter.getD j [] = y :: t := by
  rw [rdEof] at h
  cases hc : aIter.getD j [] with
  | nil => exact absurd hc h
  | cons y t => exact ⟨y, t, rfl⟩

theorem cHd_eq (c : α → α → Int) (aIter : List (List α)) {a b : Nat}
    {ka kb : α} {ta tb : List α}
    (ha : aIter.getD a [] = ka :: ta) (hb : aIter.getD b [] = kb :: tb) :
    cHd c aIter a b = c ka kb := by
  rw [cHd, ha, hb]
  rfl

/-- The winner relation of the sortedness development: the loser is at
EOF or compares no smaller than the winner's current record. -/
def beatsW (c : α → α → Int) (aI : List (List α)) (w j : Nat) : Prop :=
  rdEof aI j ∨ cHd c aI w j ≤ 0

theorem beatsW_EOF {c : α → α → Int} : ∀ (aI : List (List α)) w j, rdEof aI j →
    beatsW c aI w j := fun _ _ _ h => Or.inl h

theorem beatsW_LT {c : α → α → Int} : ∀ (aI : List (List α)) w j, ¬ rdEof aI w →
    ¬ rdEof aI j → cHd c aI w j < 0 → beatsW c aI w j :=
  fun _ _ _ _ _ h => Or.inr (le_of_lt h)

theorem beatsW_EQ {c : α → α → Int} : ∀ (aI : List (List α)) w j, ¬ rdEof aI w →
    ¬ rdEof aI j → cHd c aI w j = 0 → w < j → beatsW c aI w j :=
  fun _ _ _ _ _ h _ => Or.inr (le_of_eq h)

theorem beatsW_GT {c : α → α → Int}
    (htot : ∀ a b : α, 0 < c a b → c b a ≤ 0) : ∀ (aI : List (List α)) w j, ¬ rdEof aI w →
    ¬ rdEof aI j → 0 < cHd c aI w j → beatsW c aI j w := by
  intro aI w j hw hj h
  obtain ⟨kw, tw, hkw⟩ := head_of_not_eof hw
  obtain ⟨kj, tj, hkj⟩ := head_of_not_eof hj
  rw [cHd_eq c aI hkw hkj] at h
  exact Or.inr (by rw [cHd_eq c aI hkj hkw]; exact htot _ _ h)

theorem beatsW_EQ' {c : α → α → Int}
    (hasym : ∀ a b : α, c a b = 0 → c b a = 0) : ∀ (aI : List (List α)) w j, ¬ rdEof aI w →
    ¬ rdEof aI j → cHd c aI w j = 0 → j < w → beatsW c aI j w := by
  intro aI w j hw hj h _
  obtain ⟨kw, tw, hkw⟩ := head_of_not_eof hw
  obtain ⟨kj, tj, hkj⟩ := head_of_not_eof hj
  rw [cHd_eq c aI hkw hkj] at h
  exact Or.inr (by rw [cHd_eq c aI hkj hkw, hasym _ _ h])

theorem beatsW_TR {c : α → α → Int}
    (htrans : ∀ a b d : α, c a b ≤ 0 → c b d ≤ 0 → c a d ≤ 0) : ∀ (aI : List (List α)) a b d, ¬ rdEof aI a →
    ¬ rdEof aI b → beatsW c aI a b → beatsW c aI b d → beatsW c aI a d := by
  intro aI a b d ha hb hab hbd
  have hab' : cHd c aI a b ≤ 0 := by
    rcases hab with h | h
    · exact absurd h hb
    · exact h
  by_cases hd : rdEof aI d
  · exact Or.inl hd
  · have hbd' : cHd c aI b d ≤ 0 := by
      rcases hbd with h | h
      · exact absurd h hd
      · exact h
    obtain ⟨ka, ta, hka⟩ := head_of_not_eof ha
    obtain ⟨kb, tb, hkb⟩ := head_of_not_eof hb
    obtain ⟨kd, td, hkd⟩ := head_of_not_eof hd
    rw [cHd_eq c aI hka hkb] at hab'
    rw [cHd_eq c aI hkb hkd] at hbd'
    exact Or.inr (by
      rw [cHd_eq c aI hka hkd]
      exact htrans _ _ _ hab' hbd')

theorem beatsW_loc {c : α → α → Int} : ∀ (aI aI' : List (List α)) w j,
    aI'.getD w [] = aI.getD w [] → aI'.getD j [] = aI.getD j [] →
    beatsW c aI w j → beatsW c aI' w j := by
  intro aI aI' w j hw hj h
  rcases h with h | h
  · exact Or.inl (by rw [rdEof, hj]; exact h)
  · refine Or.inr ?_
    rw [cHd, hw, hj]
    rw [cHd] at h
    exact h

theorem mergerOut_nil_of_none (c : α → α → Int) :
    ∀ (fuel : Nat) (m : MergeEngine α),
    (m.aIter.getD (m.aTree.getD 1 0) []).head? = Option.none →
    mergerOut c fuel m = [] := by
  intro fuel m h
  cases fuel with
  | zero => rfl
  | succ fuel => rw [mergerOut, h]

theorem mergerOut_some_eq (c : α → α → Int) (fuel : Nat)
    (m : MergeEngine α) (k : α)
    (h : (m.aIter.getD (m.aTree.getD 1 0) []).head? = Option.some k) :
    mergerOut c (fuel + 1) m =
      (if (vdbeSorterNextM c m).2 then [k]
        else k :: mergerOut c fuel (vdbeSorterNextM c m).1) := by
  rw [mergerOut, h]

theorem mergerOut_head (c : α → α → Int) :
    ∀ (fuel : Nat) (m : MergeEngine α) (y : α),
    (mergerOut c fuel m).head? = Option.some y →
    (m.aIter.getD (m.aTree.getD 1 0) []).head? = Option.some y := by
  intro fuel m y h
  cases fuel with
  | zero => exact absurd h (by rw [mergerOut]; intro h; cases h)
  | succ fuel =>
      cases hk : (m.aIter.getD (m.aTree.getD 1 0) []).head? with
      | none =>
          rw [mergerOut_nil_of_none c _ m hk] at h
          exact absurd h (by intro h; cases h)
      | some k =>
          rw [mergerOut_some_eq c fuel m k hk] at h
          by_cases hs : (vdbeSorterNextM c m).2
          · rw [if_pos hs] at h
            rw [List.head?_cons] at h
            injection h with h
            rw [← h]
          · rw [if_neg hs] at h
            rw [List.head?_cons] at h
            injection h with h
            rw [← h]

/-- The record just emitted compares `<= 0` against every record still
at the head of a reader after the step: other readers' heads were
already beaten, and the emitted record's own successor follows it in a
sorted run. -/
theorem step_head_le (c : α → α → Int)
    (m : MergeEngine α) (hInv : MInv (beatsW c) m)
    (hsorted : ∀ r ∈ m.aIter, r.Chain' (cle c)) (k : α)
    (hk : (m.aIter.getD (m.aTree.getD 1 0) []).head? = Option.some k) :
    ∀ j y, ((vdbeSorterNextM c m).1.aIter.getD j []).head? = Option.some y →
      c k y ≤ 0 := by
  obtain ⟨hN, hlenI, hlenT, hW⟩ := hInv
  have h2N : 2 ≤ m.nTree := by rcases hN with h | h | h | h <;> omega
  have hroot := hW 1 (by omega) (le_refl 1)
  have hl : m.aTree.getD 1 0 < m.nTree :=
    tf_leaves_ub hN 1 (by omega) (by omega) _ hroot.1
  intro j y hy
  have haIter' : (vdbeSorterNextM c m).1.aIter =
      vdbePmaReaderNext m.aIter (m.aTree.getD 1 0) := by
    rw [vdbeSorterNextM_eq]
  rw [haIter'] at hy
  by_cases hjl : j = m.aTree.getD 1 0
  · -- the advanced reader: its new head follows `k` in a sorted run
    subst hjl
    have hw : m.aIter.getD (m.aTree.getD 1 0) [] =
        k :: (m.aIter.getD (m.aTree.getD 1 0) []).tail := by
      cases hc : m.aIter.getD (m.aTree.getD 1 0) [] with
      | nil => rw [hc] at hk; exact absurd hk (by intro h; cases h)
      | cons a t =>
          rw [hc] at hk
          cases hk
          rfl
    have hmem : m.aIter.getD (m.aTree.getD 1 0) [] ∈ m.aIter := by
      rw [List.getD_eq_getElem _ _ (by omega : m.aTree.getD 1 0 <
        m.aIter.length)]
      exact List.getElem_mem _
    have hchain := hsorted _ hmem
    rw [hw] at hchain
    rw [vdbePmaReaderNext, getD_set_self _ _ _ _ (by omega)] at hy
    cases hc : (m.aIter.getD (m.aTree.getD 1 0) []).tail with
    | nil => rw [hc] at hy; exact absurd hy (by intro h; cases h)
    | cons a t =>
        rw [hc] at hy
        cases hy
        rw [hc] at hchain
        exact List.chain'_cons.mp hchain |>.1
  · -- any other reader: its head was already beaten by the winner
    rw [vdbePmaReaderNext, getD_set_ne _ _ _ _ _
      (fun h => hjl h.symm)] at hy
    have hjne : ¬ rdEof m.aIter j := by
      rw [rdEof]
      intro h
      rw [h] at hy
      exact absurd hy (by intro h; cases h)
    have hjlt : j < m.nTree := by
      by_contra hge
      have : m.aIter.getD j [] = [] :=
        List.getD_eq_default _ _ (by omega)
      exact hjne this
    have hjmem : j ∈ leaves m.nTree 1 := tf_root_mem hN j hjlt
    have hbeats := hroot.2
    rcases hbeats with hall | ⟨_, hb⟩
    · exact absurd (hall j hjmem) hjne
    · have := hb j hjmem hjl
      rcases this with h | h
      · exact absurd h hjne
      · obtain ⟨yw, tw, hyw⟩ := head_of_not_eof (j := m.aTree.getD 1 0)
          (by
            rw [rdEof]
            intro hnil
            rw [hnil] at hk
            exact absurd hk (by intro h'; cases h'))
        obtain ⟨yj, tj, hyj⟩ := head_of_not_eof hjne
        rw [cHd_eq c m.aIter hyw hyj] at h
        rw [hyw] at hk
        cases hk
        rw [hyj] at hy
        cases hy
        exact h

/-- The stream read from a merge engine satisfying the invariant over
sorted readers is non-decreasing under the comparator. -/
theorem mergerOut_chain (c : α → α → Int)
    (htot : ∀ a b : α, 0 < c a b → c b a ≤ 0)
    (htrans : ∀ a b d : α, c a b ≤ 0 → c b d ≤ 0 → c a d ≤ 0)
    (hasym : ∀ a b : α, c a b = 0 → c b a = 0) :
    ∀ (fuel : Nat) (m : MergeEngine α), MInv (beatsW c) m →
      (∀ r ∈ m.aIter, r.Chain' (cle c)) →
      (mergerOut c fuel m).Chain' (fun a b => c a b ≤ 0) := by
  intro fuel
  induction fuel with
  | zero => intro m _ _; exact List.chain'_nil
  | succ fuel ih =>
      intro m hInv hsorted
      cases hk : (m.aIter.getD (m.aTree.getD 1 0) []).head? with
      | none =>
          rw [mergerOut_nil_of_none c _ m hk]
          exact List.chain'_nil
      | some k =>
          rw [mergerOut_some_eq c fuel m k hk]
          by_cases hs : (vdbeSorterNextM c m).2
          · rw [if_pos hs]
            exact List.chain'_singleton k
          · rw [if_neg hs]
            have hInv' : MInv (beatsW c) (vdbeSorterNextM c m).1 :=
              vdbeSorterNextM_inv c (beatsW c) (beatsW_EOF) (beatsW_LT)
                (beatsW_EQ) (beatsW_GT htot) (beatsW_EQ' hasym)
                (beatsW_TR htrans) (beatsW_loc) m hInv
            have hsorted' : ∀ r ∈ (vdbeSorterNextM c m).1.aIter,
                r.Chain' (cle c) := by
              intro r hr
              have haIter' : (vdbeSorterNextM c m).1.aIter =
                  vdbePmaReaderNext m.aIter (m.aTree.getD 1 0) := by
                rw [vdbeSorterNextM_eq]
              rw [haIter', vdbePmaReaderNext] at hr
              rcases List.mem_or_eq_of_mem_set hr with h | h
              · exact hsorted r h
              · subst h
                have hmem : (m.aIter.getD (m.aTree.getD 1 0) []).tail.Chain'
                    (cle c) ∨
                    m.aIter.getD (m.aTree.getD 1 0) [] = [] := by
                  cases hc : m.aIter.getD (m.aTree.getD 1 0) [] with
                  | nil => exact Or.inr rfl
                  | cons a t =>
                      refine Or.inl ?_
                      have hmem' : m.aIter.getD (m.aTree.getD 1 0) [] ∈
                          m.aIter ∨
                          m.aIter.getD (m.aTree.getD 1 0) [] = [] := by
                        by_cases hlt : m.aTree.getD 1 0 < m.aIter.length
                        · refine Or.inl ?_
                          rw [List.getD_eq_getElem _ _ hlt]
                          exact List.getElem_mem _
                        · exact Or.inr (List.getD_eq_default _ _
                            (by omega))
                      rcases hmem' with h | h
                      · have := hsorted _ h
                        rw [hc] at this
                        exact (List.chain'_cons'.mp this).2
                      · rw [h] at hc
                        exact List.noConfusion hc
                rcases hmem with h | h
                · exact h
                · rw [h]
                  exact List.chain'_nil
            refine List.chain'_cons'.mpr ⟨?_, ih _ hInv' hsorted'⟩
            intro y hy
            exact step_head_le c m hInv hsorted k hk _ y
              (mergerOut_head c fuel _ y hy)

/-- The level-0 engine (`vdbeMergeEngineLevel0`) read to exhaustion
yields a stream that is non-decreasing under the comparator. -/
theorem engineOut_chain (c : α → α → Int)
    (htot : ∀ a b : α, 0 < c a b → c b a ≤ 0)
    (htrans : ∀ a b d : α, c a b ≤ 0 → c b d ≤ 0 → c a d ≤ 0)
    (hasym : ∀ a b : α, c a b = 0 → c b a = 0)
    (readers : List (List α)) (hr : readers.length ≤ 16)
    (hsorted : ∀ r ∈ readers, r.Chain' (cle c)) :
    (engineOut c readers).Chain' (fun a b => c a b ≤ 0) := by
  rw [engineOut]
  refine mergerOut_chain c htot htrans hasym _ _
    (mergeEngineInit_inv c (beatsW c) beatsW_EOF beatsW_LT beatsW_EQ
      (beatsW_GT htot) (beatsW_EQ' hasym) (beatsW_TR htrans) readers hr) ?_
  intro r hrm
  have haI : (mergeEngineInit c readers).aIter =
      readers ++ List.replicate
        (powLoop readers.length readers.length 2 - readers.length) [] := rfl
  rw [haI] at hrm
  rcases List.mem_append.mp hrm with h | h
  · exact hsorted r h
  · rw [List.eq_of_mem_replicate h]
    exact List.chain'_nil

/-! #### Stability

Records are lists of naturals whose head is the sort key; `keyCmpL`
compares only the key, so records with equal keys are duplicates it
cannot distinguish, and the remaining entries act as an insertion tag
carried along unchanged. -/

def recKey (r : List Nat) : Nat := r.headD 0

def keyCmpL (a b : List Nat) : Int :=
  if recKey a < recKey b then -1 else if recKey b < recKey a then 1 else 0

theorem keyCmpL_neg_iff (a b : List Nat) :
    keyCmpL a b < 0 ↔ recKey a < recKey b := by
  rw [keyCmpL]; split_ifs <;> omega

theorem keyCmpL_pos_iff (a b : List Nat) :
    0 < keyCmpL a b ↔ recKey b < recKey a := by
  rw [keyCmpL]; split_ifs <;> omega

theorem keyCmpL_zero_iff (a b : List Nat) :
    keyCmpL a b = 0 ↔ recKey a = recKey b := by
  rw [keyCmpL]; split_ifs with h1 h2
  · constructor
    · intro h
      exact absurd h (by decide)
    · intro h
      omega
  · constructor
    · intro h
      exact absurd h (by decide)
    · intro h
      omega
  · constructor
    · intro _
      omega
    · intro _
      rfl

/-- The winner relation of the stability development: strictly smaller
key, or equal key and smaller reader index — the tie-break of
vdbesort.c:1489–1503 with readers in oldest-first order. -/
def beatsS (aI : List (List (List Nat))) (w j : Nat) : Prop :=
  rdEof aI j ∨ cHd keyCmpL aI w j < 0 ∨
    (cHd keyCmpL aI w j = 0 ∧ w < j)

theorem beatsS_EOF : ∀ (aI : List (List (List Nat))) w j, rdEof aI j →
    beatsS aI w j := fun _ _ _ h => Or.inl h

theorem beatsS_LT : ∀ (aI : List (List (List Nat))) w j, ¬ rdEof aI w →
    ¬ rdEof aI j → cHd keyCmpL aI w j < 0 → beatsS aI w j :=
  fun _ _ _ _ _ h => Or.inr (Or.inl h)

theorem beatsS_EQ : ∀ (aI : List (List (List Nat))) w j, ¬ rdEof aI w →
    ¬ rdEof aI j → cHd keyCmpL aI w j = 0 → w < j → beatsS aI w j :=
  fun _ _ _ _ _ h hj => Or.inr (Or.inr ⟨h, hj⟩)

theorem beatsS_GT : ∀ (aI : List (List (List Nat))) w j, ¬ rdEof aI w →
    ¬ rdEof aI j → 0 < cHd keyCmpL aI w j → beatsS aI j w := by
  intro aI w j hw hj h
  obtain ⟨kw, tw, hkw⟩ := head_of_not_eof hw
  obtain ⟨kj, tj, hkj⟩ := head_of_not_eof hj
  rw [cHd_eq keyCmpL aI hkw hkj, keyCmpL_pos_iff] at h
  refine Or.inr (Or.inl ?_)
  rw [cHd_eq keyCmpL aI hkj hkw, keyCmpL_neg_iff]
  exact h

theorem beatsS_EQ' : ∀ (aI : List (List (List Nat))) w j, ¬ rdEof aI w →
    ¬ rdEof aI j → cHd keyCmpL aI w j = 0 → j < w → beatsS aI j w := by
  intro aI w j hw hj h hlt
  obtain ⟨kw, tw, hkw⟩ := head_of_not_eof hw
  obtain ⟨kj, tj, hkj⟩ := head_of_not_eof hj
  rw [cHd_eq keyCmpL aI hkw hkj, keyCmpL_zero_iff] at h
  refine Or.inr (Or.inr ⟨?_, hlt⟩)
  rw [cHd_eq keyCmpL aI hkj hkw, keyCmpL_zero_iff]
  exact h.symm

theorem beatsS_TR : ∀ (aI : List (List (List Nat))) a b d, ¬ rdEof aI a →
    ¬ rdEof aI b → beatsS aI a b → beatsS aI b d → beatsS aI a d := by
  intro aI a b d ha hb hab hbd
  by_cases hd : rdEof aI d
  · exact Or.inl hd
  obtain ⟨ka, ta, hka⟩ := head_of_not_eof ha
  obtain ⟨kb, tb, hkb⟩ := head_of_not_eof hb
  obtain ⟨kd, td, hkd⟩ := head_of_not_eof hd
  have hab' : recKey ka < recKey kb ∨ (recKey ka = recKey kb ∧ a < b) := by
    rcases hab with h | h | ⟨h, hlt⟩
    · exact absurd h hb
    · rw [cHd_eq keyCmpL aI hka hkb, keyCmpL_neg_iff] at h
      exact Or.inl h
    · rw [cHd_eq keyCmpL aI hka hkb, keyCmpL_zero_iff] at h
      exact Or.inr ⟨h, hlt⟩
  have hbd' : recKey kb < recKey kd ∨ (recKey kb = recKey kd ∧ b < d) := by
    rcases hbd with h | h | ⟨h, hlt⟩
    · exact absurd h hd
    · rw [cHd_eq keyCmpL aI hkb hkd, keyCmpL_neg_iff] at h
      exact Or.inl h
    · rw [cHd_eq keyCmpL aI hkb hkd, keyCmpL_zero_iff] at h
      exact Or.inr ⟨h, hlt⟩
  rcases Nat.lt_or_ge (recKey ka) (recKey kd) with hkk | hkk
  · refine Or.inr (Or.inl ?_)
    rw [cHd_eq keyCmpL aI hka hkd, keyCmpL_neg_iff]
    exact hkk
  · refine Or.inr (Or.inr ⟨?_, ?_⟩)
    · rw [cHd_eq keyCmpL aI hka hkd, keyCmpL_zero_iff]
      omega
    · omega

theorem beatsS_loc : ∀ (aI aI' : List (List (List Nat))) w j,
    aI'.getD w [] = aI.getD w [] → aI'.getD j [] = aI.getD j [] →
    beatsS aI w j → beatsS aI' w j := by
  intro aI aI' w j hw hj h
  rcases h with h | h
  · exact Or.inl (by rw [rdEof, hj]; exact h)
  · refine Or.inr ?_
    rw [cHd, hw, hj]
    rw [cHd] at h
    exact h

theorem flatten_map_eq_nil {β γ : Type} {f : β → List γ} :
    ∀ {l : List β}, (∀ x ∈ l, f x = []) → (l.map f).flatten = [] := by
  intro l
  induction l with
  | nil => intro _; rfl
  | cons a l ih =>
      intro h
      rw [List.map_cons, List.flatten_cons, h a (List.mem_cons_self a l),
        List.nil_append]
      exact ih (fun x hx => h x (List.mem_cons_of_mem a hx))

theorem totalLen_cons (r : List α) (l : List (List α)) :
    totalLen (r :: l) = r.length + totalLen l := by
  rw [totalLen, List.map_cons, List.sum_cons, totalLen]

theorem totalLen_set : ∀ (l : List (List α)) (i : Nat) (v : List α),
    i < l.length →
    totalLen (l.set i v) + (l.getD i []).length = totalLen l + v.length := by
  intro l
  induction l with
  | nil => intro i v h; exact absurd h (by rw [List.length_nil]; omega)
  | cons r rest ih =>
      intro i v h
      cases i with
      | zero =>
          rw [List.set_cons_zero, totalLen_cons, totalLen_cons,
            List.getD_cons_zero]
          omega
      | succ i =>
          rw [List.set_cons_succ, totalLen_cons, totalLen_cons,
            List.getD_cons_succ]
          have hlt : i < rest.length := by
            rw [List.length_cons] at h
            omega
          have := ih i v hlt
          omega

theorem totalLen_zero_all_nil : ∀ (l : List (List α)), totalLen l = 0 →
    ∀ r ∈ l, r = [] := by
  intro l
  induction l with
  | nil => intro _ r hr; exact absurd hr (List.not_mem_nil r)
  | cons a l ih =>
      intro h r hr
      rw [totalLen_cons] at h
      rcases List.mem_cons.mp hr with h' | h'
      · subst h'
        exact List.eq_nil_of_length_eq_zero (by omega)
      · exact ih (by omega) r h'

def filtK (k : Nat) (l : List (List Nat)) : List (List Nat) :=
  l.filter (fun r => recKey r == k)

theorem filtK_nil (k : Nat) : filtK k [] = [] := rfl

theorem filtK_cons_pos (k : Nat) (r : List Nat) (l : List (List Nat))
    (h : (recKey r == k) = true) : filtK k (r :: l) = r :: filtK k l := by
  simp [filtK, List.filter_cons, h]

theorem filtK_cons_neg (k : Nat) (r : List Nat) (l : List (List Nat))
    (h : (recKey r == k) = false) : filtK k (r :: l) = filtK k l := by
  simp [filtK, List.filter_cons, h]

theorem filtK_eq_nil_of_head_gt (k : Nat) (y : List Nat)
    (t : List (List Nat)) (hp : (y :: t).Pairwise (cle keyCmpL))
    (hgt : k < recKey y) : filtK k (y :: t) = [] := by
  rw [filtK, List.filter_eq_nil_iff]
  intro x hx
  have hxy : recKey y ≤ recKey x := by
    rcases List.mem_cons.mp hx with h | h
    · subst h
      exact Nat.le_refl _
    · have := (List.pairwise_cons.mp hp).1 x h
      rw [cle, keyCmpL] at this
      split_ifs at this <;> omega
  simp only [beq_iff_eq]
  omega

theorem flatten_filtK_pop (k : Nat) :
    ∀ (L : List (List (List Nat))) (w : Nat) (h0 : List Nat)
      (t : List (List Nat)), w < L.length → L.getD w [] = h0 :: t →
    (∀ j, j < w → filtK k (L.getD j []) = []) →
    (recKey h0 == k) = true →
    (L.map (filtK k)).flatten =
      h0 :: ((L.set w t).map (filtK k)).flatten := by
  intro L
  induction L with
  | nil => intro w h0 t hw; exact absurd hw (by rw [List.length_nil]; omega)
  | cons r rest ih =>
      intro w h0 t hw hget hzero hP
      cases w with
      | zero =>
          rw [List.getD_cons_zero] at hget
          subst hget
          rw [List.set_cons_zero, List.map_cons, List.map_cons,
            List.flatten_cons, List.flatten_cons,
            filtK_cons_pos k h0 t hP, List.cons_append]
      | succ w =>
          have h0z : filtK k r = [] := by
            have := hzero 0 (Nat.succ_pos w)
            rw [List.getD_cons_zero] at this
            exact this
          rw [List.set_cons_succ, List.map_cons, List.map_cons,
            List.flatten_cons, List.flatten_cons, h0z, List.nil_append,
            List.nil_append]
          refine ih w h0 t ?_ ?_ ?_ hP
          · rw [List.length_cons] at hw
            omega
          · rw [List.getD_cons_succ] at hget
            exact hget
          · intro j hj
            have := hzero (j + 1) (by omega)
            rw [List.getD_cons_succ] at this
            exact this

theorem flatten_filtK_pop_ne (k : Nat) :
    ∀ (L : List (List (List Nat))) (w : Nat) (h0 : List Nat)
      (t : List (List Nat)), w < L.length → L.getD w [] = h0 :: t →
    (recKey h0 == k) = false →
    (L.map (filtK k)).flatten = ((L.set w t).map (filtK k)).flatten := by
  intro L
  induction L with
  | nil => intro w h0 t hw; exact absurd hw (by rw [List.length_nil]; omega)
  | cons r rest ih =>
      intro w h0 t hw hget hP
      cases w with
      | zero =>
          rw [List.getD_cons_zero] at hget
          subst hget
          rw [List.set_cons_zero, List.map_cons, List.map_cons,
            List.flatten_cons, List.flatten_cons,
            filtK_cons_neg k h0 t hP]
      | succ w =>
          rw [List.set_cons_succ, List.map_cons, List.map_cons,
            List.flatten_cons, List.flatten_cons]
          have hrec := ih w h0 t (by rw [List.length_cons] at hw; omega)
            (by rw [List.getD_cons_succ] at hget; exact hget) hP
          rw [hrec]

/-- Reading a merge engine over key-sorted readers yields, for every
key, exactly the records of the readers in reader order: the stability
content of the tie-break at vdbesort.c:1489–1503. -/
theorem mergerOut_filter (k : Nat) :
    ∀ (fuel : Nat) (m : MergeEngine (List Nat)), MInv beatsS m →
      (∀ r ∈ m.aIter, r.Pairwise (cle keyCmpL)) →
      totalLen m.aIter ≤ fuel →
      filtK k (mergerOut keyCmpL fuel m) =
        (m.aIter.map (filtK k)).flatten := by
  intro fuel
  induction fuel with
  | zero =>
      intro m _ _ hlen
      have hall := totalLen_zero_all_nil m.aIter (by omega)
      have h0 : mergerOut keyCmpL 0 m = [] := rfl
      rw [h0, filtK_nil]
      exact (flatten_map_eq_nil (fun r hr => by
        rw [hall r hr, filtK_nil])).symm
  | succ fuel ih =>
      intro m hInv hp hlen
      obtain ⟨hN, hlenI, hlenT, hW⟩ := hInv
      have h2N : 2 ≤ m.nTree := by rcases hN with h | h | h | h <;> omega
      have hroot := hW 1 (by omega) (le_refl 1)
      cases hk : (m.aIter.getD (m.aTree.getD 1 0) []).head? with
      | none =>
          rw [mergerOut_nil_of_none keyCmpL _ m hk, filtK_nil]
          have hwEof : rdEof m.aIter (m.aTree.getD 1 0) := by
            rw [rdEof]
            cases hc : m.aIter.getD (m.aTree.getD 1 0) [] with
            | nil => rfl
            | cons a l =>
                rw [hc] at hk
                exact absurd hk (by
                  rw [List.head?_cons]
                  intro h
                  cases h)
          have hall : ∀ j ∈ leaves m.nTree 1, rdEof m.aIter j := by
            rcases hroot.2 with h | ⟨hne, _⟩
            · exact h
            · exact absurd hwEof hne
          refine (flatten_map_eq_nil ?_).symm
          intro r hr
          obtain ⟨i, hi, hieq⟩ := List.getElem_of_mem hr
          have hj : rdEof m.aIter i := hall i (tf_root_mem hN i (by omega))
          rw [rdEof] at hj
          rw [List.getD_eq_getElem _ _ hi] at hj
          rw [hieq] at hj
          rw [hj, filtK_nil]
      | some h0 =>
          have hw : ∃ t, m.aIter.getD (m.aTree.getD 1 0) [] = h0 :: t := by
            cases hc : m.aIter.getD (m.aTree.getD 1 0) [] with
            | nil =>
                rw [hc] at hk
                exact absurd hk (by intro h; cases h)
            | cons a t =>
                rw [hc] at hk
                rw [List.head?_cons] at hk
                injection hk with hk
                exact ⟨t, by rw [hk]⟩
          obtain ⟨t, hwt⟩ := hw
          have hlt : m.aTree.getD 1 0 < m.nTree :=
            tf_leaves_ub hN 1 (by omega) (le_refl 1) _ hroot.1
          have haIter'0 : (vdbeSorterNextM keyCmpL m).1.aIter =
              vdbePmaReaderNext m.aIter (m.aTree.getD 1 0) := by
            rw [vdbeSorterNextM_eq]
          have haIter' : (vdbeSorterNextM keyCmpL m).1.aIter =
              m.aIter.set (m.aTree.getD 1 0) t := by
            rw [haIter'0, vdbePmaReaderNext, hwt, List.tail_cons]
          have hInv' : MInv beatsS (vdbeSorterNextM keyCmpL m).1 :=
            vdbeSorterNextM_inv keyCmpL beatsS beatsS_EOF beatsS_LT
              beatsS_EQ beatsS_GT beatsS_EQ' beatsS_TR beatsS_loc m
              ⟨hN, hlenI, hlenT, hW⟩
          have hp' : ∀ r ∈ (vdbeSorterNextM keyCmpL m).1.aIter,
              r.Pairwise (cle keyCmpL) := by
            intro r hr
            rw [haIter'] at hr
            rcases List.mem_or_eq_of_mem_set hr with h | h
            · exact hp r h
            · rw [h]
              have hpw : (h0 :: t).Pairwise (cle keyCmpL) := by
                rw [← hwt]
                apply hp
                rw [List.getD_eq_getElem _ _
                  (by omega : m.aTree.getD 1 0 < m.aIter.length)]
                exact List.getElem_mem _
              exact (List.pairwise_cons.mp hpw).2
          have hlen' : totalLen (vdbeSorterNextM keyCmpL m).1.aIter ≤
              fuel := by
            rw [haIter']
            have hset := totalLen_set m.aIter (m.aTree.getD 1 0) t
              (by omega)
            rw [hwt, List.length_cons] at hset
            omega
          have hout : mergerOut keyCmpL (fuel + 1) m =
              h0 :: mergerOut keyCmpL fuel (vdbeSorterNextM keyCmpL m).1 := by
            rw [mergerOut_some_eq keyCmpL fuel m h0 hk]
            by_cases hs : (vdbeSorterNextM keyCmpL m).2
            · rw [if_pos hs]
              have hnone : ((vdbeSorterNextM keyCmpL m).1.aIter.getD
                  ((vdbeSorterNextM keyCmpL m).1.aTree.getD 1 0) []).head? =
                  Option.none := by
                cases hc : (vdbeSorterNextM keyCmpL m).1.aIter.getD
                    ((vdbeSorterNextM keyCmpL m).1.aTree.getD 1 0) [] with
                | nil => rw [List.head?_nil]
                | cons a l =>
                    have hempty : ((vdbeSorterNextM keyCmpL m).1.aIter.getD
                        ((vdbeSorterNextM keyCmpL m).1.aTree.getD 1 0)
                        []).isEmpty = true := hs
                    rw [hc] at hempty
                    exact absurd hempty (by
                      rw [List.isEmpty_cons]
                      exact Bool.false_ne_true)
              rw [mergerOut_nil_of_none keyCmpL fuel _ hnone]
            · rw [if_neg hs]
          rw [hout]
          by_cases hkey : (recKey h0 == k) = true
          · have hzero : ∀ j, j < m.aTree.getD 1 0 →
                filtK k (m.aIter.getD j []) = [] := by
              intro j hj
              by_cases hje : rdEof m.aIter j
              · rw [rdEof] at hje
                rw [hje, filtK_nil]
              · have hjlt : j < m.nTree := by omega
                have hjmem : j ∈ leaves m.nTree 1 := tf_root_mem hN j hjlt
                have hbeats : beatsS m.aIter (m.aTree.getD 1 0) j := by
                  rcases hroot.2 with hall | ⟨_, hb⟩
                  · exact absurd (hall j hjmem) hje
                  · exact hb j hjmem (by omega)
                rcases hbeats with h | h | ⟨h, hord⟩
                · exact absurd h hje
                · obtain ⟨kj, tj, hkj⟩ := head_of_not_eof hje
                  rw [cHd_eq keyCmpL m.aIter hwt hkj, keyCmpL_neg_iff] at h
                  have hpj : (kj :: tj).Pairwise (cle keyCmpL) := by
                    rw [← hkj]
                    apply hp
                    rw [List.getD_eq_getElem _ _
                      (by omega : j < m.aIter.length)]
                    exact List.getElem_mem _
                  rw [hkj]
                  refine filtK_eq_nil_of_head_gt k kj tj hpj ?_
                  have hk0 : recKey h0 = k := by
                    rw [← beq_iff_eq]
                    exact hkey
                  omega
                · omega
            rw [filtK_cons_pos k h0 _ hkey]
            rw [ih _ hInv' hp' hlen']
            rw [haIter']
            exact (flatten_filtK_pop k m.aIter (m.aTree.getD 1 0) h0 t
              (by omega) hwt hzero hkey).symm
          · have hkeyf : (recKey h0 == k) = false :=
              Bool.eq_false_iff.mpr hkey
            rw [filtK_cons_neg k h0 _ hkeyf]
            rw [ih _ hInv' hp' hlen']
            rw [haIter']
            exact (flatten_filtK_pop_ne k m.aIter (m.aTree.getD 1 0) h0 t
              (by omega) hwt hkeyf).symm

/-- For every key, the level-0 engine emits exactly the matching
records of its PMAs in PMA order. -/
theorem engineOut_filter (k : Nat) (readers : List (List (List Nat)))
    (hr : readers.length ≤ 16)
    (hsorted : ∀ r ∈ readers, r.Pairwise (cle keyCmpL)) :
    filtK k (engineOut keyCmpL readers) =
      (readers.map (filtK k)).flatten := by
  rw [engineOut]
  have haI : (mergeEngineInit keyCmpL readers).aIter =
      readers ++ List.replicate
        (powLoop readers.length readers.length 2 - readers.length) [] := rfl
  have hInv := mergeEngineInit_inv keyCmpL beatsS beatsS_EOF beatsS_LT
    beatsS_EQ beatsS_GT beatsS_EQ' beatsS_TR readers hr
  have hp : ∀ r ∈ (mergeEngineInit keyCmpL readers).aIter,
      r.Pairwise (cle keyCmpL) := by
    intro r hrm
    rw [haI] at hrm
    rcases List.mem_append.mp hrm with h | h
    · exact hsorted r h
    · rw [List.eq_of_mem_replicate h]
      exact List.Pairwise.nil
  have hlen : totalLen (mergeEngineInit keyCmpL readers).aIter ≤
      totalLen readers := by
    rw [haI, totalLen, List.map_append, List.sum_append]
    have hz : ((List.replicate (powLoop readers.length readers.length 2 -
        readers.length) ([] : List (List Nat))).map List.length).sum = 0 := by
      rw [List.map_replicate, List.length_nil, List.sum_replicate,
        smul_zero]
    rw [totalLen]
    omega
  rw [mergerOut_filter k (totalLen readers) _ hInv hp hlen]
  rw [haI, List.map_append, List.flatten_append]
  have hz : ((List.replicate (powLoop readers.length readers.length 2 -
      readers.length) ([] : List (List Nat))).map (filtK k)).flatten = [] :=
    flatten_map_eq_nil (fun x hx => by
      rw [List.eq_of_mem_replicate hx, filtK_nil])
  rw [hz, List.append_nil]

/-! #### The merge tree over more than one fan-in of PMAs
(`vdbeSorterMergeTreeBuild`, vdbesort.c:2124–2184)

For `nPMA > SORTER_MAX_MERGE_COUNT` the built tree (shape verified
separately on the structural model) reads back as a hierarchy of merge
engines: level-0 engines over consecutive groups of up to 16 PMAs
(`vdbeMergeEngineLevel0`, one per `iSeq`), and above them
`vdbeSorterTreeDepth nPMA` levels of fan-in 16, where each incremental
reader (`vdbePmaReaderIncrMergeInit`) delivers the stream of its child
engine.  `chunksOf` groups a list into consecutive runs, mirroring the
base-16 digit placement of `vdbeSorterAddToTree`. -/

def chunksOf {β : Type} (n : Nat) : List β → List (List β)
  | [] => []
  | x :: xs => (x :: xs.take (n - 1)) :: chunksOf n (xs.drop (n - 1))
  termination_by l => l.length
  decreasing_by simp only [List.length_drop, List.length_cons]; omega

theorem chunksOf_nil {β : Type} (n : Nat) :
    chunksOf n ([] : List β) = [] := by
  rw [chunksOf]

theorem chunksOf_cons {β : Type} (n : Nat) (x : β) (xs : List β) :
    chunksOf n (x :: xs) =
      (x :: xs.take (n - 1)) :: chunksOf n (xs.drop (n - 1)) := by
  rw [chunksOf]

theorem chunksOf_flatten {β : Type} (n : Nat) :
    ∀ (N : Nat) (l : List β), l.length ≤ N → (chunksOf n l).flatten = l := by
  intro N
  induction N with
  | zero =>
      intro l h
      have hl : l = [] := List.eq_nil_of_length_eq_zero (by omega)
      subst hl
      rw [chunksOf_nil, List.flatten_nil]
  | succ N ihN =>
      intro l h
      cases l with
      | nil => rw [chunksOf_nil, List.flatten_nil]
      | cons x xs =>
          rw [chunksOf_cons, List.flatten_cons]
          rw [ihN (xs.drop (n - 1)) (by
            rw [List.length_drop]
            rw [List.length_cons] at h
            omega)]
          rw [List.cons_append, List.take_append_drop]

theorem chunksOf_mem_length {β : Type} (n : Nat) (hn : 1 ≤ n) :
    ∀ (N : Nat) (l : List β), l.length ≤ N →
      ∀ ch ∈ chunksOf n l, ch.length ≤ n := by
  intro N
  induction N with
  | zero =>
      intro l h ch hch
      have hl : l = [] := List.eq_nil_of_length_eq_zero (by omega)
      subst hl
      rw [chunksOf_nil] at hch
      exact absurd hch (List.not_mem_nil ch)
  | succ N ihN =>
      intro l h ch hch
      cases l with
      | nil =>
          rw [chunksOf_nil] at hch
          exact absurd hch (List.not_mem_nil ch)
      | cons x xs =>
          rw [chunksOf_cons] at hch
          rcases List.mem_cons.mp hch with h' | h'
          · rw [h', List.length_cons, List.length_take]
            omega
          · exact ihN (xs.drop (n - 1)) (by
              rw [List.length_drop]
              rw [List.length_cons] at h
              omega) ch h'

theorem chunksOf_length_bound {β : Type} (n : Nat) (hn : 1 ≤ n) :
    ∀ (k : Nat) (l : List β), l.length ≤ k * n →
      (chunksOf n l).length ≤ k := by
  intro k
  induction k with
  | zero =>
      intro l h
      rw [Nat.zero_mul] at h
      have hl : l = [] := List.eq_nil_of_length_eq_zero (by omega)
      subst hl
      rw [chunksOf_nil, List.length_nil]
  | succ k ihk =>
      intro l h
      cases l with
      | nil =>
          rw [chunksOf_nil, List.length_nil]
          omega
      | cons x xs =>
          rw [chunksOf_cons, List.length_cons]
          have hrec := ihk (xs.drop (n - 1)) (by
            rw [List.length_drop]
            rw [List.length_cons] at h
            rw [Nat.succ_mul] at h
            omega)
          omega

theorem chunksOf_mem_of_mem {β : Type} (n : Nat) (l : List β)
    (ch : List β) (hch : ch ∈ chunksOf n l) (g : β) (hg : g ∈ ch) :
    g ∈ l := by
  have hfl : g ∈ (chunksOf n l).flatten := List.mem_flatten.mpr ⟨ch, hch, hg⟩
  rw [chunksOf_flatten n l.length l (le_refl _)] at hfl
  exact hfl

/-- A chain under a transitive comparator is pairwise-related. -/
theorem chain_pairwise (c : α → α → Int)
    (htrans : ∀ a b d : α, c a b ≤ 0 → c b d ≤ 0 → c a d ≤ 0) :
    ∀ (l : List α), l.Chain' (cle c) → l.Pairwise (cle c) := by
  intro l
  induction l with
  | nil => intro _; exact List.Pairwise.nil
  | cons a l ih =>
      intro h
      have h' := List.chain'_cons'.mp h
      have hp := ih h'.2
      refine List.pairwise_cons.mpr ⟨?_, hp⟩
      intro b hb
      cases l with
      | nil => exact absurd hb (List.not_mem_nil b)
      | cons x l' =>
          have hax : cle c a x := h'.1 x rfl
          rcases List.mem_cons.mp hb with hbx | hb'
          · subst hbx
            exact hax
          · have hxb : cle c x b := (List.pairwise_cons.mp hp).1 b hb'
            exact htrans a x b hax hxb

/-- The read-back stream of the merge tree: `kD` engine levels of fan-in
`SORTER_MAX_MERGE_COUNT` over the given child streams (the level-0 engine
outputs).  A node at level `>= 2` hands each parent reader the stream of
the subtree over a consecutive run of `16 ^ (kD - 1)` child streams,
mirroring the digit placement of `vdbeSorterAddToTree`
(vdbesort.c:2068–2111). -/
def treeOut (c : α → α → Int) : Nat → List (List α) → List α
  | 0, streams => engineOut c streams
  | 1, streams => engineOut c streams
  | kD + 2, streams =>
      engineOut c ((chunksOf (SORTER_MAX_MERGE_COUNT ^ (kD + 1)) streams).map
        (fun s => treeOut c (kD + 1) s))
  termination_by kD _ => kD

theorem treeOut_zero (c : α → α → Int) (streams : List (List α)) :
    treeOut c 0 streams = engineOut c streams := by
  rw [treeOut]

theorem treeOut_one (c : α → α → Int) (streams : List (List α)) :
    treeOut c 1 streams = engineOut c streams := by
  rw [treeOut]

theorem treeOut_succ (c : α → α → Int) (kD : Nat)
    (streams : List (List α)) :
    treeOut c (kD + 2) streams =
      engineOut c ((chunksOf (SORTER_MAX_MERGE_COUNT ^ (kD + 1)) streams).map
        (fun s => treeOut c (kD + 1) s)) := by
  rw [treeOut]

/-- The whole merge tree emits a non-decreasing stream when the child
streams are non-decreasing and no engine exceeds its fan-in. -/
theorem treeOut_chain (c : α → α → Int)
    (htot : ∀ a b : α, 0 < c a b → c b a ≤ 0)
    (htrans : ∀ a b d : α, c a b ≤ 0 → c b d ≤ 0 → c a d ≤ 0)
    (hasym : ∀ a b : α, c a b = 0 → c b a = 0) :
    ∀ (kD : Nat) (streams : List (List α)),
      streams.length ≤ SORTER_MAX_MERGE_COUNT ^ max kD 1 →
      (∀ s ∈ streams, s.Chain' (cle c)) →
      (treeOut c kD streams).Chain' (cle c) := by
  intro kD
  induction kD with
  | zero =>
      intro streams hlen hs
      rw [treeOut_zero]
      refine engineOut_chain c htot htrans hasym streams ?_ hs
      have h16 : SORTER_MAX_MERGE_COUNT ^ max 0 1 = SORTER_MAX_MERGE_COUNT := by
        rw [show max 0 1 = 1 from rfl, pow_one]
      rw [h16, SORTER_MAX_MERGE_COUNT] at hlen
      exact hlen
  | succ kD ih =>
      cases kD with
      | zero =>
          intro streams hlen hs
          rw [treeOut_one]
          refine engineOut_chain c htot htrans hasym streams ?_ hs
          have h16 : SORTER_MAX_MERGE_COUNT ^ max 1 1 =
              SORTER_MAX_MERGE_COUNT := by
            rw [show max 1 1 = 1 from rfl, pow_one]
          rw [h16, SORTER_MAX_MERGE_COUNT] at hlen
          exact hlen
      | succ kd =>
          intro streams hlen hs
          rw [treeOut_succ]
          have hpow1 : 1 ≤ SORTER_MAX_MERGE_COUNT ^ (kd + 1) :=
            Nat.one_le_pow _ _ (by rw [SORTER_MAX_MERGE_COUNT]; omega)
          refine engineOut_chain c htot htrans hasym _ ?_ ?_
          · rw [List.length_map]
            have hb := chunksOf_length_bound (SORTER_MAX_MERGE_COUNT ^ (kd + 1))
              hpow1 SORTER_MAX_MERGE_COUNT streams (by
                have hmx : SORTER_MAX_MERGE_COUNT ^ max (kd + 2) 1 =
                    SORTER_MAX_MERGE_COUNT * SORTER_MAX_MERGE_COUNT ^ (kd + 1) := by
                  rw [show max (kd + 2) 1 = kd + 2 by omega, pow_succ]
                  ring
                rw [hmx] at hlen
                exact hlen)
            rw [SORTER_MAX_MERGE_COUNT] at hb
            exact hb
          · intro s hsm
            obtain ⟨ch, hch, hrfl⟩ := List.mem_map.mp hsm
            rw [← hrfl]
            refine ih ch ?_ ?_
            · rw [show max (kd + 1) 1 = kd + 1 by omega]
              exact chunksOf_mem_length _ hpow1 streams.length streams
                (le_refl _) ch hch
            · intro r hr
              exact hs r (chunksOf_mem_of_mem _ streams ch hch r hr)

theorem keyCmpL_le_iff (a b : List Nat) :
    keyCmpL a b ≤ 0 ↔ recKey a ≤ recKey b := by
  rw [keyCmpL]; split_ifs with h1 h2
  · constructor
    · intro _
      omega
    · intro _
      omega
  · constructor
    · intro h
      exact absurd h (by decide)
    · intro h
      omega
  · constructor
    · intro _
      omega
    · intro _
      omega

theorem keyCmpL_tot : ∀ a b : List Nat,
    0 < keyCmpL a b → keyCmpL b a ≤ 0 := by
  intro a b h
  rw [keyCmpL_pos_iff] at h
  rw [keyCmpL_le_iff]
  omega

theorem keyCmpL_trans : ∀ a b d : List Nat,
    keyCmpL a b ≤ 0 → keyCmpL b d ≤ 0 → keyCmpL a d ≤ 0 := by
  intro a b d h1 h2
  rw [keyCmpL_le_iff] at h1 h2 ⊢
  omega

theorem keyCmpL_asym : ∀ a b : List Nat,
    keyCmpL a b = 0 → keyCmpL b a = 0 := by
  intro a b h
  rw [keyCmpL_zero_iff] at h ⊢
  omega

theorem filtK_append (k : Nat) (l1 l2 : List (List Nat)) :
    filtK k (l1 ++ l2) = filtK k l1 ++ filtK k l2 := by
  rw [filtK, filtK, filtK, List.filter_append]

/-! #### Stability of the in-memory sort

`vdbeSorterMerge` takes from `p1` on ties, `vdbeSorterSort` walks the
most-recent-first list head-first and merges lower (older-content) slots
first, so for every key the sorted output lists the matching records in
insertion order — the reverse of `pList`. -/

theorem filtK_merge (k : Nat) :
    ∀ l1 l2 : List (List Nat), l1.Pairwise (cle keyCmpL) →
      l2.Pairwise (cle keyCmpL) →
      filtK k (vdbeSorterMerge keyCmpL l1 l2) = filtK k l1 ++ filtK k l2 := by
  intro l1
  induction l1 with
  | nil =>
      intro l2 _ _
      rw [vdbeSorterMerge_nil, filtK_nil, List.nil_append]
  | cons a l1 ih1 =>
      intro l2
      induction l2 with
      | nil =>
          intro _ _
          rw [vdbeSorterMerge_nil_right, filtK_nil, List.append_nil]
      | cons b l2 ih2 =>
          intro h1 h2
          rw [vdbeSorterMerge_cons_cons]
          by_cases hc : keyCmpL a b ≤ 0
          · rw [if_pos hc]
            have h1' := (List.pairwise_cons.mp h1).2
            by_cases hka : (recKey a == k) = true
            · rw [filtK_cons_pos k a (vdbeSorterMerge keyCmpL l1 (b :: l2))
                hka, filtK_cons_pos k a l1 hka, ih1 (b :: l2) h1' h2,
                List.cons_append]
            · have hka' : (recKey a == k) = false := Bool.eq_false_iff.mpr hka
              rw [filtK_cons_neg k a (vdbeSorterMerge keyCmpL l1 (b :: l2))
                hka', filtK_cons_neg k a l1 hka', ih1 (b :: l2) h1' h2]
          · rw [if_neg hc]
            have h2' := (List.pairwise_cons.mp h2).2
            have hba : recKey b < recKey a := by
              rw [keyCmpL_le_iff] at hc
              omega
            by_cases hkb : (recKey b == k) = true
            · have hknil : filtK k (a :: l1) = [] := by
                refine filtK_eq_nil_of_head_gt k a l1 h1 ?_
                have hbk : recKey b = k := by
                  rw [← beq_iff_eq]
                  exact hkb
                omega
              rw [filtK_cons_pos k b (vdbeSorterMerge keyCmpL (a :: l1) l2)
                hkb, ih2 h1 h2', hknil, filtK_cons_pos k b l2 hkb,
                List.nil_append, List.nil_append]
            · have hkb' : (recKey b == k) = false := Bool.eq_false_iff.mpr hkb
              rw [filtK_cons_neg k b (vdbeSorterMerge keyCmpL (a :: l1) l2)
                hkb', ih2 h1 h2', filtK_cons_neg k b l2 hkb']

theorem filtK_slotInsert (k : Nat) :
    ∀ (slots : List (List (List Nat))) (p : List (List Nat)),
      p.Pairwise (cle keyCmpL) → (∀ s ∈ slots, s.Pairwise (cle keyCmpL)) →
      ((slotInsert keyCmpL p slots).map (filtK k)).flatten =
        filtK k p ++ (slots.map (filtK k)).flatten := by
  intro slots
  induction slots with
  | nil =>
      intro p _ _
      rw [slotInsert]
      simp
  | cons s0 rest ih =>
      intro p hp hs
      rw [slotInsert]
      by_cases h0 : s0.isEmpty
      · rw [if_pos h0]
        have hs0 : s0 = [] := by
          cases s0 with
          | nil => rfl
          | cons x xs =>
              exact absurd h0 (by
                rw [List.isEmpty_cons]
                exact Bool.false_ne_true)
        subst hs0
        rw [List.map_cons, List.flatten_cons, List.map_cons,
          List.flatten_cons, filtK_nil, List.nil_append]
      · rw [if_neg h0]
        rw [List.map_cons, List.flatten_cons, filtK_nil, List.nil_append]
        rw [ih (vdbeSorterMerge keyCmpL p s0)
          (sorted_vdbeSorterMerge keyCmpL keyCmpL_tot keyCmpL_trans p s0 hp
            (hs s0 (List.mem_cons_self _ _)))
          (fun t ht => hs t (List.mem_cons_of_mem _ ht))]
        rw [filtK_merge k p s0 hp (hs s0 (List.mem_cons_self _ _))]
        rw [List.map_cons, List.flatten_cons, List.append_assoc]

theorem filtK_sortPass (k : Nat) :
    ∀ (l : List (List Nat)) (slots : List (List (List Nat))),
      (∀ s ∈ slots, s.Pairwise (cle keyCmpL)) →
      ((sortPass keyCmpL l slots).map (filtK k)).flatten =
        filtK k l.reverse ++ (slots.map (filtK k)).flatten := by
  intro l
  induction l with
  | nil =>
      intro slots _
      rw [sortPass, List.reverse_nil, filtK_nil, List.nil_append]
  | cons p rest ih =>
      intro slots hs
      rw [sortPass]
      rw [ih (slotInsert keyCmpL [p] slots)
        (sorted_slotInsert keyCmpL keyCmpL_tot keyCmpL_trans slots [p]
          (List.pairwise_singleton _ _) hs)]
      rw [filtK_slotInsert k slots [p] (List.pairwise_singleton _ _) hs]
      rw [List.reverse_cons, filtK_append, List.append_assoc]

theorem filtK_foldl_merge (k : Nat) :
    ∀ (slots : List (List (List Nat))) (acc : List (List Nat)),
      acc.Pairwise (cle keyCmpL) → (∀ s ∈ slots, s.Pairwise (cle keyCmpL)) →
      filtK k (slots.foldl (fun p s => vdbeSorterMerge keyCmpL p s) acc) =
        filtK k acc ++ (slots.map (filtK k)).flatten := by
  intro slots
  induction slots with
  | nil =>
      intro acc _ _
      rw [List.foldl_nil, List.map_nil, List.flatten_nil, List.append_nil]
  | cons s0 rest ih =>
      intro acc hacc hs
      rw [List.foldl_cons]
      rw [ih (vdbeSorterMerge keyCmpL acc s0)
        (sorted_vdbeSorterMerge keyCmpL keyCmpL_tot keyCmpL_trans acc s0 hacc
          (hs s0 (List.mem_cons_self _ _)))
        (fun t ht => hs t (List.mem_cons_of_mem _ ht))]
      rw [filtK_merge k acc s0 hacc (hs s0 (List.mem_cons_self _ _))]
      rw [List.map_cons, List.flatten_cons, List.append_assoc]

/-- For every key, the in-memory sort lists the matching records in
insertion order (the reverse of the most-recent-first `pList`). -/
theorem filtK_vdbeSorterSort (k : Nat) (l : List (List Nat)) :
    filtK k (vdbeSorterSort keyCmpL l) = filtK k l.reverse := by
  rw [vdbeSorterSort]
  rw [filtK_foldl_merge k (sortPass keyCmpL l []) [] List.Pairwise.nil
    (sorted_sortPass keyCmpL keyCmpL_tot keyCmpL_trans l [] (by simp))]
  rw [filtK_nil, List.nil_append]
  rw [filtK_sortPass k l [] (by simp)]
  rw [List.map_nil, List.flatten_nil, List.append_nil]

theorem flatten_map_flatten {β γ : Type} (f : β → List γ) :
    ∀ (L : List (List β)),
      (L.map (fun ch => (ch.map f).flatten)).flatten =
        (L.flatten.map f).flatten := by
  intro L
  induction L with
  | nil => rfl
  | cons ch L ih =>
      rw [List.map_cons, List.flatten_cons, ih, List.flatten_cons,
        List.map_append, List.flatten_append]

/-- For every key, the whole merge tree emits exactly the matching
records of its child streams, in stream order. -/
theorem treeOut_filter (k : Nat) :
    ∀ (kD : Nat) (streams : List (List (List Nat))),
      streams.length ≤ SORTER_MAX_MERGE_COUNT ^ max kD 1 →
      (∀ s ∈ streams, s.Pairwise (cle keyCmpL)) →
      filtK k (treeOut keyCmpL kD streams) =
        (streams.map (filtK k)).flatten := by
  intro kD
  induction kD with
  | zero =>
      intro streams hlen hs
      rw [treeOut_zero]
      refine engineOut_filter k streams ?_ hs
      have h16 : SORTER_MAX_MERGE_COUNT ^ max 0 1 =
          SORTER_MAX_MERGE_COUNT := by
        rw [show max 0 1 = 1 from rfl, pow_one]
      rw [h16, SORTER_MAX_MERGE_COUNT] at hlen
      exact hlen
  | succ kD ih =>
      cases kD with
      | zero =>
          intro streams hlen hs
          rw [treeOut_one]
          refine engineOut_filter k streams ?_ hs
          have h16 : SORTER_MAX_MERGE_COUNT ^ max 1 1 =
              SORTER_MAX_MERGE_COUNT := by
            rw [show max 1 1 = 1 from rfl, pow_one]
          rw [h16, SORTER_MAX_MERGE_COUNT] at hlen
          exact hlen
      | succ kd =>
          intro streams hlen hs
          rw [treeOut_succ]
          have hpow1 : 1 ≤ SORTER_MAX_MERGE_COUNT ^ (kd + 1) :=
            Nat.one_le_pow _ _ (by rw [SORTER_MAX_MERGE_COUNT]; omega)
          have hchprops : ∀ ch ∈ chunksOf
              (SORTER_MAX_MERGE_COUNT ^ (kd + 1)) streams,
              ch.length ≤ SORTER_MAX_MERGE_COUNT ^ (kd + 1) ∧
              ∀ s ∈ ch, s.Pairwise (cle keyCmpL) := by
            intro ch hch
            exact ⟨chunksOf_mem_length _ hpow1 streams.length streams
                (le_refl _) ch hch,
              fun s hsm => hs s (chunksOf_mem_of_mem _ streams ch hch s hsm)⟩
          have hcnt : ((chunksOf (SORTER_MAX_MERGE_COUNT ^ (kd + 1))
              streams).map (fun s => treeOut keyCmpL (kd + 1) s)).length ≤
              16 := by
            rw [List.length_map]
            have hb := chunksOf_length_bound
              (SORTER_MAX_MERGE_COUNT ^ (kd + 1)) hpow1
              SORTER_MAX_MERGE_COUNT streams (by
                have hmx : SORTER_MAX_MERGE_COUNT ^ max (kd + 2) 1 =
                    SORTER_MAX_MERGE_COUNT *
                      SORTER_MAX_MERGE_COUNT ^ (kd + 1) := by
                  rw [show max (kd + 2) 1 = kd + 2 by omega, pow_succ]
                  ring
                rw [hmx] at hlen
                exact hlen)
            rw [SORTER_MAX_MERGE_COUNT] at hb
            exact hb
          have hchildp : ∀ s ∈ (chunksOf (SORTER_MAX_MERGE_COUNT ^ (kd + 1))
              streams).map (fun s => treeOut keyCmpL (kd + 1) s),
              s.Pairwise (cle keyCmpL) := by
            intro s hsm
            obtain ⟨ch, hch, hrfl⟩ := List.mem_map.mp hsm
            rw [← hrfl]
            refine chain_pairwise keyCmpL keyCmpL_trans _ ?_
            refine treeOut_chain keyCmpL keyCmpL_tot keyCmpL_trans
              keyCmpL_asym (kd + 1) ch ?_ ?_
            · rw [show max (kd + 1) 1 = kd + 1 by omega]
              exact (hchprops ch hch).1
            · intro r hr
              exact ((hchprops ch hch).2 r hr).chain'
          rw [engineOut_filter k _ hcnt hchildp]
          rw [List.map_map]
          have hmaps : (chunksOf (SORTER_MAX_MERGE_COUNT ^ (kd + 1))
              streams).map
              ((filtK k) ∘ (fun s => treeOut keyCmpL (kd + 1) s)) =
              (chunksOf (SORTER_MAX_MERGE_COUNT ^ (kd + 1)) streams).map
              (fun ch => (ch.map (filtK k)).flatten) := by
            refine List.map_congr_left ?_
            intro ch hch
            show filtK k (treeOut keyCmpL (kd + 1) ch) = _
            refine ih ch ?_ ((hchprops ch hch).2)
            rw [show max (kd + 1) 1 = kd + 1 by omega]
            exact (hchprops ch hch).1
          rw [hmaps, flatten_map_flatten]
          rw [chunksOf_flatten _ streams.length streams (le_refl _)]

/-! #### The full pipeline: write, rewind, read to exhaustion -/

/-- The write-path state produced by `sqlite3VdbeSorterInit`
(vdbesort.c:1110–1175): empty in-memory list, no PMAs, `bUsePMA`
cleared; the PMA size window and the arena choice are configuration. -/
def sorterOpen (mn mx : Nat) (aMem : Bool) : VdbeSorterW :=
  { mnPmaSize := mn, mxPmaSize := mx, mxKeysize := 0, iMemory := 0
    nMemory := 0
    list := { pList := [], szPMA := 0, aMemory := aMem }
    bUsePMA := false, nPMA := 0, pmas := [], unpackedErrCode := 0 }

/-- A run of sorter writes (`sqlite3VdbeSorterWrite` per record, each
with its heap-pressure hint). -/
def sorterWriteAll (c : List Nat → List Nat → Int)
    (writes : List (Bool × List Nat)) (s : VdbeSorterW) : VdbeSorterW :=
  writes.foldl (fun s w => (sqlite3VdbeSorterWrite c w.1 w.2 s).1) s

/-- The read-back stream prepared by `sqlite3VdbeSorterRewind`
(vdbesort.c:2266–2308) and consumed by `sqlite3VdbeSorterNext` /
`vdbeSorterRowkey` in single-threaded mode: with `bUsePMA == 0` the
sorted in-memory list is walked directly; otherwise the in-memory list
is flushed to a final PMA (`vdbeSorterFlushPMA`) and
`vdbeSorterSetupMerge` / `vdbeSorterMergeTreeBuild` build the merge
tree — a single level-0 engine when `nPMA <= SORTER_MAX_MERGE_COUNT`,
otherwise level-0 engines over consecutive groups of 16 PMAs under
`vdbeSorterTreeDepth nPMA` engine levels — which is read to
exhaustion. -/
def sorterRewindOut (c : List Nat → List Nat → Int) (s : VdbeSorterW) :
    List (List Nat) :=
  if s.bUsePMA = false then vdbeSorterSort c s.list.pList
  else
    let s := (vdbeSorterFlushPMA c s).1
    if s.nPMA ≤ SORTER_MAX_MERGE_COUNT then engineOut c s.pmas
    else
      treeOut c (vdbeSorterTreeDepth s.nPMA)
        ((chunksOf SORTER_MAX_MERGE_COUNT s.pmas).map
          (fun g => engineOut c g))

/-- Open the sorter, write all records, rewind, read everything. -/
def sorterPipelineOut (c : List Nat → List Nat → Int)
    (writes : List (Bool × List Nat)) (mn mx : Nat) (aMem : Bool) :
    List (List Nat) :=
  sorterRewindOut c (sorterWriteAll c writes (sorterOpen mn mx aMem))

/-- A sorter write either only prepends the record to the in-memory
list, or first flushes that list as a new sorted PMA. -/
theorem sorterWrite_fields (c : List Nat → List Nat → Int) (heap : Bool)
    (pVal : List Nat) (s : VdbeSorterW) :
    ((sqlite3VdbeSorterWrite c heap pVal s).1.pmas = s.pmas ∧
      (sqlite3VdbeSorterWrite c heap pVal s).1.list.pList =
        pVal :: s.list.pList ∧
      (sqlite3VdbeSorterWrite c heap pVal s).1.nPMA = s.nPMA ∧
      (sqlite3VdbeSorterWrite c heap pVal s).1.bUsePMA = s.bUsePMA) ∨
    ((sqlite3VdbeSorterWrite c heap pVal s).1.pmas =
        s.pmas ++ [vdbeSorterSort c s.list.pList] ∧
      (sqlite3VdbeSorterWrite c heap pVal s).1.list.pList = [pVal] ∧
      (sqlite3VdbeSorterWrite c heap pVal s).1.nPMA = s.nPMA + 1 ∧
      (sqlite3VdbeSorterWrite c heap pVal s).1.bUsePMA = true) := by
  cases hf : (if s.mxPmaSize ≠ 0 then
      if s.list.aMemory then
        s.iMemory ≠ 0 &&
          decide (s.iMemory + (pVal.length + sizeofSorterRecord) >
            s.mxPmaSize)
      else
        decide (s.list.szPMA > s.mxPmaSize) ||
          (decide (s.list.szPMA > s.mnPmaSize) && heap)
    else false)
  · refine Or.inl ?_
    rw [sqlite3VdbeSorterWrite]
    simp only [hf, Bool.false_eq_true, if_false]
    refine ⟨?_, ?_, ?_, ?_⟩ <;>
      (first
        | rfl
        | (split <;> (try split) <;> (first | rfl | trivial))
        | trivial)
  · refine Or.inr ?_
    rw [sqlite3VdbeSorterWrite]
    simp only [hf, if_true]
    rw [vdbeSorterFlushPMA]
    refine ⟨?_, ?_, ?_, ?_⟩ <;>
      (first
        | rfl
        | (split <;> (try split) <;> (first | rfl | trivial))
        | trivial)

/-- State invariant of the write fold: flushed PMAs are sorted, `nPMA`
counts them, and before the first flush there are none. -/
def SInv (c : List Nat → List Nat → Int) (s : VdbeSorterW) : Prop :=
  (∀ p ∈ s.pmas, p.Pairwise (cle c)) ∧ s.nPMA = s.pmas.length ∧
    (s.bUsePMA = false → s.pmas = [])

theorem sorterWrite_SInv (c : List Nat → List Nat → Int)
    (htot : ∀ a b : List Nat, 0 < c a b → c b a ≤ 0)
    (htrans : ∀ a b d : List Nat, c a b ≤ 0 → c b d ≤ 0 → c a d ≤ 0)
    (heap : Bool) (pVal : List Nat) (s : VdbeSorterW) (hInv : SInv c s) :
    SInv c (sqlite3VdbeSorterWrite c heap pVal s).1 := by
  obtain ⟨hpmas, hn, hb⟩ := hInv
  rcases sorterWrite_fields c heap pVal s with
    ⟨h1, _, h3, h4⟩ | ⟨h1, _, h3, h4⟩
  · refine ⟨?_, ?_, ?_⟩
    · rw [h1]
      exact hpmas
    · rw [h3, h1]
      exact hn
    · intro hfalse
      rw [h1]
      exact hb (by rw [← h4]; exact hfalse)
  · refine ⟨?_, ?_, ?_⟩
    · rw [h1]
      intro p hp
      rcases List.mem_append.mp hp with h | h
      · exact hpmas p h
      · rw [List.mem_singleton.mp h]
        exact sorted_vdbeSorterSort c htot htrans _
    · rw [h3, h1]
      simp [List.length_append, hn]
    · intro hfalse
      rw [h4] at hfalse
      exact Bool.noConfusion hfalse

theorem sorterWriteAll_SInv (c : List Nat → List Nat → Int)
    (htot : ∀ a b : List Nat, 0 < c a b → c b a ≤ 0)
    (htrans : ∀ a b d : List Nat, c a b ≤ 0 → c b d ≤ 0 → c a d ≤ 0) :
    ∀ (writes : List (Bool × List Nat)) (s : VdbeSorterW), SInv c s →
      SInv c (sorterWriteAll c writes s) := by
  intro writes
  induction writes with
  | nil => intro s h; exact h
  | cons w rest ih =>
      intro s h
      exact ih _ (sorterWrite_SInv c htot htrans w.1 w.2 s h)

/-- `n <= 16 ^ (treeDepth n + 1)`: the loop exits as soon as `nDiv`
reaches `nPMA`. -/
theorem treeDepth_ub (n : Nat) :
    n ≤ SORTER_MAX_MERGE_COUNT ^ (vdbeSorterTreeDepth n + 1) := by
  have h := treeDepthLoop_le_pow n SORTER_MAX_MERGE_COUNT
    (by rw [SORTER_MAX_MERGE_COUNT]; omega)
  rw [vdbeSorterTreeDepth, pow_succ]
  calc n ≤ SORTER_MAX_MERGE_COUNT *
        SORTER_MAX_MERGE_COUNT ^ treeDepthLoop n SORTER_MAX_MERGE_COUNT := h
    _ = SORTER_MAX_MERGE_COUNT ^ treeDepthLoop n SORTER_MAX_MERGE_COUNT *
        SORTER_MAX_MERGE_COUNT := by ring

/-- The single-threaded read-back stream is non-decreasing under the
host comparator, from any state satisfying the write invariant. -/
theorem sorterRewind_chain (c : List Nat → List Nat → Int)
    (htot : ∀ a b : List Nat, 0 < c a b → c b a ≤ 0)
    (htrans : ∀ a b d : List Nat, c a b ≤ 0 → c b d ≤ 0 → c a d ≤ 0)
    (hasym : ∀ a b : List Nat, c a b = 0 → c b a = 0)
    (s : VdbeSorterW) (hInv : SInv c s) :
    (sorterRewindOut c s).Chain' (cle c) := by
  obtain ⟨hpmas, hn, hb⟩ := hInv
  rw [sorterRewindOut]
  by_cases hbp : s.bUsePMA = false
  · rw [if_pos hbp]
    exact (sorted_vdbeSorterSort c htot htrans _).chain'
  · rw [if_neg hbp]
    have hfp : (vdbeSorterFlushPMA c s).1.pmas =
        s.pmas ++ [vdbeSorterSort c s.list.pList] := rfl
    have hfn : (vdbeSorterFlushPMA c s).1.nPMA = s.nPMA + 1 := rfl
    have hpmas' : ∀ p ∈ (vdbeSorterFlushPMA c s).1.pmas,
        p.Pairwise (cle c) := by
      rw [hfp]
      intro p hp
      rcases List.mem_append.mp hp with h | h
      · exact hpmas p h
      · rw [List.mem_singleton.mp h]
        exact sorted_vdbeSorterSort c htot htrans _
    have hn' : (vdbeSorterFlushPMA c s).1.nPMA =
        (vdbeSorterFlushPMA c s).1.pmas.length := by
      rw [hfn, hfp]
      simp [List.length_append, hn]
    by_cases hc : (vdbeSorterFlushPMA c s).1.nPMA ≤ SORTER_MAX_MERGE_COUNT
    · rw [if_pos hc]
      refine engineOut_chain c htot htrans hasym _ ?_ ?_
      · rw [← hn']
        rw [SORTER_MAX_MERGE_COUNT] at hc
        exact hc
      · intro r hr
        exact (hpmas' r hr).chain'
    · rw [if_neg hc]
      have h16lt : SORTER_MAX_MERGE_COUNT <
          (vdbeSorterFlushPMA c s).1.nPMA := Nat.not_le.mp hc
      have hkpos := vdbeSorterTreeDepth_pos h16lt
      refine treeOut_chain c htot htrans hasym _ _ ?_ ?_
      · rw [List.length_map]
        rw [show max (vdbeSorterTreeDepth (vdbeSorterFlushPMA c s).1.nPMA) 1 =
          vdbeSorterTreeDepth (vdbeSorterFlushPMA c s).1.nPMA by omega]
        refine chunksOf_length_bound SORTER_MAX_MERGE_COUNT
          (by rw [SORTER_MAX_MERGE_COUNT]; omega)
          (SORTER_MAX_MERGE_COUNT ^
            vdbeSorterTreeDepth (vdbeSorterFlushPMA c s).1.nPMA) _ ?_
        rw [← hn']
        calc (vdbeSorterFlushPMA c s).1.nPMA
            ≤ SORTER_MAX_MERGE_COUNT ^
              (vdbeSorterTreeDepth (vdbeSorterFlushPMA c s).1.nPMA + 1) :=
              treeDepth_ub _
          _ = SORTER_MAX_MERGE_COUNT ^
              vdbeSorterTreeDepth (vdbeSorterFlushPMA c s).1.nPMA *
              SORTER_MAX_MERGE_COUNT := by rw [pow_succ]
      · intro str hstr
        obtain ⟨ch, hch, hrfl⟩ := List.mem_map.mp hstr
        rw [← hrfl]
        refine engineOut_chain c htot htrans hasym ch ?_ ?_
        · have hl := chunksOf_mem_length SORTER_MAX_MERGE_COUNT
            (by rw [SORTER_MAX_MERGE_COUNT]; omega)
            (vdbeSorterFlushPMA c s).1.pmas.length _ (le_refl _) ch hch
          rw [SORTER_MAX_MERGE_COUNT] at hl
          exact hl
        · intro r hr
          exact (hpmas' r (chunksOf_mem_of_mem _ _ ch hch r hr)).chain'

/-- The records with key `k` buffered so far, in insertion order: those
inside flushed PMAs in flush order, then the in-memory list oldest
first. -/
def pipeFilt (k : Nat) (s : VdbeSorterW) : List (List Nat) :=
  (s.pmas.map (filtK k)).flatten ++ filtK k s.list.pList.reverse

theorem sorterWrite_pipeFilt (k : Nat) (heap : Bool) (pVal : List Nat)
    (s : VdbeSorterW) :
    pipeFilt k (sqlite3VdbeSorterWrite keyCmpL heap pVal s).1 =
      pipeFilt k s ++ filtK k [pVal] := by
  rcases sorterWrite_fields keyCmpL heap pVal s with
    ⟨h1, h2, _, _⟩ | ⟨h1, h2, _, _⟩
  · rw [pipeFilt, pipeFilt, h1, h2]
    rw [List.reverse_cons, filtK_append, List.append_assoc]
  · rw [pipeFilt, pipeFilt, h1, h2]
    rw [List.map_append, List.flatten_append]
    rw [List.map_cons, List.map_nil, List.flatten_cons, List.flatten_nil,
      List.append_nil]
    rw [filtK_vdbeSorterSort, List.reverse_singleton, List.append_assoc]

theorem sorterWriteAll_pipeFilt (k : Nat) :
    ∀ (writes : List (Bool × List Nat)) (s : VdbeSorterW),
      pipeFilt k (sorterWriteAll keyCmpL writes s) =
        pipeFilt k s ++ filtK k (writes.map (fun w => w.2)) := by
  intro writes
  induction writes with
  | nil =>
      intro s
      have h0 : sorterWriteAll keyCmpL [] s = s := rfl
      rw [h0, List.map_nil, filtK_nil, List.append_nil]
  | cons w rest ih =>
      intro s
      have h0 : sorterWriteAll keyCmpL (w :: rest) s =
          sorterWriteAll keyCmpL rest
            (sqlite3VdbeSorterWrite keyCmpL w.1 w.2 s).1 := rfl
      rw [h0, ih, sorterWrite_pipeFilt]
      rw [List.map_cons]
      have hdec : filtK k (w.2 :: rest.map (fun w => w.2)) =
          filtK k [w.2] ++ filtK k (rest.map (fun w => w.2)) := by
        rw [show w.2 :: rest.map (fun w => w.2) =
          [w.2] ++ rest.map (fun w => w.2) from rfl, filtK_append]
      rw [hdec, List.append_assoc]

/-- For every key, the single-threaded read-back stream lists exactly
the buffered matching records in insertion order. -/
theorem sorterRewind_filt (k : Nat) (s : VdbeSorterW)
    (hInv : SInv keyCmpL s) :
    filtK k (sorterRewindOut keyCmpL s) = pipeFilt k s := by
  obtain ⟨hpmas, hn, hb⟩ := hInv
  rw [sorterRewindOut, pipeFilt]
  by_cases hbp : s.bUsePMA = false
  · rw [if_pos hbp, filtK_vdbeSorterSort, hb hbp]
    rw [List.map_nil, List.flatten_nil, List.nil_append]
  · rw [if_neg hbp]
    have hfp : (vdbeSorterFlushPMA keyCmpL s).1.pmas =
        s.pmas ++ [vdbeSorterSort keyCmpL s.list.pList] := rfl
    have hfn : (vdbeSorterFlushPMA keyCmpL s).1.nPMA = s.nPMA + 1 := rfl
    have hpmas' : ∀ p ∈ (vdbeSorterFlushPMA keyCmpL s).1.pmas,
        p.Pairwise (cle keyCmpL) := by
      rw [hfp]
      intro p hp
      rcases List.mem_append.mp hp with h | h
      · exact hpmas p h
      · rw [List.mem_singleton.mp h]
        exact sorted_vdbeSorterSort keyCmpL keyCmpL_tot keyCmpL_trans _
    have hn' : (vdbeSorterFlushPMA keyCmpL s).1.nPMA =
        (vdbeSorterFlushPMA keyCmpL s).1.pmas.length := by
      rw [hfn, hfp]
      simp [List.length_append, hn]
    have hpost : ((vdbeSorterFlushPMA keyCmpL s).1.pmas.map
        (filtK k)).flatten =
        (s.pmas.map (filtK k)).flatten ++ filtK k s.list.pList.reverse := by
      rw [hfp, List.map_append, List.flatten_append, List.map_cons,
        List.map_nil, List.flatten_cons, List.flatten_nil, List.append_nil,
        filtK_vdbeSorterSort]
    by_cases hc : (vdbeSorterFlushPMA keyCmpL s).1.nPMA ≤
        SORTER_MAX_MERGE_COUNT
    · rw [if_pos hc]
      have hlen16 : (vdbeSorterFlushPMA keyCmpL s).1.pmas.length ≤ 16 := by
        rw [← hn']
        rw [SORTER_MAX_MERGE_COUNT] at hc
        exact hc
      rw [engineOut_filter k _ hlen16 hpmas', hpost]
    · rw [if_neg hc]
      have h16lt : SORTER_MAX_MERGE_COUNT <
          (vdbeSorterFlushPMA keyCmpL s).1.nPMA := Nat.not_le.mp hc
      have hkpos := vdbeSorterTreeDepth_pos h16lt
      have hchlen : ∀ ch ∈ chunksOf SORTER_MAX_MERGE_COUNT
          (vdbeSorterFlushPMA keyCmpL s).1.pmas, ch.length ≤
          SORTER_MAX_MERGE_COUNT :=
        chunksOf_mem_length SORTER_MAX_MERGE_COUNT
          (by rw [SORTER_MAX_MERGE_COUNT]; omega)
          (vdbeSorterFlushPMA keyCmpL s).1.pmas.length _ (le_refl _)
      have hchsor : ∀ ch ∈ chunksOf SORTER_MAX_MERGE_COUNT
          (vdbeSorterFlushPMA keyCmpL s).1.pmas,
          ∀ p ∈ ch, p.Pairwise (cle keyCmpL) := by
        intro ch hch p hp
        exact hpmas' p (chunksOf_mem_of_mem _ _ ch hch p hp)
      have hstr : ∀ str ∈ (chunksOf SORTER_MAX_MERGE_COUNT
          (vdbeSorterFlushPMA keyCmpL s).1.pmas).map
          (fun g => engineOut keyCmpL g), str.Pairwise (cle keyCmpL) := by
        intro str hstrm
        obtain ⟨ch, hch, hrfl⟩ := List.mem_map.mp hstrm
        rw [← hrfl]
        refine chain_pairwise keyCmpL keyCmpL_trans _ ?_
        refine engineOut_chain keyCmpL keyCmpL_tot keyCmpL_trans
          keyCmpL_asym ch ?_ ?_
        · have hl := hchlen ch hch
          rw [SORTER_MAX_MERGE_COUNT] at hl
          exact hl
        · intro r hr
          exact (hchsor ch hch r hr).chain'
      have hcount : ((chunksOf SORTER_MAX_MERGE_COUNT
          (vdbeSorterFlushPMA keyCmpL s).1.pmas).map
          (fun g => engineOut keyCmpL g)).length ≤ SORTER_MAX_MERGE_COUNT ^
          max (vdbeSorterTreeDepth (vdbeSorterFlushPMA keyCmpL s).1.nPMA)
            1 := by
        rw [List.length_map]
        rw [show max (vdbeSorterTreeDepth
          (vdbeSorterFlushPMA keyCmpL s).1.nPMA) 1 =
          vdbeSorterTreeDepth (vdbeSorterFlushPMA keyCmpL s).1.nPMA
          by omega]
        refine chunksOf_length_bound SORTER_MAX_MERGE_COUNT
          (by rw [SORTER_MAX_MERGE_COUNT]; omega)
          (SORTER_MAX_MERGE_COUNT ^
            vdbeSorterTreeDepth (vdbeSorterFlushPMA keyCmpL s).1.nPMA)
          _ ?_
        rw [← hn']
        calc (vdbeSorterFlushPMA keyCmpL s).1.nPMA
            ≤ SORTER_MAX_MERGE_COUNT ^
              (vdbeSorterTreeDepth
                (vdbeSorterFlushPMA keyCmpL s).1.nPMA + 1) :=
              treeDepth_ub _
          _ = SORTER_MAX_MERGE_COUNT ^
              vdbeSorterTreeDepth (vdbeSorterFlushPMA keyCmpL s).1.nPMA *
              SORTER_MAX_MERGE_COUNT := by rw [pow_succ]
      rw [treeOut_filter k _ _ hcount hstr]
      rw [List.map_map]
      have hmaps : (chunksOf SORTER_MAX_MERGE_COUNT
          (vdbeSorterFlushPMA keyCmpL s).1.pmas).map
          ((filtK k) ∘ (fun g => engineOut keyCmpL g)) =
          (chunksOf SORTER_MAX_MERGE_COUNT
            (vdbeSorterFlushPMA keyCmpL s).1.pmas).map
          (fun ch => (ch.map (filtK k)).flatten) := by
        refine List.map_congr_left ?_
        intro ch hch
        show filtK k (engineOut keyCmpL ch) = _
        refine engineOut_filter k ch ?_ (hchsor ch hch)
        have hl := hchlen ch hch
        rw [SORTER_MAX_MERGE_COUNT] at hl
        exact hl
      rw [hmaps, flatten_map_flatten]
      rw [chunksOf_flatten _ (vdbeSorterFlushPMA keyCmpL s).1.pmas.length _
        (le_refl _)]
      rw [hpost]

/-- **C1.** For every input sequence of records written to the sorter
and read back in single-threaded mode — the sorted in-memory list when
no PMA was flushed, otherwise the `vdbeSorterNext` tournament tree over
the merge hierarchy built by `vdbeSorterSetupMerge` — the records
produced by successive advance operations are non-decreasing under the
host comparator: for each consecutive pair,
`compare(prev, next) <= 0`.  The comparator is assumed total
(`0 < c a b → c b a ≤ 0`), transitive on `≤ 0`, and symmetric on
ties. -/
theorem sorter_monotone (c : List Nat → List Nat → Int)
    (htot : ∀ a b : List Nat, 0 < c a b → c b a ≤ 0)
    (htrans : ∀ a b d : List Nat, c a b ≤ 0 → c b d ≤ 0 → c a d ≤ 0)
    (hasym : ∀ a b : List Nat, c a b = 0 → c b a = 0)
    (writes : List (Bool × List Nat)) (mn mx : Nat) (aMem : Bool) :
    (sorterPipelineOut c writes mn mx aMem).Chain'
      (fun prev next => c prev next ≤ 0) := by
  rw [sorterPipelineOut]
  have h0 : SInv c (sorterOpen mn mx aMem) :=
    ⟨fun p hp => absurd hp (List.not_mem_nil p), rfl, fun _ => rfl⟩
  exact sorterRewind_chain c htot htrans hasym _
    (sorterWriteAll_SInv c htot htrans writes _ h0)

theorem sorter_monotone_witness :
    (∀ a b : List Nat, 0 < keyCmpL a b → keyCmpL b a ≤ 0) ∧
    (∀ a b d : List Nat, keyCmpL a b ≤ 0 → keyCmpL b d ≤ 0 →
      keyCmpL a d ≤ 0) ∧
    (∀ a b : List Nat, keyCmpL a b = 0 → keyCmpL b a = 0) ∧
    (sorterPipelineOut keyCmpL
      [(false, [3, 0]), (false, [1, 1]), (false, [2, 2])] 4 16
      false).Chain' (fun prev next => keyCmpL prev next ≤ 0) :=
  ⟨keyCmpL_tot, keyCmpL_trans, keyCmpL_asym,
    sorter_monotone keyCmpL keyCmpL_tot keyCmpL_trans keyCmpL_asym
      [(false, [3, 0]), (false, [1, 1]), (false, [2, 2])] 4 16 false⟩

/-- **C2.** Single-threaded stability: for any input sequence of
`(key, tag)` records (encoded as two-element records whose head is the
key), and any key `k`, filtering the stream produced by rewind and
advance down to key `k` yields exactly the input records with key `k`
in their original insertion order — duplicated keys keep their relative
order, both through the tie-taking `vdbeSorterMerge` and through the
reader-index tie-break of `vdbeSorterNext` (vdbesort.c:1489–1503). -/
theorem sorter_stable (writes : List (Bool × Nat × Nat)) (mn mx : Nat)
    (aMem : Bool) (k : Nat) :
    filtK k (sorterPipelineOut keyCmpL
        (writes.map (fun w => (w.1, [w.2.1, w.2.2]))) mn mx aMem) =
      filtK k (writes.map (fun w => [w.2.1, w.2.2])) := by
  rw [sorterPipelineOut]
  have h0 : SInv keyCmpL (sorterOpen mn mx aMem) :=
    ⟨fun p hp => absurd hp (List.not_mem_nil p), rfl, fun _ => rfl⟩
  rw [sorterRewind_filt k _
    (sorterWriteAll_SInv keyCmpL keyCmpL_tot keyCmpL_trans _ _ h0)]
  rw [sorterWriteAll_pipeFilt]
  have hopen : pipeFilt k (sorterOpen mn mx aMem) = [] := rfl
  rw [hopen, List.nil_append, List.map_map]
  rfl

end SqliteSort

namespace SqliteExpr

inductive TK where
  | ID | DOT | COLUMN | AS | STRING | NULL | INTEGER | FLOAT | VARIABLE
  | PLUS | MINUS | STAR | SLASH | REM
  | AND | OR | NOT
  | UPLUS | UMINUS
  | BITAND | BITOR | BITNOT | LSHIFT | RSHIFT | CONCAT
  | LT | LE | GT | GE | NE | EQ | ISNULL | NOTNULL
  | IN | BETWEEN | GLOB | LIKE | CASE | SELECT | FUNCTION | AGG_FUNCTION
  | RAISE | ABORT
  deriving Repr, DecidableEq

structure Token where
  z : Option String
  n : Nat
  dyn : Bool
  deriving Repr, DecidableEq

mutual
inductive Expr where
  | mk (addr : Nat) (op : TK) (token : Token) (span : Token)
       (iDb iTable iColumn dataType iAgg : Int)
       (pLeft pRight : OExpr) (pList : OList) (pSelect : OSelect)
  deriving Repr, DecidableEq
inductive OExpr where
  | none
  | some (e : Expr)
  deriving Repr, DecidableEq
inductive OList where
  | none
  | some (l : ExprList)
  deriving Repr, DecidableEq
inductive ExprList where
  | nil
  | cons (item : ExprItem) (rest : ExprList)
  deriving Repr, DecidableEq
inductive ExprItem where
  | mk (pExpr : OExpr) (zName : Option String) (sortOrder : Int)
       (isAgg : Bool) (done : Bool)
  deriving Repr, DecidableEq
inductive OSelect where
  | none
  | some (s : Select)
  deriving Repr, DecidableEq
inductive Select where
  | mk (pEList : OList)
  deriving Repr, DecidableEq
end

def Expr.addr : Expr → Nat
  | .mk a _ _ _ _ _ _ _ _ _ _ _ _ => a

def Expr.op : Expr → TK
  | .mk _ op _ _ _ _ _ _ _ _ _ _ _ => op

def Expr.token : Expr → Token
  | .mk _ _ token _ _ _ _ _ _ _ _ _ _ => token

def Expr.span : Expr → Token
  | .mk _ _ _ span _ _ _ _ _ _ _ _ _ => span

def Expr.iTable : Expr → Int
  | .mk _ _ _ _ _ it _ _ _ _ _ _ _ => it

def Expr.iColumn : Expr → Int
  | .mk _ _ _ _ _ _ ic _ _ _ _ _ _ => ic

def Expr.pLeft : Expr → OExpr
  | .mk _ _ _ _ _ _ _ _ _ l _ _ _ => l

def Expr.pRight : Expr → OExpr
  | .mk _ _ _ _ _ _ _ _ _ _ r _ _ => r

def Expr.pList : Expr → OList
  | .mk _ _ _ _ _ _ _ _ _ _ _ lst _ => lst

def Expr.pSelect : Expr → OSelect
  | .mk _ _ _ _ _ _ _ _ _ _ _ _ sel => sel

def Expr.setSpan : Expr → Token → Expr
  | .mk a op tok _ iDb iTable iColumn dataType iAgg l r lst sel, sp =>
    .mk a op tok sp iDb iTable iColumn dataType iAgg l r lst sel

/-- `sqlite3TokenCopy` (expr.c:139): materialise an owned copy of `pFrom`
into `pTo` (the old owned buffer, if any, is freed). -/
def sqlite3TokenCopy (pTo pFrom : Token) : Token :=
  match pFrom.z with
  | Option.none => { pTo with z := Option.none }
  | Option.some s =>
    { z := Option.some ((s.toList.take pFrom.n).asString), n := pFrom.n,
      dyn := true }

mutual
/-- `sqlite3ExprDup` (expr.c:120): allocate a fresh node (`ctr` is the
allocation counter standing for `sqliteMallocRaw`), copy every field
(`memcpy`), materialise an owned copy of the token
(`sqliteStrDup`, `dyn = 1`), null the span, and recursively copy the
children, the list and the subselect. -/
def exprDup (ctr : Nat) : Expr → Expr × Nat
  | .mk _ op token span iDb iTable iColumn dataType iAgg l r lst sel =>
    let tok' : Token := match token.z with
      | Option.none => token
      | Option.some s => { z := Option.some s, n := token.n, dyn := true }
    let span' : Token := { span with z := Option.none }
    let dl := oexprDup (ctr + 1) l
    let dr := oexprDup dl.2 r
    let dlst := olistDup dr.2 lst
    let dsel := oselectDup dlst.2 sel
    (.mk ctr op tok' span' iDb iTable iColumn dataType iAgg dl.1 dr.1
      dlst.1 dsel.1, dsel.2)

def oexprDup (ctr : Nat) : OExpr → OExpr × Nat
  | .none => (.none, ctr)
  | .some e => (.some (exprDup ctr e).1, (exprDup ctr e).2)

def olistDup (ctr : Nat) : OList → OList × Nat
  | .none => (.none, ctr)
  | .some l => (.some (exprListDup ctr l).1, (exprListDup ctr l).2)

/-- `sqlite3ExprListDup` (expr.c:149): copy each item; the span of each
copied top-level expression is always materialised from the original
(expr.c:162–167), the alias name is copied and `done` is cleared. -/
def exprListDup (ctr : Nat) : ExprList → ExprList × Nat
  | .nil => (.nil, ctr)
  | .cons item rest =>
    let ditem := exprItemDup ctr item
    let drest := exprListDup ditem.2 rest
    (.cons ditem.1 drest.1, drest.2)

def exprItemDup (ctr : Nat) : ExprItem → ExprItem × Nat
  | .mk pe zName sortOrder isAgg _ =>
    let dpe := oexprDup ctr pe
    let pe2 : OExpr :=
      match pe, dpe.1 with
      | .some old, .some new =>
        if old.span.z.isSome then
          .some (new.setSpan (sqlite3TokenCopy new.span old.span))
        else .some new
      | _, _ => dpe.1
    (.mk pe2 zName sortOrder isAgg false, dpe.2)

def oselectDup (ctr : Nat) : OSelect → OSelect × Nat
  | .none => (.none, ctr)
  | .some s => (.some (selectDup ctr s).1, (selectDup ctr s).2)

/-- `sqlite3SelectDup` (expr.c:218), restricted to the result list — the
only `Select` component the verified functions consult. -/
def selectDup (ctr : Nat) : Select → Select × Nat
  | .mk el => ((.mk (olistDup ctr el).1), (olistDup ctr el).2)
end



namespace C3

/-- Lower-case a single ASCII character, as the host `sqlite3StrNICmp`
does. -/
def lowerChar (ch : Char) : Char :=
  if ch.toNat ≥ 65 ∧ ch.toNat ≤ 90 then Char.ofNat (ch.toNat + 32) else ch

/-- Case-insensitive equality of the first `n` characters, the model of
`sqlite3StrNICmp(a, b, n) == 0`. -/
def strNICmpEq (a b : String) (n : Nat) : Bool :=
  (a.toList.take n).map lowerChar == (b.toList.take n).map lowerChar

end C3

def ExprItem.pExpr : ExprItem → OExpr
  | .mk pe _ _ _ _ => pe

/-- The subselect test of `sqlite3ExprCompare` (expr.c:1510): a non-null
`pSelect` on either side. -/
def oselectPresent : OSelect → Bool
  | .some _ => true
  | .none => false

/-- The token comparison tail of `sqlite3ExprCompare` (expr.c:1512–1516):
when `pA` has token text, `pB` must have text of the same length whose
first `pB->token.n` bytes match case-insensitively. -/
def exprCompareToken (tokA tokB : Token) : Bool :=
  match tokA.z with
  | Option.none => true
  | Option.some sa =>
    match tokB.z with
    | Option.none => false
    | Option.some sb =>
      if tokB.n ≠ tokA.n then false
      else C3.strNICmpEq sa sb tokB.n

mutual
/-- `sqlite3ExprCompare` (expr.c:1489): deep structural comparison — ops,
children, arg lists, `iTable`/`iColumn`, and token bytes
(length-bounded, case-insensitive); any subselect on either side makes
the trees compare unequal (expr.c:1510). -/
def sqlite3ExprCompare : OExpr → OExpr → Bool
  | .none, .none => true
  | .none, .some _ => false
  | .some _, .none => false
  | .some (.mk _ opA tokA _ _ iTableA iColumnA _ _ lA rA lstA selA),
    .some (.mk _ opB tokB _ _ iTableB iColumnB _ _ lB rB lstB selB) =>
    if opA ≠ opB then false
    else if sqlite3ExprCompare lA lB = false then false
    else if sqlite3ExprCompare rA rB = false then false
    else if olistCompare lstA lstB = false then false
    else if (oselectPresent selA || oselectPresent selB) = true then false
    else if iTableA ≠ iTableB ∨ iColumnA ≠ iColumnB then false
    else exprCompareToken tokA tokB

/-- The null checks around the element loop of `sqlite3ExprCompare`
(expr.c:1499–1509): both lists absent, or both present with equal
lengths and pairwise-equal elements. -/
def olistCompare : OList → OList → Bool
  | .some la, .some lb => exprListCompare la lb
  | .none, .none => true
  | _, _ => false

/-- The element loop of `sqlite3ExprCompare` (expr.c:1502–1506). -/
def exprListCompare : ExprList → ExprList → Bool
  | .nil, .nil => true
  | .cons (.mk peA _ _ _ _) rA, .cons (.mk peB _ _ _ _) rB =>
    sqlite3ExprCompare peA peB && exprListCompare rA rB
  | _, _ => false
end

mutual
/-- Whether any node of the tree carries a subselect. -/
def exprHasSelect : Expr → Bool
  | .mk _ _ _ _ _ _ _ _ _ l r lst sel =>
    oexprHasSelect l || oexprHasSelect r || olistHasSelect lst ||
      (match sel with | OSelect.some _ => true | OSelect.none => false)

def oexprHasSelect : OExpr → Bool
  | .none => false
  | .some e => exprHasSelect e

def olistHasSelect : OList → Bool
  | .none => false
  | .some l => exprListHasSelect l

def exprListHasSelect : ExprList → Bool
  | .nil => false
  | .cons (.mk pe _ _ _ _) rest => oexprHasSelect pe || exprListHasSelect rest
end

theorem strNICmpEq_refl (s : String) (n : Nat) : C3.strNICmpEq s s n = true := by
  simp [C3.strNICmpEq]

theorem exprDup_mk (ctr : Nat) (a : Nat) (op : TK) (token span : Token)
    (iDb iTable iColumn dataType iAgg : Int) (l r : OExpr) (lst : OList)
    (sel : OSelect) :
    exprDup ctr (.mk a op token span iDb iTable iColumn dataType iAgg
        l r lst sel) =
      (.mk ctr op
        (match token.z with
          | Option.none => token
          | Option.some s => { z := Option.some s, n := token.n, dyn := true })
        { span with z := Option.none } iDb iTable iColumn dataType iAgg
        (oexprDup (ctr + 1) l).1
        (oexprDup (oexprDup (ctr + 1) l).2 r).1
        (olistDup (oexprDup (oexprDup (ctr + 1) l).2 r).2 lst).1
        (oselectDup (olistDup (oexprDup (oexprDup (ctr + 1) l).2 r).2
          lst).2 sel).1,
        (oselectDup (olistDup (oexprDup (oexprDup (ctr + 1) l).2 r).2
          lst).2 sel).2) := rfl

theorem oexprDup_none (ctr : Nat) : oexprDup ctr .none = (.none, ctr) := rfl

theorem oexprDup_some (ctr : Nat) (e : Expr) :
    oexprDup ctr (.some e) = (.some (exprDup ctr e).1, (exprDup ctr e).2) :=
  rfl

theorem olistDup_none (ctr : Nat) : olistDup ctr .none = (.none, ctr) := rfl

theorem olistDup_some (ctr : Nat) (l : ExprList) :
    olistDup ctr (.some l) =
      (.some (exprListDup ctr l).1, (exprListDup ctr l).2) := rfl

theorem exprListDup_nil (ctr : Nat) : exprListDup ctr .nil = (.nil, ctr) := rfl

theorem exprListDup_cons (ctr : Nat) (item : ExprItem) (rest : ExprList) :
    exprListDup ctr (.cons item rest) =
      (.cons (exprItemDup ctr item).1
        (exprListDup (exprItemDup ctr item).2 rest).1,
        (exprListDup (exprItemDup ctr item).2 rest).2) := rfl

theorem exprItemDup_mk (ctr : Nat) (pe : OExpr) (z : Option String)
    (so : Int) (ia d : Bool) :
    exprItemDup ctr (.mk pe z so ia d) =
      (.mk (match pe, (oexprDup ctr pe).1 with
        | .some old, .some new =>
          if old.span.z.isSome then
            .some (new.setSpan (sqlite3TokenCopy new.span old.span))
          else .some new
        | _, _ => (oexprDup ctr pe).1) z so ia false,
        (oexprDup ctr pe).2) := rfl

theorem oselectDup_none (ctr : Nat) : oselectDup ctr .none = (.none, ctr) :=
  rfl

theorem exprItemDup_none_pExpr (ctr : Nat) (z : Option String) (so : Int)
    (ia d : Bool) :
    (exprItemDup ctr (.mk .none z so ia d)).1.pExpr = OExpr.none := rfl

theorem exprItemDup_some_pExpr (ctr : Nat) (old : Expr) (z : Option String)
    (so : Int) (ia d : Bool) :
    (exprItemDup ctr (.mk (.some old) z so ia d)).1.pExpr =
      (if old.span.z.isSome then
        OExpr.some ((exprDup ctr old).1.setSpan
          (sqlite3TokenCopy (exprDup ctr old).1.span old.span))
      else OExpr.some (exprDup ctr old).1) := by
  show (ExprItem.mk (match OExpr.some old,
      (oexprDup ctr (OExpr.some old)).1 with
    | OExpr.some o, OExpr.some n =>
      if o.span.z.isSome then
        OExpr.some (n.setSpan (sqlite3TokenCopy n.span o.span))
      else OExpr.some n
    | _, _ => (oexprDup ctr (OExpr.some old)).1) z so ia false).pExpr = _
  simp only [oexprDup_some, ExprItem.pExpr]

theorem sqlite3ExprCompare_none_none :
    sqlite3ExprCompare .none .none = true := rfl

theorem sqlite3ExprCompare_some_some (eA eB : Expr) :
    sqlite3ExprCompare (.some eA) (.some eB) =
      (if eA.op ≠ eB.op then false
      else if sqlite3ExprCompare eA.pLeft eB.pLeft = false then false
      else if sqlite3ExprCompare eA.pRight eB.pRight = false then false
      else if olistCompare eA.pList eB.pList = false then false
      else if (oselectPresent eA.pSelect || oselectPresent eB.pSelect) = true
        then false
      else if eA.iTable ≠ eB.iTable ∨ eA.iColumn ≠ eB.iColumn then false
      else exprCompareToken eA.token eB.token) := by
  cases eA
  cases eB
  rfl

theorem exprListCompare_cons (iA : ExprItem) (rA : ExprList) (iB : ExprItem)
    (rB : ExprList) :
    exprListCompare (.cons iA rA) (.cons iB rB) =
      (sqlite3ExprCompare iA.pExpr iB.pExpr && exprListCompare rA rB) := by
  cases iA
  cases iB
  rfl

theorem sqlite3ExprCompare_setSpan (old new : Expr) (t : Token) :
    sqlite3ExprCompare (.some old) (.some (new.setSpan t)) =
      sqlite3ExprCompare (.some old) (.some new) := by
  cases old
  cases new
  rfl

theorem exprCompareToken_dup (token : Token) :
    exprCompareToken token
      (match token.z with
        | Option.none => token
        | Option.some s =>
          { z := Option.some s, n := token.n, dyn := true }) = true := by
  cases htok : token.z with
  | none => simp [exprCompareToken, htok]
  | some s => simp [exprCompareToken, htok, strNICmpEq_refl]

mutual
/-- Round trip: a deep copy of a subselect-free tree compares equal to
the original. -/
theorem exprDup_compare : ∀ (e : Expr) (ctr : Nat),
    exprHasSelect e = false →
    sqlite3ExprCompare (.some e) (.some (exprDup ctr e).1) = true
  | .mk a op token span iDb iTable iColumn dataType iAgg l r lst sel,
    ctr, hsel => by
    simp only [exprHasSelect, Bool.or_eq_false_iff] at hsel
    obtain ⟨⟨⟨hl, hr⟩, hlst⟩, hselnone⟩ := hsel
    have hsel' : sel = OSelect.none := by
      cases sel with
      | none => rfl
      | some s => simp [oselectPresent] at hselnone
    subst hsel'
    have ihl := oexprDup_compare l (ctr + 1) hl
    have ihr := oexprDup_compare r (oexprDup (ctr + 1) l).2 hr
    have ihlst : olistCompare lst
        (olistDup (oexprDup (oexprDup (ctr + 1) l).2 r).2 lst).1 = true := by
      cases lst with
      | none => rw [olistDup_none]; rfl
      | some la =>
          rw [olistDup_some, olistCompare]
          exact exprListDup_compare la _ hlst
    rw [exprDup_mk, sqlite3ExprCompare_some_some]
    simp only [Expr.op, Expr.pLeft, Expr.pRight, Expr.pList, Expr.pSelect,
      Expr.iTable, Expr.iColumn, Expr.token]
    rw [ihl, ihr, ihlst]
    simp [oselectDup_none, oselectPresent, exprCompareToken_dup]

theorem oexprDup_compare : ∀ (oe : OExpr) (ctr : Nat),
    oexprHasSelect oe = false →
    sqlite3ExprCompare oe (oexprDup ctr oe).1 = true
  | .none, _, _ => by rw [oexprDup_none]; rfl
  | .some e, ctr, h => by
    simp only [oexprHasSelect] at h
    rw [oexprDup_some]
    exact exprDup_compare e ctr h

theorem exprListDup_compare : ∀ (l : ExprList) (ctr : Nat),
    exprListHasSelect l = false →
    exprListCompare l (exprListDup ctr l).1 = true
  | .nil, _, _ => by rw [exprListDup_nil]; rfl
  | .cons item rest, ctr, h => by
    have hi' : oexprHasSelect item.pExpr = false ∧
        exprListHasSelect rest = false := by
      cases item with
      | mk pe z so ia d =>
          simp only [exprListHasSelect, Bool.or_eq_false_iff,
            ExprItem.pExpr] at h ⊢
          exact h
    rw [exprListDup_cons, exprListCompare_cons]
    rw [exprItemDup_compare item ctr hi'.1,
      exprListDup_compare rest _ hi'.2]
    rfl

theorem exprItemDup_compare : ∀ (item : ExprItem) (ctr : Nat),
    oexprHasSelect item.pExpr = false →
    sqlite3ExprCompare item.pExpr (exprItemDup ctr item).1.pExpr = true
  | .mk pe z so ia d, ctr, h => by
    simp only [ExprItem.pExpr] at h
    cases pe with
    | none =>
        rw [exprItemDup_none_pExpr]
        rfl
    | some old =>
        have hdup := oexprDup_compare (OExpr.some old) ctr h
        rw [oexprDup_some] at hdup
        rw [exprItemDup_some_pExpr]
        by_cases hsp : old.span.z.isSome
        · rw [if_pos hsp]
          show sqlite3ExprCompare (OExpr.some old)
            (OExpr.some ((exprDup ctr old).1.setSpan
              (sqlite3TokenCopy (exprDup ctr old).1.span old.span))) = true
          rw [sqlite3ExprCompare_setSpan]
          exact hdup
        · rw [if_neg hsp]
          exact hdup
end


mutual
/-- `sqlite3ExprDelete` (expr.c:96): recursively release children, list
entries and subselect, then the node itself.  In the model the deletion
is represented by the list of node addresses freed (owned token buffers
are per-node and released with their node). -/
def sqlite3ExprDelete : OExpr → List Nat
  | .none => []
  | .some (.mk a _ _ _ _ _ _ _ _ l r lst sel) =>
    sqlite3ExprDelete l ++ sqlite3ExprDelete r ++ exprListDelete lst ++
      selectDelete sel ++ [a]

def exprListDelete : OList → List Nat
  | .none => []
  | .some l => exprListItemsDelete l

def exprListItemsDelete : ExprList → List Nat
  | .nil => []
  | .cons (.mk pe _ _ _ _) rest =>
    sqlite3ExprDelete pe ++ exprListItemsDelete rest

def selectDelete : OSelect → List Nat
  | .none => []
  | .some (.mk el) => exprListDelete el
end

theorem sqlite3ExprDelete_setSpan (e : Expr) (t : Token) :
    sqlite3ExprDelete (.some (e.setSpan t)) = sqlite3ExprDelete (.some e) := by
  cases e
  rfl

mutual
/-- The allocation counter never decreases along a deep copy. -/
theorem exprDup_mono : ∀ (e : Expr) (ctr : Nat), ctr ≤ (exprDup ctr e).2
  | .mk _ _ _ _ _ _ _ _ _ l r lst sel, ctr => by
    rw [exprDup_mk]
    have h1 := oexprDup_mono l (ctr + 1)
    have h2 := oexprDup_mono r (oexprDup (ctr + 1) l).2
    have h3 := olistDup_mono lst (oexprDup (oexprDup (ctr + 1) l).2 r).2
    have h4 := oselectDup_mono sel
      (olistDup (oexprDup (oexprDup (ctr + 1) l).2 r).2 lst).2
    omega

theorem oexprDup_mono : ∀ (oe : OExpr) (ctr : Nat), ctr ≤ (oexprDup ctr oe).2
  | .none, ctr => by rw [oexprDup_none]
  | .some e, ctr => by
    rw [oexprDup_some]
    exact exprDup_mono e ctr

theorem olistDup_mono : ∀ (ol : OList) (ctr : Nat), ctr ≤ (olistDup ctr ol).2
  | .none, ctr => by rw [olistDup_none]
  | .some l, ctr => by
    rw [olistDup_some]
    exact exprListDup_mono l ctr

theorem exprListDup_mono :
    ∀ (l : ExprList) (ctr : Nat), ctr ≤ (exprListDup ctr l).2
  | .nil, ctr => by rw [exprListDup_nil]
  | .cons item rest, ctr => by
    rw [exprListDup_cons]
    have h1 := exprItemDup_mono item ctr
    have h2 := exprListDup_mono rest (exprItemDup ctr item).2
    omega

theorem exprItemDup_mono :
    ∀ (item : ExprItem) (ctr : Nat), ctr ≤ (exprItemDup ctr item).2
  | .mk pe _ _ _ _, ctr => by
    rw [exprItemDup_mk]
    exact oexprDup_mono pe ctr

theorem oselectDup_mono :
    ∀ (os : OSelect) (ctr : Nat), ctr ≤ (oselectDup ctr os).2
  | .none, ctr => by rw [oselectDup_none]
  | .some s, ctr => by
    show ctr ≤ (selectDup ctr s).2
    exact selectDup_mono s ctr

theorem selectDup_mono : ∀ (s : Select) (ctr : Nat), ctr ≤ (selectDup ctr s).2
  | .mk el, ctr => by
    show ctr ≤ (olistDup ctr el).2
    exact olistDup_mono el ctr
end

mutual
/-- Every node of a deep copy is a fresh allocation: its address lies in
the interval `[ctr, ctr')` where `ctr'` is the final counter. -/
theorem exprDup_fresh : ∀ (e : Expr) (ctr : Nat),
    ∀ x ∈ sqlite3ExprDelete (.some (exprDup ctr e).1),
      ctr ≤ x ∧ x < (exprDup ctr e).2
  | .mk a op token span iDb iTable iColumn dataType iAgg l r lst sel,
    ctr => by
    rw [exprDup_mk]
    intro x hx
    rw [sqlite3ExprDelete] at hx
    simp only [List.mem_append, List.mem_singleton] at hx
    have m1 := oexprDup_mono l (ctr + 1)
    have m2 := oexprDup_mono r (oexprDup (ctr + 1) l).2
    have m3 := olistDup_mono lst (oexprDup (oexprDup (ctr + 1) l).2 r).2
    have m4 := oselectDup_mono sel
      (olistDup (oexprDup (oexprDup (ctr + 1) l).2 r).2 lst).2
    rcases hx with ⟨⟨⟨hx | hx⟩ | hx⟩ | hx⟩ | hx
    · have := oexprDup_fresh l (ctr + 1) x hx
      omega
    · have := oexprDup_fresh r (oexprDup (ctr + 1) l).2 x hx
      omega
    · have := olistDup_fresh lst (oexprDup (oexprDup (ctr + 1) l).2 r).2 x hx
      omega
    · have := oselectDup_fresh sel
        (olistDup (oexprDup (oexprDup (ctr + 1) l).2 r).2 lst).2 x hx
      omega
    · omega

theorem oexprDup_fresh : ∀ (oe : OExpr) (ctr : Nat),
    ∀ x ∈ sqlite3ExprDelete (oexprDup ctr oe).1,
      ctr ≤ x ∧ x < (oexprDup ctr oe).2
  | .none, ctr => by
    rw [oexprDup_none]
    intro x hx
    rw [sqlite3ExprDelete] at hx
    simp at hx
  | .some e, ctr => by
    rw [oexprDup_some]
    exact exprDup_fresh e ctr

theorem olistDup_fresh : ∀ (ol : OList) (ctr : Nat),
    ∀ x ∈ exprListDelete (olistDup ctr ol).1,
      ctr ≤ x ∧ x < (olistDup ctr ol).2
  | .none, ctr => by
    rw [olistDup_none]
    intro x hx
    rw [exprListDelete] at hx
    simp at hx
  | .some l, ctr => by
    rw [olistDup_some]
    show ∀ x ∈ exprListDelete (OList.some (exprListDup ctr l).1), _
    rw [exprListDelete]
    exact exprListDup_fresh l ctr

theorem exprListDup_fresh : ∀ (l : ExprList) (ctr : Nat),
    ∀ x ∈ exprListItemsDelete (exprListDup ctr l).1,
      ctr ≤ x ∧ x < (exprListDup ctr l).2
  | .nil, ctr => by
    rw [exprListDup_nil]
    intro x hx
    rw [exprListItemsDelete] at hx
    simp at hx
  | .cons item rest, ctr => by
    rw [exprListDup_cons]
    intro x hx
    have hitem : exprListItemsDelete
        (ExprList.cons (exprItemDup ctr item).1
          (exprListDup (exprItemDup ctr item).2 rest).1) =
        sqlite3ExprDelete (exprItemDup ctr item).1.pExpr ++
          exprListItemsDelete (exprListDup (exprItemDup ctr item).2 rest).1
        := by
      cases hdi : (exprItemDup ctr item).1 with
      | mk pe2 z2 so2 ia2 d2 =>
          rw [exprListItemsDelete, ExprItem.pExpr]
    rw [hitem] at hx
    simp only [List.mem_append] at hx
    have m1 := exprItemDup_mono item ctr
    have m2 := exprListDup_mono rest (exprItemDup ctr item).2
    rcases hx with hx | hx
    · have := exprItemDup_fresh item ctr x hx
      omega
    · have := exprListDup_fresh rest (exprItemDup ctr item).2 x hx
      omega

theorem exprItemDup_fresh : ∀ (item : ExprItem) (ctr : Nat),
    ∀ x ∈ sqlite3ExprDelete (exprItemDup ctr item).1.pExpr,
      ctr ≤ x ∧ x < (exprItemDup ctr item).2
  | .mk pe z so ia d, ctr => by
    intro x hx
    have hc : (exprItemDup ctr (ExprItem.mk pe z so ia d)).2 =
        (oexprDup ctr pe).2 := by
      rw [exprItemDup_mk]
    rw [hc]
    cases pe with
    | none =>
        rw [exprItemDup_none_pExpr] at hx
        rw [sqlite3ExprDelete] at hx
        simp at hx
    | some old =>
        rw [exprItemDup_some_pExpr] at hx
        by_cases hsp : old.span.z.isSome
        · rw [if_pos hsp, sqlite3ExprDelete_setSpan] at hx
          have := oexprDup_fresh (OExpr.some old) ctr x
            (by rw [oexprDup_some]; exact hx)
          exact this
        · rw [if_neg hsp] at hx
          have := oexprDup_fresh (OExpr.some old) ctr x
            (by rw [oexprDup_some]; exact hx)
          exact this

theorem oselectDup_fresh : ∀ (os : OSelect) (ctr : Nat),
    ∀ x ∈ selectDelete (oselectDup ctr os).1,
      ctr ≤ x ∧ x < (oselectDup ctr os).2
  | .none, ctr => by
    rw [oselectDup_none]
    intro x hx
    rw [selectDelete] at hx
    simp at hx
  | .some s, ctr => by
    show ∀ x ∈ selectDelete (OSelect.some (selectDup ctr s).1), _
    exact selectDup_fresh s ctr

theorem selectDup_fresh : ∀ (s : Select) (ctr : Nat),
    ∀ x ∈ selectDelete (OSelect.some (selectDup ctr s).1),
      ctr ≤ x ∧ x < (selectDup ctr s).2
  | .mk el, ctr => by
    show ∀ x ∈ selectDelete (OSelect.some (Select.mk (olistDup ctr el).1)), _
    rw [selectDelete]
    exact olistDup_fresh el ctr
end


/-- **C3 (counterexample).** The claim states that for every well-formed
tree `T`, `compare(T, deep-copy(T))` is true.  For a tree containing a
subselect (here a bare scalar-subquery node) this fails:
`sqlite3ExprCompare` returns unequal whenever either side carries a
non-null `pSelect` (expr.c:1510), including a tree compared with its own
deep copy. -/
theorem exprDup_roundtrip_counterexample :
    (let eSel : Expr := .mk 0 TK.SELECT ⟨Option.none, 0, false⟩
        ⟨Option.none, 0, false⟩ 0 0 0 0 0 .none .none .none
        (.some (.mk .none))
     exprHasSelect eSel = true ∧
       sqlite3ExprCompare (.some eSel) (.some (exprDup 1 eSel).1) = false) :=
  ⟨by decide, by decide⟩

/-- **C3 (amended).** For every well-formed expression tree `T` that
contains no subselect, deep-copying yields `T'` with `compare(T, T')`
true; and every node of `T'` is a fresh allocation (all its addresses
are at or above the allocation counter, while `T`'s are below it), so
deleting either of `T` or `T'` frees no cell of the other, leaving the
other tree intact and usable.  Trees containing a subselect always
compare unequal, even to their own copy. -/
theorem exprDup_roundtrip_amended (e : Expr) (ctr : Nat)
    (hsel : exprHasSelect e = false)
    (hbound : ∀ x ∈ sqlite3ExprDelete (.some e), x < ctr) :
    sqlite3ExprCompare (.some e) (.some (exprDup ctr e).1) = true ∧
    ∀ x ∈ sqlite3ExprDelete (.some (exprDup ctr e).1),
      x ∉ sqlite3ExprDelete (.some e) := by
  refine ⟨exprDup_compare e ctr hsel, ?_⟩
  intro x hx hmem
  have h1 := exprDup_fresh e ctr x hx
  have h2 := hbound x hmem
  omega

/-- Witness for the amended C3 theorem at a concrete tree
(`x + 1`, with its two leaves). -/
theorem exprDup_roundtrip_witness :
    (let leafL : Expr := .mk 1 TK.ID ⟨Option.some "x", 1, false⟩
        ⟨Option.some "x", 1, false⟩ 0 0 0 0 0 .none .none .none .none
     let leafR : Expr := .mk 2 TK.INTEGER ⟨Option.some "1", 1, false⟩
        ⟨Option.some "1", 1, false⟩ 0 0 0 0 0 .none .none .none .none
     let eW : Expr := .mk 0 TK.PLUS ⟨Option.none, 0, false⟩
        ⟨Option.some "x+1", 3, false⟩ 0 0 0 0 0 (.some leafL) (.some leafR)
        .none .none
     sqlite3ExprCompare (.some eW) (.some (exprDup 3 eW).1) = true ∧
       ∀ x ∈ sqlite3ExprDelete (.some (exprDup 3 eW).1),
         x ∉ sqlite3ExprDelete (.some eW)) :=
  exprDup_roundtrip_amended _ 3 (by decide) (by decide)


/-! ### `sqlite3ExprIsInteger` (expr.c lines 334–368)

`sqlite3FitsIn32Bits` and `atoi` live in `util.c`, outside the snapshot;
they are modelled from the spec ("`is-integer(expr, &value)` → bool with
bounded-to-32-bits check"): both read the leading optionally-signed
decimal number of the token text, and the bound check compares its
magnitude against the signed 32-bit maximum. -/

/-- `isdigit` for ASCII. -/
def isDigitChar (ch : Char) : Bool := decide (48 ≤ ch.toNat ∧ ch.toNat ≤ 57)

/-- The leading digit run of a character sequence. -/
def digitsPrefix (cs : List Char) : List Char := cs.takeWhile isDigitChar

/-- Decimal value of a digit sequence. -/
def digitsVal (cs : List Char) : Nat :=
  cs.foldl (fun acc ch => acc * 10 + (ch.toNat - 48)) 0

/-- Strip one leading sign character; the flag is true for a minus. -/
def stripSign : List Char → Bool × List Char
  | '-' :: rest => (true, rest)
  | '+' :: rest => (false, rest)
  | cs => (false, cs)

/-- Modelled from the spec: `atoi` — the value of the leading
optionally-signed decimal number of the text. -/
def atoiModel (s : String) : Int :=
  let sc := stripSign s.toList
  let v := Int.ofNat (digitsVal (digitsPrefix sc.2))
  if sc.1 then -v else v

/-- Modelled from the spec: `sqlite3FitsIn32Bits` (util.c, not in
snapshot) — the magnitude of the leading decimal number, sign ignored,
is bounded by the signed 32-bit maximum `2147483647`. -/
def sqlite3FitsIn32Bits (s : String) : Bool :=
  decide (digitsVal (digitsPrefix (stripSign s.toList).2) ≤ 2147483647)

/-- The `TK_STRING` digit scan of `sqlite3ExprIsInteger`
(expr.c:346–347): `while (n > 0 && *z && isdigit(*z)) { z++; n--; }`,
returning the remaining count `n` (the scan also stops at the end of the
text). -/
def digitScan : List Char → Nat → Nat
  | _, 0 => 0
  | [], n => n
  | ch :: rest, n + 1 => if isDigitChar ch then digitScan rest n else n + 1

/-- `sqlite3ExprIsInteger` (expr.c:334): return `(value-cell, flag)`.
On success the value cell receives the integer; on failure it is left
unchanged.  `TK_INTEGER` accepts a token that fits in 32 bits;
`TK_STRING` additionally requires the first `token.n` characters to be
an optional minus followed by digits; `TK_UPLUS` passes through;
`TK_UMINUS` negates (its local `v` starts from an arbitrary value,
modelled as 0, and is only used on success).  The source dereferences
`p->pLeft` unconditionally under `TK_UPLUS`/`TK_UMINUS`; a missing
operand (never produced by the parser) yields failure in the model. -/
def sqlite3ExprIsInteger : Expr → Int → Int × Bool
  | .mk _ op token _ _ _ _ _ _ l _ _ _, pValue =>
    match op with
    | TK.INTEGER =>
      let z := token.z.getD ""
      if sqlite3FitsIn32Bits z then (atoiModel z, true) else (pValue, false)
    | TK.STRING =>
      let z := token.z.getD ""
      let cs := z.toList
      let sc : List Char × Nat :=
        if token.n > 0 ∧ cs.head? = Option.some '-' then (cs.tail, token.n - 1)
        else (cs, token.n)
      if digitScan sc.1 sc.2 = 0 ∧ sqlite3FitsIn32Bits z then
        (atoiModel z, true)
      else (pValue, false)
    | TK.UPLUS =>
      match l with
      | .some le => sqlite3ExprIsInteger le pValue
      | .none => (pValue, false)
    | TK.UMINUS =>
      match l with
      | .some le =>
        let r := sqlite3ExprIsInteger le 0
        if r.2 then (-r.1, true) else (pValue, false)
      | .none => (pValue, false)
    | _ => (pValue, false)

/-- `digitScan` runs `n` down to zero exactly when the text still has at
least `n` leading digit characters (the scan stops early at a non-digit
or at the end of the text, leaving a nonzero remainder). -/
theorem digitScan_eq_zero_iff :
    ∀ (cs : List Char) (n : Nat),
      digitScan cs n = 0 ↔ n ≤ (cs.takeWhile isDigitChar).length := by
  intro cs
  induction cs with
  | nil =>
      intro n
      cases n with
      | zero => simp [digitScan]
      | succ n => simp [digitScan]
  | cons ch rest ih =>
      intro n
      cases n with
      | zero => simp [digitScan]
      | succ n =>
          rw [digitScan]
          by_cases hd : isDigitChar ch
          · rw [if_pos hd, List.takeWhile_cons, if_pos hd]
            simp [ih n]
          · rw [if_neg hd, List.takeWhile_cons, if_neg hd]
            simp
/-- The first `t.n` characters of the token text form an optional minus
sign followed only by decimal digits (and do not run past the end of the
text): the exact acceptance condition of the `TK_STRING` scan of
`sqlite3ExprIsInteger` (expr.c:344–348). -/
def minusDigitsShape (t : Token) : Prop :=
  let cs := (t.z.getD "").toList
  if t.n > 0 ∧ cs.head? = Option.some '-' then
    t.n - 1 ≤ (cs.tail.takeWhile isDigitChar).length
  else t.n ≤ (cs.takeWhile isDigitChar).length

/-- `minusDigitsShape` restated through `digitScan`. -/
theorem minusDigitsShape_iff (t : Token) :
    minusDigitsShape t ↔
      digitScan
        (if t.n > 0 ∧ (t.z.getD "").toList.head? = Option.some '-' then
          ((t.z.getD "").toList.tail, t.n - 1)
        else ((t.z.getD "").toList, t.n)).1
        (if t.n > 0 ∧ (t.z.getD "").toList.head? = Option.some '-' then
          ((t.z.getD "").toList.tail, t.n - 1)
        else ((t.z.getD "").toList, t.n)).2 = 0 := by
  rw [minusDigitsShape]
  by_cases h : t.n > 0 ∧ (t.z.getD "").toList.head? = Option.some '-'
  · rw [if_pos h, if_pos h, digitScan_eq_zero_iff]
  · rw [if_neg h, if_neg h, digitScan_eq_zero_iff]

/-- The exact shapes for which the is-integer check succeeds: a chain of
unary plus/minus over a `TK_INTEGER` token passing the 32-bit fit check,
or over a `TK_STRING` token whose first `token.n` characters are an
optional minus followed by digits and which passes the fit check. -/
inductive IntTokenShaped : Expr → Prop where
  | integer (e : Expr) : e.op = TK.INTEGER →
      sqlite3FitsIn32Bits (e.token.z.getD "") = true → IntTokenShaped e
  | str (e : Expr) : e.op = TK.STRING → minusDigitsShape e.token →
      sqlite3FitsIn32Bits (e.token.z.getD "") = true → IntTokenShaped e
  | uplus (e e' : Expr) : e.op = TK.UPLUS → e.pLeft = OExpr.some e' →
      IntTokenShaped e' → IntTokenShaped e
  | uminus (e e' : Expr) : e.op = TK.UMINUS → e.pLeft = OExpr.some e' →
      IntTokenShaped e' → IntTokenShaped e

/-- The claim's notion: an integer literal, possibly through unary
plus/minus — no string literals. -/
inductive IntegerLiteralView : Expr → Prop where
  | integer (e : Expr) : e.op = TK.INTEGER → IntegerLiteralView e
  | uplus (e e' : Expr) : e.op = TK.UPLUS → e.pLeft = OExpr.some e' →
      IntegerLiteralView e' → IntegerLiteralView e
  | uminus (e e' : Expr) : e.op = TK.UMINUS → e.pLeft = OExpr.some e' →
      IntegerLiteralView e' → IntegerLiteralView e

theorem atoiModel_natAbs_le (z : String)
    (h : sqlite3FitsIn32Bits z = true) :
    (atoiModel z).natAbs ≤ 2147483647 := by
  rw [sqlite3FitsIn32Bits, decide_eq_true_eq] at h
  rw [atoiModel]
  by_cases hneg : (stripSign z.toList).1
  · simp only [hneg, if_true, Int.natAbs_neg]
    simpa using h
  · simp only [hneg, Bool.false_eq_true, if_false]
    simpa using h

theorem exprIsInteger_INTEGER (a : Nat) (token span : Token)
    (iDb iTable iColumn dataType iAgg : Int) (l r : OExpr) (lst : OList)
    (sel : OSelect) (v0 : Int) :
    sqlite3ExprIsInteger (.mk a TK.INTEGER token span iDb iTable iColumn
        dataType iAgg l r lst sel) v0 =
      (if sqlite3FitsIn32Bits (token.z.getD "") then
        (atoiModel (token.z.getD ""), true)
      else (v0, false)) := rfl

theorem exprIsInteger_STRING (a : Nat) (token span : Token)
    (iDb iTable iColumn dataType iAgg : Int) (l r : OExpr) (lst : OList)
    (sel : OSelect) (v0 : Int) :
    sqlite3ExprIsInteger (.mk a TK.STRING token span iDb iTable iColumn
        dataType iAgg l r lst sel) v0 =
      (let z := token.z.getD ""
       let cs := z.toList
       let sc : List Char × Nat :=
         if token.n > 0 ∧ cs.head? = Option.some '-' then
          (cs.tail, token.n - 1)
         else (cs, token.n)
       if digitScan sc.1 sc.2 = 0 ∧ sqlite3FitsIn32Bits z then
         (atoiModel z, true)
       else (v0, false)) := rfl

theorem exprIsInteger_UPLUS (a : Nat) (token span : Token)
    (iDb iTable iColumn dataType iAgg : Int) (le : Expr) (r : OExpr)
    (lst : OList) (sel : OSelect) (v0 : Int) :
    sqlite3ExprIsInteger (.mk a TK.UPLUS token span iDb iTable iColumn
        dataType iAgg (.some le) r lst sel) v0 =
      sqlite3ExprIsInteger le v0 := rfl

theorem exprIsInteger_UMINUS (a : Nat) (token span : Token)
    (iDb iTable iColumn dataType iAgg : Int) (le : Expr) (r : OExpr)
    (lst : OList) (sel : OSelect) (v0 : Int) :
    sqlite3ExprIsInteger (.mk a TK.UMINUS token span iDb iTable iColumn
        dataType iAgg (.some le) r lst sel) v0 =
      (if (sqlite3ExprIsInteger le 0).2 then
        (-(sqlite3ExprIsInteger le 0).1, true)
      else (v0, false)) := rfl

/-- **C10 (amended).** The is-integer check returns true exactly for a
chain of unary plus/minus over a `TK_INTEGER` token passing the 32-bit
fit check or over a `TK_STRING` token whose first `token.n` characters
are an optional minus followed by digits and which passes the fit check
(`IntTokenShaped`); on success the returned value is bounded to the
signed 32-bit range; and whenever it returns false, the caller's output
integer location is left unchanged. -/
theorem exprIsInteger_amended : ∀ (e : Expr) (v0 : Int),
    ((sqlite3ExprIsInteger e v0).2 = true ↔ IntTokenShaped e) ∧
    ((sqlite3ExprIsInteger e v0).2 = true →
      (sqlite3ExprIsInteger e v0).1.natAbs ≤ 2147483647) ∧
    ((sqlite3ExprIsInteger e v0).2 = false →
      (sqlite3ExprIsInteger e v0).1 = v0)
  | .mk a op token span iDb iTable iColumn dataType iAgg l r lst sel, v0 => by
    cases op
    case INTEGER =>
      rw [exprIsInteger_INTEGER]
      by_cases hfit : sqlite3FitsIn32Bits (token.z.getD "") = true
      · rw [if_pos hfit]
        exact ⟨⟨fun _ => .integer _ rfl hfit, fun _ => rfl⟩,
          fun _ => atoiModel_natAbs_le _ hfit, fun hnok => (nomatch hnok)⟩
      · rw [if_neg hfit]
        refine ⟨⟨fun hok => (nomatch hok), fun hsh => ?_⟩,
          fun hok => (nomatch hok), fun _ => rfl⟩
        cases hsh with
        | integer _ _ hf => exact absurd hf hfit
        | str _ hop _ _ => exact (nomatch hop)
        | uplus _ _ hop _ _ => exact (nomatch hop)
        | uminus _ _ hop _ _ => exact (nomatch hop)
    case STRING =>
      rw [exprIsInteger_STRING]
      simp only []
      by_cases hscan : (digitScan
          (if token.n > 0 ∧ (token.z.getD "").toList.head? = Option.some '-'
            then ((token.z.getD "").toList.tail, token.n - 1)
            else ((token.z.getD "").toList, token.n)).1
          (if token.n > 0 ∧ (token.z.getD "").toList.head? = Option.some '-'
            then ((token.z.getD "").toList.tail, token.n - 1)
            else ((token.z.getD "").toList, token.n)).2 = 0
          ∧ sqlite3FitsIn32Bits (token.z.getD "") = true)
      · rw [if_pos hscan]
        exact ⟨⟨fun _ => .str _ rfl ((minusDigitsShape_iff token).mpr hscan.1)
            hscan.2, fun _ => rfl⟩,
          fun _ => atoiModel_natAbs_le _ hscan.2, fun hnok => (nomatch hnok)⟩
      · rw [if_neg hscan]
        refine ⟨⟨fun hok => (nomatch hok), fun hsh => ?_⟩,
          fun hok => (nomatch hok), fun _ => rfl⟩
        cases hsh with
        | integer _ hop _ => exact (nomatch hop)
        | str _ _ hms hf =>
            exact absurd ⟨(minusDigitsShape_iff token).mp hms, hf⟩ hscan
        | uplus _ _ hop _ _ => exact (nomatch hop)
        | uminus _ _ hop _ _ => exact (nomatch hop)
    case UPLUS =>
      cases l with
      | none =>
          refine ⟨⟨fun hok => (nomatch hok), fun hsh => ?_⟩,
            fun hok => (nomatch hok), fun _ => rfl⟩
          cases hsh with
          | integer _ hop _ => exact (nomatch hop)
          | str _ hop _ _ => exact (nomatch hop)
          | uplus _ _ _ hl _ => exact (nomatch hl)
          | uminus _ _ hop _ _ => exact (nomatch hop)
      | some le =>
          rw [exprIsInteger_UPLUS]
          have ih := exprIsInteger_amended le v0
          refine ⟨⟨fun hok => .uplus _ le rfl rfl (ih.1.mp hok),
            fun hsh => ?_⟩, ih.2.1, ih.2.2⟩
          cases hsh with
          | integer _ hop _ => exact (nomatch hop)
          | str _ hop _ _ => exact (nomatch hop)
          | uplus _ e' _ hl hsh' =>
              have hle : le = e' := by
                have := hl
                simp only [Expr.pLeft] at this
                exact (OExpr.some.injEq _ _).mp this
              exact ih.1.mpr (hle ▸ hsh')
          | uminus _ _ hop _ _ => exact (nomatch hop)
    case UMINUS =>
      cases l with
      | none =>
          refine ⟨⟨fun hok => (nomatch hok), fun hsh => ?_⟩,
            fun hok => (nomatch hok), fun _ => rfl⟩
          cases hsh with
          | integer _ hop _ => exact (nomatch hop)
          | str _ hop _ _ => exact (nomatch hop)
          | uplus _ _ hop _ _ => exact (nomatch hop)
          | uminus _ _ _ hl _ => exact (nomatch hl)
      | some le =>
          rw [exprIsInteger_UMINUS]
          have ih := exprIsInteger_amended le 0
          by_cases hs : (sqlite3ExprIsInteger le 0).2 = true
          · rw [if_pos hs]
            refine ⟨⟨fun _ => .uminus _ le rfl rfl (ih.1.mp hs),
              fun _ => rfl⟩,
              fun _ => ?_, fun hnok => (nomatch hnok)⟩
            simp only [Int.natAbs_neg]
            exact ih.2.1 hs
          · rw [if_neg hs]
            refine ⟨⟨fun hok => (nomatch hok), fun hsh => ?_⟩,
              fun hok => (nomatch hok), fun _ => rfl⟩
            cases hsh with
            | integer _ hop _ => exact (nomatch hop)
            | str _ hop _ _ => exact (nomatch hop)
            | uplus _ _ hop _ _ => exact (nomatch hop)
            | uminus _ e' _ hl hsh' =>
                have hle : le = e' := by
                  have := hl
                  simp only [Expr.pLeft] at this
                  exact (OExpr.some.injEq _ _).mp this
                exact absurd (ih.1.mpr (hle ▸ hsh')) hs
    all_goals (
      refine ⟨⟨fun hok => (nomatch hok), fun hsh => ?_⟩,
        fun hok => (nomatch hok), fun _ => rfl⟩
      cases hsh with
      | integer _ hop _ => exact (nomatch hop)
      | str _ hop _ _ => exact (nomatch hop)
      | uplus _ _ hop _ _ => exact (nomatch hop)
      | uminus _ _ hop _ _ => exact (nomatch hop))


/-- **C10 (counterexample).** The claim states the is-integer check
returns true only when the expression denotes an integer literal
(possibly through unary plus/minus).  A string literal whose text is a
digit string also succeeds: for the `TK_STRING` node `'5'` the check
returns true with value 5, although the node is not an integer literal
under any unary wrappers. -/
theorem exprIsInteger_counterexample :
    (let eStr5 : Expr := .mk 0 TK.STRING ⟨Option.some "5", 1, false⟩
        ⟨Option.none, 0, false⟩ 0 0 0 0 0 .none .none .none .none
     (sqlite3ExprIsInteger eStr5 0).2 = true ∧
       (sqlite3ExprIsInteger eStr5 0).1 = 5 ∧
       eStr5.op = TK.STRING ∧ ¬ IntegerLiteralView eStr5) := by
  refine ⟨by decide, by decide, by decide, ?_⟩
  intro h
  cases h with
  | integer _ hop => exact absurd hop (by decide)
  | uplus _ _ hop _ _ => exact absurd hop (by decide)
  | uminus _ _ hop _ _ => exact absurd hop (by decide)

/-- Witness for the amended C10 theorem: the integer literal 7 succeeds
(and is `IntTokenShaped`) with a bounded value, and a `TK_PLUS` node
fails leaving the output location unchanged. -/
theorem exprIsInteger_amended_witness :
    (let eInt7 : Expr := .mk 0 TK.INTEGER ⟨Option.some "7", 1, false⟩
        ⟨Option.none, 0, false⟩ 0 0 0 0 0 .none .none .none .none
     let ePlus : Expr := .mk 0 TK.PLUS ⟨Option.none, 0, false⟩
        ⟨Option.none, 0, false⟩ 0 0 0 0 0 .none .none .none .none
     (IntTokenShaped eInt7 ∧
        (sqlite3ExprIsInteger eInt7 0).1.natAbs ≤ 2147483647) ∧
       (sqlite3ExprIsInteger ePlus 5).1 = 5) :=
  ⟨⟨(exprIsInteger_amended _ 0).1.mp (by decide),
      (exprIsInteger_amended _ 0).2.1 (by decide)⟩,
    (exprIsInteger_amended _ 5).2.2 (by decide)⟩


/-! ### Affinity inference (`sqlite3ExprType`, expr.c lines 919–1002)

`SQLITE_SO_NUM`/`SQLITE_SO_TEXT` come from `sqliteInt.h`, outside the
snapshot; their numeric values are immaterial, only their distinctness
matters. -/

def SQLITE_SO_NUM : Int := 0

def SQLITE_SO_TEXT : Int := 2

mutual
/-- `sqlite3ExprType` (expr.c:919): the numeric-vs-text affinity of an
expression.  The iterative `while (p) switch (...)` of the source is
rendered as recursion along the chain the loop follows. -/
def sqlite3ExprType : OExpr → Int
  | .none => SQLITE_SO_NUM
  | .some (.mk _ op _ _ _ _ _ dataType _ l r lst sel) =>
    match op with
    | TK.PLUS | TK.MINUS | TK.STAR | TK.SLASH | TK.AND | TK.OR
    | TK.ISNULL | TK.NOTNULL | TK.NOT | TK.UMINUS | TK.UPLUS
    | TK.BITAND | TK.BITOR | TK.BITNOT | TK.LSHIFT | TK.RSHIFT
    | TK.REM | TK.INTEGER | TK.FLOAT | TK.IN | TK.BETWEEN
    | TK.GLOB | TK.LIKE => SQLITE_SO_NUM
    | TK.STRING | TK.NULL | TK.CONCAT | TK.VARIABLE => SQLITE_SO_TEXT
    | TK.LT | TK.LE | TK.GT | TK.GE | TK.NE | TK.EQ =>
      if sqlite3ExprType l = SQLITE_SO_NUM then SQLITE_SO_NUM
      else sqlite3ExprType r
    | TK.AS => sqlite3ExprType l
    | TK.COLUMN | TK.FUNCTION | TK.AGG_FUNCTION => dataType
    | TK.SELECT =>
      match sel with
      | .some (.mk (.some (.cons (.mk pe _ _ _ _) _))) => sqlite3ExprType pe
      | _ => SQLITE_SO_NUM
    | TK.CASE =>
      if (match r with
        | OExpr.some _ => sqlite3ExprType r == SQLITE_SO_NUM
        | OExpr.none => false) then SQLITE_SO_NUM
      else
        match lst with
        | .some el => if caseThenScan el false then SQLITE_SO_NUM
            else SQLITE_SO_TEXT
        | .none => SQLITE_SO_TEXT
    | _ => SQLITE_SO_NUM

/-- The `TK_CASE` loop of `sqlite3ExprType` (expr.c:985–993): scan the
elements at odd indices (the THEN expressions) for a numeric one. -/
def caseThenScan : ExprList → Bool → Bool
  | .nil, _ => false
  | .cons (.mk pe _ _ _ _) rest, odd =>
    (odd && (sqlite3ExprType pe == SQLITE_SO_NUM)) || caseThenScan rest (!odd)
end

/-! ### Bytecode emitter (`sqlite3ExprCode` / `sqlite3ExprIfTrue` /
`sqlite3ExprIfFalse`, expr.c lines 1008–1483)

The VM opcode numbers live in the generated `vdbe.h`, outside the
snapshot; they are modelled from the spec's stated contract — the
comparison-opcode family is laid out so that
`text-variant = numeric-variant + 6` (also asserted at expr.c:1436) —
with arbitrary distinct values elsewhere. -/

def OP_Eq : Nat := 60
def OP_Ne : Nat := 61
def OP_Lt : Nat := 62
def OP_Le : Nat := 63
def OP_Ge : Nat := 64
def OP_Gt : Nat := 65
def OP_StrEq : Nat := 66
def OP_StrNe : Nat := 67
def OP_StrLt : Nat := 68
def OP_StrLe : Nat := 69
def OP_StrGe : Nat := 70
def OP_StrGt : Nat := 71
def OP_Add : Nat := 1
def OP_Subtract : Nat := 2
def OP_Multiply : Nat := 3
def OP_Divide : Nat := 4
def OP_And : Nat := 5
def OP_Or : Nat := 6
def OP_IsNull : Nat := 7
def OP_NotNull : Nat := 8
def OP_Not : Nat := 9
def OP_Negative : Nat := 10
def OP_BitAnd : Nat := 11
def OP_BitOr : Nat := 12
def OP_BitNot : Nat := 13
def OP_ShiftLeft : Nat := 14
def OP_ShiftRight : Nat := 15
def OP_Remainder : Nat := 16
def OP_Concat : Nat := 17
def OP_AggGet : Nat := 18
def OP_Column : Nat := 19
def OP_Recno : Nat := 20
def OP_Integer : Nat := 21
def OP_String : Nat := 22
def OP_Variable : Nat := 23
def OP_AddImm : Nat := 24
def OP_Function : Nat := 25
def OP_MemLoad : Nat := 26
def OP_Pop : Nat := 27
def OP_Goto : Nat := 28
def OP_Found : Nat := 29
def OP_SetFound : Nat := 30
def OP_NotFound : Nat := 31
def OP_SetNotFound : Nat := 32
def OP_Dup : Nat := 33
def OP_Pull : Nat := 34
def OP_If : Nat := 35
def OP_IfNot : Nat := 36
def OP_Halt : Nat := 37

def SQLITE_CONSTRAINT : Int := 19
def OE_Rollback : Int := 1
def OE_Abort : Int := 2
def OE_Fail : Int := 3
def OE_Ignore : Int := 4

/-- One emitted VM instruction `(opcode, p1, p2, p3?)`. -/
structure VdbeOp where
  opcode : Nat
  p1 : Int
  p2 : Int
  p3 : Option String
  deriving Repr, DecidableEq

/-- The program under construction: the instruction list, the label
counter (labels are negative integers) and the resolved labels. -/
structure Vdbe where
  aOp : List VdbeOp
  nLabel : Nat
  labels : List (Int × Int)
  deriving Repr, DecidableEq

/-- `sqlite3VdbeAddOp`: append an instruction, returning its address. -/
def sqlite3VdbeAddOp (v : Vdbe) (opcode : Nat) (p1 p2 : Int) : Vdbe × Int :=
  ({ v with aOp := v.aOp ++ [⟨opcode, p1, p2, Option.none⟩] },
    Int.ofNat v.aOp.length)

/-- `sqlite3VdbeOp3`: append an instruction carrying a `p3` string. -/
def sqlite3VdbeOp3 (v : Vdbe) (opcode : Nat) (p1 p2 : Int) (p3 : String) :
    Vdbe × Int :=
  ({ v with aOp := v.aOp ++ [⟨opcode, p1, p2, Option.some p3⟩] },
    Int.ofNat v.aOp.length)

/-- Modelled from the spec: `sqlite3Dequote` (util.c, not in snapshot) —
strip a surrounding quote pair when the text is quoted. -/
def sqlite3DequoteModel (s : String) : String :=
  match s.toList with
  | ch :: rest =>
    if (ch = Char.ofNat 39 ∨ ch = Char.ofNat 34 ∨ ch = '[' ∨ ch = '`')
        ∧ rest ≠ [] then
      (rest.take (rest.length - 1)).asString
    else s
  | [] => s

/-- `sqlite3VdbeChangeP3(v, -1, z, n)` followed (where the caller does
so) by `sqlite3VdbeDequoteP3`: set the last instruction's `p3` to the
first `n` characters of the token text, optionally dequoted. -/
def vdbeSetLastP3 (v : Vdbe) (z : String) (n : Nat) (dequote : Bool) :
    Vdbe :=
  let s := (z.toList.take n).asString
  let s := if dequote then sqlite3DequoteModel s else s
  { v with aOp :=
      v.aOp.take (v.aOp.length - 1) ++
        (v.aOp.drop (v.aOp.length - 1)).map (fun i => { i with
          p3 := Option.some s }) }

/-- `sqlite3VdbeMakeLabel` (modelled from the spec: labels are allocated
as negative integers, patched in at resolution time). -/
def sqlite3VdbeMakeLabel (v : Vdbe) : Vdbe × Int :=
  ({ v with nLabel := v.nLabel + 1 }, -1 - Int.ofNat v.nLabel)

/-- `sqlite3VdbeResolveLabel`: record the label's target address. -/
def sqlite3VdbeResolveLabel (v : Vdbe) (lbl : Int) : Vdbe :=
  { v with labels := v.labels ++ [(lbl, Int.ofNat v.aOp.length)] }

/-- `sqlite3VdbeCurrentAddr`. -/
def sqlite3VdbeCurrentAddr (v : Vdbe) : Int := Int.ofNat v.aOp.length

/-- `sqlite3VdbeChangeP2`: retroactively set instruction `addr`'s `p2`. -/
def sqlite3VdbeChangeP2 (v : Vdbe) (addr : Int) (p2 : Int) : Vdbe :=
  { v with aOp := (v.aOp.zip (List.range v.aOp.length)).map (fun iz =>
      if Int.ofNat iz.2 = addr then { iz.1 with p2 := p2 } else iz.1) }

/-- The registered-function information the emitter consults
(`sqlite3FindFunction`, expr.c:1627, returns `pDef`; the emitter asserts
the lookup succeeds and reads `pDef->includeTypes`). -/
structure ParseCtx where
  useAgg : Bool
  fileFormat : Nat
  trigStack : Bool
  ignoreJump : Int
  nErr : Nat
  zErrMsg : Option String
  includeTypes : String → Nat → Bool

/-- Modelled from the spec: `sqlite3ErrorMsg` (util.c, not in snapshot) —
leave a formatted message on the parse context and count the error. -/
def sqlite3ErrorMsg (p : ParseCtx) (msg : String) : ParseCtx :=
  { p with zErrMsg := Option.some msg, nErr := p.nErr + 1 }

/-- `getFunctionName` (expr.c:786). -/
def getFunctionName (op : TK) (token : Token) : String × Nat :=
  match op with
  | TK.FUNCTION => (token.z.getD "", token.n)
  | TK.LIKE => ("like", 4)
  | TK.GLOB => ("glob", 4)
  | _ => ("cant happen", 12)

/-- The first `switch` of `sqlite3ExprCode` (expr.c:1012–1036): the VM
opcode for each operator. -/
def codeOpOf : TK → Nat
  | TK.PLUS => OP_Add
  | TK.MINUS => OP_Subtract
  | TK.STAR => OP_Multiply
  | TK.SLASH => OP_Divide
  | TK.AND => OP_And
  | TK.OR => OP_Or
  | TK.LT => OP_Lt
  | TK.LE => OP_Le
  | TK.GT => OP_Gt
  | TK.GE => OP_Ge
  | TK.NE => OP_Ne
  | TK.EQ => OP_Eq
  | TK.ISNULL => OP_IsNull
  | TK.NOTNULL => OP_NotNull
  | TK.NOT => OP_Not
  | TK.UMINUS => OP_Negative
  | TK.BITAND => OP_BitAnd
  | TK.BITOR => OP_BitOr
  | TK.BITNOT => OP_BitNot
  | TK.LSHIFT => OP_ShiftLeft
  | TK.RSHIFT => OP_ShiftRight
  | TK.REM => OP_Remainder
  | _ => 0

/-- The first `switch` of `sqlite3ExprIfTrue` (expr.c:1301–1311). -/
def ifTrueOpOf : TK → Nat
  | TK.LT => OP_Lt
  | TK.LE => OP_Le
  | TK.GT => OP_Gt
  | TK.GE => OP_Ge
  | TK.NE => OP_Ne
  | TK.EQ => OP_Eq
  | TK.ISNULL => OP_IsNull
  | TK.NOTNULL => OP_NotNull
  | _ => 0

/-- The first `switch` of `sqlite3ExprIfFalse` (expr.c:1396–1406): the
complementary opcodes. -/
def ifFalseOpOf : TK → Nat
  | TK.LT => OP_Ge
  | TK.LE => OP_Gt
  | TK.GT => OP_Le
  | TK.GE => OP_Lt
  | TK.NE => OP_Eq
  | TK.EQ => OP_Ne
  | TK.ISNULL => OP_NotNull
  | TK.NOTNULL => OP_IsNull
  | _ => 0

/-- C boolean negation `!jumpIfNull`. -/
def cnot (x : Int) : Int := if x = 0 then 1 else 0


/-- `pList->nExpr`. -/
def elistLength : ExprList → Nat
  | .nil => 0
  | .cons _ rest => elistLength rest + 1

set_option maxHeartbeats 2000000 in
mutual
/-- `sqlite3ExprCode` (expr.c:1008): emit code that evaluates the
expression and leaves the result on top of the stack. -/
def sqlite3ExprCode (p : ParseCtx) (v : Vdbe) : OExpr → ParseCtx × Vdbe
  | .none => (p, v)
  | .some e =>
    match e with
    | .mk _ op token _ _ iTable iColumn _ iAgg l r lst sel =>
      let opc := codeOpOf op
      match op with
      | TK.COLUMN =>
        if p.useAgg then (p, (sqlite3VdbeAddOp v OP_AggGet 0 iAgg).1)
        else if iColumn ≥ 0 then
          (p, (sqlite3VdbeAddOp v OP_Column iTable iColumn).1)
        else (p, (sqlite3VdbeAddOp v OP_Recno iTable 0).1)
      | TK.STRING | TK.FLOAT | TK.INTEGER =>
        let z := token.z.getD ""
        let v1 := if op = TK.INTEGER ∧ sqlite3FitsIn32Bits z then
            (sqlite3VdbeAddOp v OP_Integer (atoiModel z) 0).1
          else (sqlite3VdbeAddOp v OP_String 0 0).1
        (p, vdbeSetLastP3 v1 z token.n true)
      | TK.NULL => (p, (sqlite3VdbeAddOp v OP_String 0 0).1)
      | TK.VARIABLE => (p, (sqlite3VdbeAddOp v OP_Variable iTable 0).1)
      | TK.LT | TK.LE | TK.GT | TK.GE | TK.NE | TK.EQ =>
        let opc := if p.fileFormat ≥ 4 ∧
            sqlite3ExprType (.some e) = SQLITE_SO_TEXT then opc + 6 else opc
        let pv := sqlite3ExprCode p v l
        let pv2 := sqlite3ExprCode pv.1 pv.2 r
        (pv2.1, (sqlite3VdbeAddOp pv2.2 opc 0 0).1)
      | TK.AND | TK.OR | TK.PLUS | TK.STAR | TK.MINUS | TK.REM
      | TK.BITAND | TK.BITOR | TK.SLASH =>
        let pv := sqlite3ExprCode p v l
        let pv2 := sqlite3ExprCode pv.1 pv.2 r
        (pv2.1, (sqlite3VdbeAddOp pv2.2 opc 0 0).1)
      | TK.LSHIFT | TK.RSHIFT =>
        let pv := sqlite3ExprCode p v r
        let pv2 := sqlite3ExprCode pv.1 pv.2 l
        (pv2.1, (sqlite3VdbeAddOp pv2.2 opc 0 0).1)
      | TK.CONCAT =>
        let pv := sqlite3ExprCode p v l
        let pv2 := sqlite3ExprCode pv.1 pv.2 r
        (pv2.1, (sqlite3VdbeAddOp pv2.2 OP_Concat 2 0).1)
      | TK.UMINUS =>
        match l with
        | .some le =>
          if le.op = TK.FLOAT ∨ le.op = TK.INTEGER then
            let z := "-" ++ ((le.token.z.getD "").toList.take
              le.token.n).asString
            let v1 := if le.op = TK.INTEGER ∧ sqlite3FitsIn32Bits z then
                (sqlite3VdbeAddOp v OP_Integer (atoiModel z) 0).1
              else (sqlite3VdbeAddOp v OP_String 0 0).1
            (p, vdbeSetLastP3 v1 z (le.token.n + 1) false)
          else
            let pv := sqlite3ExprCode p v (.some le)
            (pv.1, (sqlite3VdbeAddOp pv.2 opc 0 0).1)
        | .none =>
          (p, (sqlite3VdbeAddOp v opc 0 0).1)
      | TK.BITNOT | TK.NOT =>
        let pv := sqlite3ExprCode p v l
        (pv.1, (sqlite3VdbeAddOp pv.2 opc 0 0).1)
      | TK.ISNULL | TK.NOTNULL =>
        let v1 := (sqlite3VdbeAddOp v OP_Integer 1 0).1
        let pv := sqlite3ExprCode p v1 l
        let dest := sqlite3VdbeCurrentAddr pv.2 + 2
        let v2 := (sqlite3VdbeAddOp pv.2 opc 1 dest).1
        (pv.1, (sqlite3VdbeAddOp v2 OP_AddImm (-1) 0).1)
      | TK.AGG_FUNCTION => (p, (sqlite3VdbeAddOp v OP_AggGet 0 iAgg).1)
      | TK.GLOB | TK.LIKE | TK.FUNCTION =>
        let fn := getFunctionName op token
        let nArgs := match lst with
          | OList.some el => elistLength el
          | OList.none => 0
        let inc := p.includeTypes fn.1 nArgs
        let res := sqlite3ExprCodeOList p v lst inc
        (res.1, (sqlite3VdbeOp3 res.2.1 OP_Function (Int.ofNat res.2.2) 0
          fn.1).1)
      | TK.SELECT => (p, (sqlite3VdbeAddOp v OP_MemLoad iColumn 0).1)
      | TK.IN =>
        let v1 := (sqlite3VdbeAddOp v OP_Integer 1 0).1
        let pv := sqlite3ExprCode p v1 l
        let addr := sqlite3VdbeCurrentAddr pv.2
        let v2 := (sqlite3VdbeAddOp pv.2 OP_NotNull (-1) (addr + 4)).1
        let v3 := (sqlite3VdbeAddOp v2 OP_Pop 2 0).1
        let v4 := (sqlite3VdbeAddOp v3 OP_String 0 0).1
        let v5 := (sqlite3VdbeAddOp v4 OP_Goto 0 (addr + 6)).1
        let v6 := match sel with
          | OSelect.some _ => (sqlite3VdbeAddOp v5 OP_Found iTable (addr + 6)).1
          | OSelect.none => (sqlite3VdbeAddOp v5 OP_SetFound iTable
              (addr + 6)).1
        (pv.1, (sqlite3VdbeAddOp v6 OP_AddImm (-1) 0).1)
      | TK.BETWEEN =>
        match lst with
        | .some (.cons (.mk pe0 _ _ _ _) (.cons (.mk pe1 _ _ _ _) _)) =>
          let pv := sqlite3ExprCode p v l
          let v1 := (sqlite3VdbeAddOp pv.2 OP_Dup 0 0).1
          let pv0 := sqlite3ExprCode pv.1 v1 pe0
          let v2 := (sqlite3VdbeAddOp pv0.2 OP_Ge 0 0).1
          let v3 := (sqlite3VdbeAddOp v2 OP_Pull 1 0).1
          let pv1 := sqlite3ExprCode pv0.1 v3 pe1
          let v4 := (sqlite3VdbeAddOp pv1.2 OP_Le 0 0).1
          (pv1.1, (sqlite3VdbeAddOp v4 OP_And 0 0).1)
        | _ => (p, v)
      | TK.UPLUS | TK.AS => sqlite3ExprCode p v l
      | TK.CASE =>
        match lst with
        | .some el =>
          let mk1 := sqlite3VdbeMakeLabel v
          let hasBase := match l with
            | OExpr.some _ => true
            | OExpr.none => false
          let pv := if hasBase then sqlite3ExprCode p mk1.1 l else (p, mk1.1)
          let res := codeCasePairs pv.1 pv.2 el hasBase mk1.2
          let v1 := if hasBase then (sqlite3VdbeAddOp res.2 OP_Pop 1 0).1
            else res.2
          let pvr := match r with
            | OExpr.some re => sqlite3ExprCode res.1 v1 (.some re)
            | OExpr.none => (res.1, (sqlite3VdbeAddOp v1 OP_String 0 0).1)
          (pvr.1, sqlite3VdbeResolveLabel pvr.2 mk1.2)
        | .none => (p, v)
      | TK.RAISE =>
        if ¬ p.trigStack then
          let p1 := sqlite3ErrorMsg p
            "RAISE() may only be used within a trigger-program"
          ({ p1 with nErr := p1.nErr + 1 }, v)
        else if iColumn = OE_Rollback ∨ iColumn = OE_Abort
            ∨ iColumn = OE_Fail then
          (p, (sqlite3VdbeOp3 v OP_Halt SQLITE_CONSTRAINT iColumn
            (sqlite3DequoteModel
              (((token.z.getD "").toList.take token.n).asString))).1)
        else (p, (sqlite3VdbeOp3 v OP_Goto 0 p.ignoreJump "(IGNORE jump)").1)
      | _ => (p, v)
termination_by oe => (sizeOf oe, 0)

/-- `sqlite3ExprCodeExprList` (expr.c:1267) on a nullable list. -/
def sqlite3ExprCodeOList (p : ParseCtx) (v : Vdbe) :
    OList → Bool → ParseCtx × Vdbe × Nat
  | .none, _ => (p, v, 0)
  | .some el, inc => sqlite3ExprCodeExprList p v el inc
termination_by ol _ => (sizeOf ol, 1)

/-- `sqlite3ExprCodeExprList` (expr.c:1267): push each element's value,
optionally followed by its affinity name; return the number of values
pushed (`n` or `2n`). -/
def sqlite3ExprCodeExprList (p : ParseCtx) (v : Vdbe) :
    ExprList → Bool → ParseCtx × Vdbe × Nat
  | .nil, _ => (p, v, 0)
  | .cons (.mk pe _ _ _ _) rest, inc =>
    let pv := sqlite3ExprCode p v pe
    let v1 := if inc then
        (sqlite3VdbeOp3 pv.2 OP_String 0 0
          (if sqlite3ExprType pe = SQLITE_SO_NUM then "numeric"
            else "text")).1
      else pv.2
    let res := sqlite3ExprCodeExprList pv.1 v1 rest inc
    (res.1, res.2.1, res.2.2 + (if inc then 2 else 1))
termination_by el _ => (sizeOf el, 0)

/-- The `(when, then)` pair loop of the `TK_CASE` value emitter
(expr.c:1211–1224). -/
def codeCasePairs (p : ParseCtx) (v : Vdbe) :
    ExprList → Bool → Int → ParseCtx × Vdbe
  | .cons (.mk peW _ _ _ _) (.cons (.mk peT _ _ _ _) rest), hasBase,
    lblEnd =>
    let pv := sqlite3ExprCode p v peW
    let vj : Vdbe × Int :=
      if hasBase then
        let v1 := (sqlite3VdbeAddOp pv.2 OP_Dup 1 1).1
        let aj := sqlite3VdbeAddOp v1 OP_Ne 1 0
        ((sqlite3VdbeAddOp aj.1 OP_Pop 1 0).1, aj.2)
      else
        let aj := sqlite3VdbeAddOp pv.2 OP_IfNot 1 0
        (aj.1, aj.2)
    let pvT := sqlite3ExprCode pv.1 vj.1 peT
    let v2 := (sqlite3VdbeAddOp pvT.2 OP_Goto 0 lblEnd).1
    let v3 := sqlite3VdbeChangeP2 v2 vj.2 (sqlite3VdbeCurrentAddr v2)
    codeCasePairs pvT.1 v3 rest hasBase lblEnd
  | _, _, _ => (p, v)
termination_by el _ _ => (sizeOf el, 0)

/-- `sqlite3ExprIfTrue` (expr.c:1297): emit code that jumps to `dest`
when the expression is true. -/
def sqlite3ExprIfTrue (p : ParseCtx) (v : Vdbe) :
    OExpr → Int → Int → ParseCtx × Vdbe
  | .none, _, _ => (p, v)
  | .some e, dest, jumpIfNull =>
    match e with
    | .mk _ op _ _ _ iTable _ _ _ l r lst sel =>
      let opc := ifTrueOpOf op
      match op with
      | TK.AND =>
        let mk1 := sqlite3VdbeMakeLabel v
        let pv := sqlite3ExprIfFalse p mk1.1 l mk1.2 (cnot jumpIfNull)
        let pv2 := sqlite3ExprIfTrue pv.1 pv.2 r dest jumpIfNull
        (pv2.1, sqlite3VdbeResolveLabel pv2.2 mk1.2)
      | TK.OR =>
        let pv := sqlite3ExprIfTrue p v l dest jumpIfNull
        sqlite3ExprIfTrue pv.1 pv.2 r dest jumpIfNull
      | TK.NOT => sqlite3ExprIfFalse p v l dest jumpIfNull
      | TK.LT | TK.LE | TK.GT | TK.GE | TK.NE | TK.EQ =>
        let pv := sqlite3ExprCode p v l
        let pv2 := sqlite3ExprCode pv.1 pv.2 r
        let opc := if p.fileFormat ≥ 4 ∧
            sqlite3ExprType (.some e) = SQLITE_SO_TEXT then opc + 6 else opc
        (pv2.1, (sqlite3VdbeAddOp pv2.2 opc jumpIfNull dest).1)
      | TK.ISNULL | TK.NOTNULL =>
        let pv := sqlite3ExprCode p v l
        (pv.1, (sqlite3VdbeAddOp pv.2 opc 1 dest).1)
      | TK.IN =>
        let pv := sqlite3ExprCode p v l
        let addr := sqlite3VdbeCurrentAddr pv.2
        let v1 := (sqlite3VdbeAddOp pv.2 OP_NotNull (-1) (addr + 3)).1
        let v2 := (sqlite3VdbeAddOp v1 OP_Pop 1 0).1
        let v3 := (sqlite3VdbeAddOp v2 OP_Goto 0
          (if jumpIfNull ≠ 0 then dest else addr + 4)).1
        let v4 := match sel with
          | OSelect.some _ => (sqlite3VdbeAddOp v3 OP_Found iTable dest).1
          | OSelect.none => (sqlite3VdbeAddOp v3 OP_SetFound iTable dest).1
        (pv.1, v4)
      | TK.BETWEEN =>
        match lst with
        | .some (.cons (.mk pe0 _ _ _ _) (.cons (.mk pe1 _ _ _ _) _)) =>
          let pv := sqlite3ExprCode p v l
          let v1 := (sqlite3VdbeAddOp pv.2 OP_Dup 0 0).1
          let pv0 := sqlite3ExprCode pv.1 v1 pe0
          let aj := sqlite3VdbeAddOp pv0.2 OP_Lt (cnot jumpIfNull) 0
          let pv1 := sqlite3ExprCode pv0.1 aj.1 pe1
          let v2 := (sqlite3VdbeAddOp pv1.2 OP_Le jumpIfNull dest).1
          let v3 := (sqlite3VdbeAddOp v2 OP_Integer 0 0).1
          let v4 := sqlite3VdbeChangeP2 v3 aj.2 (sqlite3VdbeCurrentAddr v3)
          (pv1.1, (sqlite3VdbeAddOp v4 OP_Pop 1 0).1)
        | _ => (p, v)
      | _ =>
        let pv := sqlite3ExprCode p v (.some e)
        (pv.1, (sqlite3VdbeAddOp pv.2 OP_If jumpIfNull dest).1)
termination_by oe _ _ => (sizeOf oe, 1)

/-- `sqlite3ExprIfFalse` (expr.c:1392): emit code that jumps to `dest`
when the expression is false. -/
def sqlite3ExprIfFalse (p : ParseCtx) (v : Vdbe) :
    OExpr → Int → Int → ParseCtx × Vdbe
  | .none, _, _ => (p, v)
  | .some e, dest, jumpIfNull =>
    match e with
    | .mk _ op _ _ _ iTable _ _ _ l r lst sel =>
      let opc := ifFalseOpOf op
      match op with
      | TK.AND =>
        let pv := sqlite3ExprIfFalse p v l dest jumpIfNull
        sqlite3ExprIfFalse pv.1 pv.2 r dest jumpIfNull
      | TK.OR =>
        let mk1 := sqlite3VdbeMakeLabel v
        let pv := sqlite3ExprIfTrue p mk1.1 l mk1.2 (cnot jumpIfNull)
        let pv2 := sqlite3ExprIfFalse pv.1 pv.2 r dest jumpIfNull
        (pv2.1, sqlite3VdbeResolveLabel pv2.2 mk1.2)
      | TK.NOT => sqlite3ExprIfTrue p v l dest jumpIfNull
      | TK.LT | TK.LE | TK.GT | TK.GE | TK.NE | TK.EQ =>
        let opc := if p.fileFormat ≥ 4 ∧
            sqlite3ExprType (.some e) = SQLITE_SO_TEXT then opc + 6 else opc
        let pv := sqlite3ExprCode p v l
        let pv2 := sqlite3ExprCode pv.1 pv.2 r
        (pv2.1, (sqlite3VdbeAddOp pv2.2 opc jumpIfNull dest).1)
      | TK.ISNULL | TK.NOTNULL =>
        let pv := sqlite3ExprCode p v l
        (pv.1, (sqlite3VdbeAddOp pv.2 opc 1 dest).1)
      | TK.IN =>
        let pv := sqlite3ExprCode p v l
        let addr := sqlite3VdbeCurrentAddr pv.2
        let v1 := (sqlite3VdbeAddOp pv.2 OP_NotNull (-1) (addr + 3)).1
        let v2 := (sqlite3VdbeAddOp v1 OP_Pop 1 0).1
        let v3 := (sqlite3VdbeAddOp v2 OP_Goto 0
          (if jumpIfNull ≠ 0 then dest else addr + 4)).1
        let v4 := match sel with
          | OSelect.some _ => (sqlite3VdbeAddOp v3 OP_NotFound iTable dest).1
          | OSelect.none => (sqlite3VdbeAddOp v3 OP_SetNotFound iTable
              dest).1
        (pv.1, v4)
      | TK.BETWEEN =>
        match lst with
        | .some (.cons (.mk pe0 _ _ _ _) (.cons (.mk pe1 _ _ _ _) _)) =>
          let pv := sqlite3ExprCode p v l
          let v1 := (sqlite3VdbeAddOp pv.2 OP_Dup 0 0).1
          let pv0 := sqlite3ExprCode pv.1 v1 pe0
          let addr := sqlite3VdbeCurrentAddr pv0.2
          let v2 := (sqlite3VdbeAddOp pv0.2 OP_Ge (cnot jumpIfNull)
            (addr + 3)).1
          let v3 := (sqlite3VdbeAddOp v2 OP_Pop 1 0).1
          let v4 := (sqlite3VdbeAddOp v3 OP_Goto 0 dest).1
          let pv1 := sqlite3ExprCode pv0.1 v4 pe1
          (pv1.1, (sqlite3VdbeAddOp pv1.2 OP_Gt jumpIfNull dest).1)
        | _ => (p, v)
      | _ =>
        let pv := sqlite3ExprCode p v (.some e)
        (pv.1, (sqlite3VdbeAddOp pv.2 OP_IfNot jumpIfNull dest).1)
termination_by oe _ _ => (sizeOf oe, 1)
end


/-- C4: in all three emission forms (value via `sqlite3ExprCode`,
jump-if-true via `sqlite3ExprIfTrue`, jump-if-false via
`sqlite3ExprIfFalse`), a comparison operator `<, <=, >, >=, !=, ==`
first codes both operands (left then right) and then emits a single
comparison instruction whose opcode is the numeric-affinity base opcode
(the complementary one in the if-false form) plus the fixed offset 6
exactly when the database file format is at least 4 and
`sqlite3ExprType` reports text affinity for the comparison expression;
otherwise the base opcode is emitted unchanged. -/
theorem exprCode_comparison_opcode (p : ParseCtx) (v : Vdbe) (e : Expr)
    (dest jumpIfNull : Int)
    (hop : e.op = TK.LT ∨ e.op = TK.LE ∨ e.op = TK.GT ∨ e.op = TK.GE ∨
      e.op = TK.NE ∨ e.op = TK.EQ) :
    (sqlite3ExprCode p v (.some e)).2.aOp =
      (sqlite3ExprCode (sqlite3ExprCode p v e.pLeft).1
        (sqlite3ExprCode p v e.pLeft).2 e.pRight).2.aOp ++
      [⟨(if p.fileFormat ≥ 4 ∧ sqlite3ExprType (.some e) = SQLITE_SO_TEXT
          then codeOpOf e.op + 6 else codeOpOf e.op), 0, 0, Option.none⟩]
    ∧ (sqlite3ExprIfTrue p v (.some e) dest jumpIfNull).2.aOp =
      (sqlite3ExprCode (sqlite3ExprCode p v e.pLeft).1
        (sqlite3ExprCode p v e.pLeft).2 e.pRight).2.aOp ++
      [⟨(if p.fileFormat ≥ 4 ∧ sqlite3ExprType (.some e) = SQLITE_SO_TEXT
          then ifTrueOpOf e.op + 6 else ifTrueOpOf e.op), jumpIfNull,
          dest, Option.none⟩]
    ∧ (sqlite3ExprIfFalse p v (.some e) dest jumpIfNull).2.aOp =
      (sqlite3ExprCode (sqlite3ExprCode p v e.pLeft).1
        (sqlite3ExprCode p v e.pLeft).2 e.pRight).2.aOp ++
      [⟨(if p.fileFormat ≥ 4 ∧ sqlite3ExprType (.some e) = SQLITE_SO_TEXT
          then ifFalseOpOf e.op + 6 else ifFalseOpOf e.op), jumpIfNull,
          dest, Option.none⟩] := by
  obtain ⟨a, op, token, span, iDb, iTable, iColumn, dataType, iAgg, l, r,
    lst, sel⟩ := e
  rcases hop with h | h | h | h | h | h <;> cases h <;>
    refine ⟨?_, ?_, ?_⟩ <;>
    simp [sqlite3ExprCode, sqlite3ExprIfTrue, sqlite3ExprIfFalse,
      sqlite3VdbeAddOp, codeOpOf, ifTrueOpOf, ifFalseOpOf,
      Expr.pLeft, Expr.pRight, Expr.op]

/-- A concrete comparison expression for evaluating the emitters. -/
def eW : Expr :=
  .mk 0 TK.LT ⟨Option.some "x<y", 3, false⟩ ⟨Option.none, 0, false⟩
    0 0 0 0 0
    (.some (.mk 1 TK.INTEGER ⟨Option.some "1", 1, false⟩
      ⟨Option.none, 0, false⟩ 0 0 0 0 0 .none .none .none .none))
    (.some (.mk 2 TK.INTEGER ⟨Option.some "2", 1, false⟩
      ⟨Option.none, 0, false⟩ 0 0 0 0 0 .none .none .none .none))
    .none .none

/-- A concrete parser context for evaluating the emitters. -/
def pW : ParseCtx :=
  { useAgg := false, fileFormat := 4, trigStack := false, ignoreJump := 0,
    nErr := 0, zErrMsg := Option.none, includeTypes := fun _ _ => false }

/-- A concrete empty program for evaluating the emitters. -/
def vW0 : Vdbe := { aOp := [], nLabel := 0, labels := [] }

theorem exprCode_comparison_opcode_witness :
    (eW.op = TK.LT ∨ eW.op = TK.LE ∨ eW.op = TK.GT ∨ eW.op = TK.GE ∨
      eW.op = TK.NE ∨ eW.op = TK.EQ) ∧
    ((sqlite3ExprCode pW vW0 (.some eW)).2.aOp =
      (sqlite3ExprCode (sqlite3ExprCode pW vW0 eW.pLeft).1
        (sqlite3ExprCode pW vW0 eW.pLeft).2 eW.pRight).2.aOp ++
      [⟨(if pW.fileFormat ≥ 4 ∧ sqlite3ExprType (.some eW) = SQLITE_SO_TEXT
          then codeOpOf eW.op + 6 else codeOpOf eW.op), 0, 0,
          Option.none⟩]
    ∧ (sqlite3ExprIfTrue pW vW0 (.some eW) 7 1).2.aOp =
      (sqlite3ExprCode (sqlite3ExprCode pW vW0 eW.pLeft).1
        (sqlite3ExprCode pW vW0 eW.pLeft).2 eW.pRight).2.aOp ++
      [⟨(if pW.fileFormat ≥ 4 ∧ sqlite3ExprType (.some eW) = SQLITE_SO_TEXT
          then ifTrueOpOf eW.op + 6 else ifTrueOpOf eW.op), 1, 7,
          Option.none⟩]
    ∧ (sqlite3ExprIfFalse pW vW0 (.some eW) 7 1).2.aOp =
      (sqlite3ExprCode (sqlite3ExprCode pW vW0 eW.pLeft).1
        (sqlite3ExprCode pW vW0 eW.pLeft).2 eW.pRight).2.aOp ++
      [⟨(if pW.fileFormat ≥ 4 ∧ sqlite3ExprType (.some eW) = SQLITE_SO_TEXT
          then ifFalseOpOf eW.op + 6 else ifFalseOpOf eW.op), 1, 7,
          Option.none⟩]) :=
  ⟨Or.inl rfl,
    exprCode_comparison_opcode pW vW0 eW 7 1 (Or.inl rfl)⟩


def Expr.setOp : Expr → TK → Expr
  | .mk a _ t s db tb c dt ag l r ls se, op => .mk a op t s db tb c dt ag l r ls se

def Expr.setIDb : Expr → Int → Expr
  | .mk a op t s _ tb c dt ag l r ls se, db => .mk a op t s db tb c dt ag l r ls se

def Expr.setITable : Expr → Int → Expr
  | .mk a op t s db _ c dt ag l r ls se, tb => .mk a op t s db tb c dt ag l r ls se

def Expr.setIColumn : Expr → Int → Expr
  | .mk a op t s db tb _ dt ag l r ls se, c => .mk a op t s db tb c dt ag l r ls se

def Expr.setDataType : Expr → Int → Expr
  | .mk a op t s db tb c _ ag l r ls se, dt => .mk a op t s db tb c dt ag l r ls se

def Expr.setPLeft : Expr → OExpr → Expr
  | .mk a op t s db tb c dt ag _ r ls se, l => .mk a op t s db tb c dt ag l r ls se

def Expr.setPRight : Expr → OExpr → Expr
  | .mk a op t s db tb c dt ag l _ ls se, r => .mk a op t s db tb c dt ag l r ls se

/-- `sqlite3StrICmp(s,t)==0`: case-insensitive string equality. -/
def strICmpEq (s t : String) : Bool :=
  s.toList.map C3.lowerChar = t.toList.map C3.lowerChar

/-- `sqlite3IsRowid` (expr.c:373). -/
def sqlite3IsRowid (z : String) : Bool :=
  strICmpEq z "_ROWID_" || strICmpEq z "ROWID" || strICmpEq z "OID"

/-- A table column as seen by the resolver (`Column`: name and sort
order / type tag). -/
structure Column where
  zName : String
  sortOrder : Nat
  deriving Repr, DecidableEq

/-- A table as seen by the resolver. -/
structure Table where
  zName : Option String
  iDb : Int
  iPKey : Int
  aCol : List Column
  deriving Repr, DecidableEq

/-- One `SrcList_item`. -/
structure SrcItem where
  zAlias : Option String
  iCursor : Int
  pTab : Option Table
  deriving Repr, DecidableEq

/-- The fields of `TriggerStack` read by `lookupName`. -/
structure TriggerStackRec where
  newIdx : Int
  oldIdx : Int
  pTab : Option Table
  deriving Repr, DecidableEq

/-- The fields of `Parse` read and written by `lookupName`:
`db->aDb[i].zName`, the trigger stack, and the error channel. -/
structure NParse where
  dbNames : List String
  trigStack : Option TriggerStackRec
  nErr : Nat
  zErrMsg : Option String
  deriving Repr, DecidableEq

/-- Modelled from the spec: `sqlite3ErrorMsg` (util.c, not in snapshot) —
leave a formatted message on the parse context and count the error. -/
def sqlite3ErrorMsgN (p : NParse) (msg : String) : NParse :=
  { p with nErr := p.nErr + 1, zErrMsg := Option.some msg }

/-- Modelled from the spec: the sort-order type mask
`SQLITE_SO_TYPEMASK` (sqliteInt.h, not in snapshot) masking the type
bits out of a column sort order. -/
def SQLITE_SO_TYPEMASK : Nat := 6

/-- The inner column scan of `lookupName` (expr.c:469–478): first
column whose name matches `zCol` case-insensitively, with its index. -/
def firstMatchCol (zCol : String) : List Column → Nat → Option (Nat × Column)
  | [], _ => Option.none
  | c :: rest, j =>
    if strICmpEq c.zName zCol then Option.some (j, c)
    else firstMatchCol zCol rest (j + 1)

/-- Resolver scan state: `cnt`, `cntTab` and the mutated node. -/
structure LkSt where
  cnt : Nat
  cntTab : Nat
  e : Expr
  deriving Repr, DecidableEq

/-- The `continue` conditions of the source-list loop when a table name
was given (expr.c:455–465). -/
def tabNameMismatch (dbNames : List String) (zDb : Option String)
    (zTab : String) (item : SrcItem) (tab : Table) : Bool :=
  match item.zAlias with
  | Option.some al => ¬ strICmpEq al zTab
  | Option.none =>
    match tab.zName with
    | Option.none => true
    | Option.some tn =>
      ¬ strICmpEq tn zTab ||
      (match zDb with
       | Option.some zd => ¬ strICmpEq (dbNames.getD tab.iDb.toNat "") zd
       | Option.none => false)

/-- One iteration of the source-list loop of `lookupName`
(expr.c:446–480). -/
def lkItem (dbNames : List String) (zDb zTab : Option String)
    (zCol : String) (st : LkSt) (item : SrcItem) : LkSt :=
  match item.pTab with
  | Option.none => st
  | Option.some tab =>
    if (match zTab with
        | Option.some zt => tabNameMismatch dbNames zDb zt item tab
        | Option.none => false) then st
    else
      let e1 := if st.cntTab = 0 then
          (st.e.setITable item.iCursor).setIDb tab.iDb
        else st.e
      let st1 : LkSt := { cnt := st.cnt, cntTab := st.cntTab + 1, e := e1 }
      match firstMatchCol zCol tab.aCol 0 with
      | Option.some jc =>
        { cnt := st1.cnt + 1, cntTab := st1.cntTab,
          e := (((st1.e.setITable item.iCursor).setIDb tab.iDb).setIColumn
              (if Int.ofNat jc.1 = tab.iPKey then -1 else Int.ofNat jc.1)
            ).setDataType
              (Int.ofNat (jc.2.sortOrder &&& SQLITE_SO_TYPEMASK)) }
      | Option.none => st1

/-- The `new.*`/`old.*` trigger-argument fallback of `lookupName`
(expr.c:482–514). -/
def lkTrigger (p : NParse) (zDb zTab : Option String) (zCol : String)
    (st : LkSt) : LkSt :=
  if zDb = Option.none ∧ zTab ≠ Option.none ∧ st.cnt = 0 then
    match p.trigStack with
    | Option.none => st
    | Option.some ts =>
      let zt := zTab.getD ""
      let hit : Expr × Option Table :=
        if ts.newIdx ≠ -1 ∧ strICmpEq "new" zt then
          (st.e.setITable ts.newIdx, ts.pTab)
        else if ts.oldIdx ≠ -1 ∧ strICmpEq "old" zt then
          (st.e.setITable ts.oldIdx, ts.pTab)
        else (st.e, Option.none)
      match hit.2 with
      | Option.none => { st with e := hit.1 }
      | Option.some tab =>
        let e2 := hit.1.setIDb tab.iDb
        let st1 : LkSt := { cnt := st.cnt, cntTab := st.cntTab + 1, e := e2 }
        match firstMatchCol zCol tab.aCol 0 with
        | Option.some jc =>
          { cnt := st1.cnt + 1, cntTab := st1.cntTab,
            e := (st1.e.setIColumn
                (if Int.ofNat jc.1 = tab.iPKey then -1 else Int.ofNat jc.1)
              ).setDataType
                (Int.ofNat (jc.2.sortOrder &&& SQLITE_SO_TYPEMASK)) }
        | Option.none => st1
  else st

/-- The ROWID fallback of `lookupName` (expr.c:516–521). -/
def lkRowid (zCol : String) (st : LkSt) : LkSt :=
  if st.cnt = 0 ∧ st.cntTab = 1 ∧ sqlite3IsRowid zCol then
    { cnt := 1, cntTab := st.cntTab,
      e := (st.e.setIColumn (-1)).setDataType SQLITE_SO_NUM }
  else st

/-- The result-set-alias scan of `lookupName` (expr.c:536–548): first
item whose `zName` matches `zCol` case-insensitively. -/
def findAs (zCol : String) : ExprList → Nat → Option (Nat × OExpr)
  | .nil, _ => Option.none
  | .cons (.mk pe zName _ _ _) rest, j =>
    match zName with
    | Option.some zAs =>
      if strICmpEq zAs zCol then Option.some (j, pe)
      else findAs zCol rest (j + 1)
    | Option.none => findAs zCol rest (j + 1)

/-- `sqliteStrNDup` + `sqlite3Dequote` applied to a token
(expr.c:437–439). -/
def lkName (t : Token) : String :=
  sqlite3DequoteModel (((t.z.getD "").toList.take t.n).asString)

/-- `zDb`/`zTab` extraction (expr.c:424–436): non-null only when the
token and its text are present. -/
def lkOptName (t : Option Token) : Option String :=
  t.bind (fun tk => tk.z.map (fun _ => lkName tk))

/-- The qualified name used in the error message (expr.c:570–576). -/
def lkQualifiedName (zDb zTab : Option String) (zCol : String) : String :=
  match zDb, zTab with
  | Option.some zd, Option.some zt => zd ++ "." ++ zt ++ "." ++ zCol
  | Option.none, Option.some zt => zt ++ "." ++ zCol
  | _, _ => zCol

/-- Result of `lookupName`: return code, parse context, mutated node,
and the heap addresses freed by the child deletions. -/
structure LookupRes where
  ret : Int
  p : NParse
  e : Expr
  freed : List Nat
  deriving Repr

/-- The tail of `lookupName` after the scans (expr.c:536–593): alias
early return, double-quoted-literal early return, error report, child
deletion and the unconditional `op = TK_COLUMN`.  `sqlite3AuthRead` is
authorization-hook bookkeeping with no effect on the fields at issue
and is omitted. -/
def lkFinish (ctr : Nat) (p : NParse) (zDb zTab : Option String)
    (zCol rawCol : String) (pEList : OList) (st3 : LkSt) : LookupRes :=
  match (if st3.cnt = 0 then
      (match pEList with
       | OList.some el => findAs zCol el 0
       | OList.none => Option.none)
    else Option.none) with
  | Option.some jpe =>
    { ret := 0, p := p,
      e := ((st3.e.setOp TK.AS).setIColumn (Int.ofNat jpe.1)).setPLeft
        (oexprDup ctr jpe.2).1,
      freed := [] }
  | Option.none =>
    if st3.cnt = 0 ∧ zTab = Option.none ∧
        rawCol.toList.head? = Option.some '"' then
      { ret := 0, p := p, e := st3.e, freed := [] }
    else
      let p1 := if st3.cnt ≠ 1 then
          sqlite3ErrorMsgN p
            ((if st3.cnt = 0 then "no such column: "
              else "ambiguous column name: ") ++
              lkQualifiedName zDb zTab zCol)
        else p
      { ret := if st3.cnt ≠ 1 then 1 else 0,
        p := p1,
        e := ((st3.e.setPLeft OExpr.none).setPRight OExpr.none).setOp
          TK.COLUMN,
        freed := sqlite3ExprDelete st3.e.pLeft ++
          sqlite3ExprDelete st3.e.pRight }

/-- `lookupName` (expr.c:406–593), single-threaded, allocation assumed
to succeed. -/
def lookupName (ctr : Nat) (p : NParse) (pDbToken pTableToken : Option Token)
    (pColumnToken : Token) (pSrcList : List SrcItem) (pEList : OList)
    (pExpr : Expr) : LookupRes :=
  let zDb := lkOptName pDbToken
  let zTab := lkOptName pTableToken
  let zCol := lkName pColumnToken
  let st0 : LkSt := { cnt := 0, cntTab := 0, e := pExpr.setITable (-1) }
  let st1 := pSrcList.foldl (lkItem p.dbNames zDb zTab zCol) st0
  let st2 := lkTrigger p zDb zTab zCol st1
  let st3 := lkRowid zCol st2
  lkFinish ctr p zDb zTab zCol (pColumnToken.z.getD "") pEList st3

theorem setOp_op (e : Expr) (t : TK) : (e.setOp t).op = t := by
  cases e; rfl

theorem setPLeft_setPRight_setOp_pLeft (e : Expr) :
    (((e.setPLeft OExpr.none).setPRight OExpr.none).setOp TK.COLUMN).pLeft
      = OExpr.none := by
  cases e; rfl

theorem setPLeft_setPRight_setOp_pRight (e : Expr) :
    (((e.setPLeft OExpr.none).setPRight OExpr.none).setOp TK.COLUMN).pRight
      = OExpr.none := by
  cases e; rfl

/-- The failure path of the resolver tail: error count up by one, one
of the two messages formatted with the qualified name, node rewritten
to a `TK_COLUMN` with its children removed. -/
theorem lkFinish_error (ctr : Nat) (p : NParse) (zDb zTab : Option String)
    (zCol rawCol : String) (pEList : OList) (st3 : LkSt)
    (h : (lkFinish ctr p zDb zTab zCol rawCol pEList st3).ret ≠ 0) :
    (lkFinish ctr p zDb zTab zCol rawCol pEList st3).p.nErr = p.nErr + 1 ∧
    ((lkFinish ctr p zDb zTab zCol rawCol pEList st3).p.zErrMsg =
        Option.some ("no such column: " ++ lkQualifiedName zDb zTab zCol) ∨
      (lkFinish ctr p zDb zTab zCol rawCol pEList st3).p.zErrMsg =
        Option.some ("ambiguous column name: " ++
          lkQualifiedName zDb zTab zCol)) ∧
    (lkFinish ctr p zDb zTab zCol rawCol pEList st3).e.op = TK.COLUMN ∧
    (lkFinish ctr p zDb zTab zCol rawCol pEList st3).e.pLeft = OExpr.none ∧
    (lkFinish ctr p zDb zTab zCol rawCol pEList st3).e.pRight =
      OExpr.none := by
  unfold lkFinish at h ⊢
  split at h
  · simp at h
  · split at h
    · simp at h
    · by_cases hc : st3.cnt ≠ 1
      · rename_i hnd
        rw [if_neg hnd]
        refine ⟨?_, ?_, ?_, ?_, ?_⟩
        · simp [if_pos hc, sqlite3ErrorMsgN]
        · by_cases h0 : st3.cnt = 0
          · exact Or.inl (by simp [if_pos hc, if_pos h0,
              sqlite3ErrorMsgN])
          · exact Or.inr (by simp [if_pos hc, if_neg h0,
              sqlite3ErrorMsgN])
        · simp [setOp_op]
        · simp [setPLeft_setPRight_setOp_pLeft]
        · simp [setPLeft_setPRight_setOp_pRight]
      · exfalso
        apply h
        simp [if_neg hc]


/-- Table `t1(x)` of resolution scenario C. -/
def t1C : Table :=
  { zName := Option.some "t1", iDb := 0, iPKey := -1,
    aCol := [{ zName := "x", sortOrder := 0 }] }

/-- Table `t2(x)` of resolution scenario C. -/
def t2C : Table :=
  { zName := Option.some "t2", iDb := 0, iPKey := -1,
    aCol := [{ zName := "x", sortOrder := 0 }] }

/-- Source list `[t1(x), t2(x)]`. -/
def srcC : List SrcItem :=
  [{ zAlias := Option.none, iCursor := 0, pTab := Option.some t1C },
   { zAlias := Option.none, iCursor := 1, pTab := Option.some t2C }]

/-- A fresh parse context for the resolution scenario. -/
def pC : NParse :=
  { dbNames := ["main"], trigStack := Option.none, nErr := 0,
    zErrMsg := Option.none }

/-- The bare identifier expression `x` before resolution. -/
def eC : Expr :=
  .mk 0 TK.ID ⟨Option.some "x", 1, false⟩ ⟨Option.none, 0, false⟩
    0 0 0 0 0 .none .none .none .none

/-- The column token `x`. -/
def colTokC : Token := ⟨Option.some "x", 1, false⟩

/-- C6 counterexample: resolving the bare identifier `x` against the
source list `[t1(x), t2(x)]` reports error count 1 with message
"ambiguous column name: x" as the claim says, but the node's `op`
field is NOT left unchanged: the cleanup path sets it to `TK_COLUMN`
(expr.c:588) even though resolution failed. -/
theorem lookupName_counterexample :
    (lookupName 10 pC Option.none Option.none colTokC srcC OList.none
      eC).p.nErr = 1 ∧
    (lookupName 10 pC Option.none Option.none colTokC srcC OList.none
      eC).p.zErrMsg = Option.some "ambiguous column name: x" ∧
    (lookupName 10 pC Option.none Option.none colTokC srcC OList.none
      eC).ret = 1 ∧
    eC.op = TK.ID ∧
    (lookupName 10 pC Option.none Option.none colTokC srcC OList.none
      eC).e.op = TK.COLUMN ∧
    (lookupName 10 pC Option.none Option.none colTokC srcC OList.none
      eC).e.op ≠ eC.op := by decide

/-- C6 (amended): whenever `lookupName` fails (returns nonzero — no
match or an ambiguous match, with neither early return taken), the
error count goes up by exactly one, the message is "no such column: "
or "ambiguous column name: " formatted with the qualified name, and
the node is rewritten: `op` is set to `TK_COLUMN` (not left unchanged)
and both children are removed. -/
theorem lookupName_amended (ctr : Nat) (p : NParse)
    (pDbToken pTableToken : Option Token) (pColumnToken : Token)
    (pSrcList : List SrcItem) (pEList : OList) (pExpr : Expr)
    (h : (lookupName ctr p pDbToken pTableToken pColumnToken pSrcList
      pEList pExpr).ret ≠ 0) :
    (lookupName ctr p pDbToken pTableToken pColumnToken pSrcList pEList
      pExpr).p.nErr = p.nErr + 1 ∧
    ((lookupName ctr p pDbToken pTableToken pColumnToken pSrcList pEList
        pExpr).p.zErrMsg = Option.some ("no such column: " ++
        lkQualifiedName (lkOptName pDbToken) (lkOptName pTableToken)
          (lkName pColumnToken)) ∨
      (lookupName ctr p pDbToken pTableToken pColumnToken pSrcList pEList
        pExpr).p.zErrMsg = Option.some ("ambiguous column name: " ++
        lkQualifiedName (lkOptName pDbToken) (lkOptName pTableToken)
          (lkName pColumnToken))) ∧
    (lookupName ctr p pDbToken pTableToken pColumnToken pSrcList pEList
      pExpr).e.op = TK.COLUMN ∧
    (lookupName ctr p pDbToken pTableToken pColumnToken pSrcList pEList
      pExpr).e.pLeft = OExpr.none ∧
    (lookupName ctr p pDbToken pTableToken pColumnToken pSrcList pEList
      pExpr).e.pRight = OExpr.none := by
  unfold lookupName at h ⊢
  exact lkFinish_error ctr p (lkOptName pDbToken) (lkOptName pTableToken)
    (lkName pColumnToken) (pColumnToken.z.getD "") pEList _ h

theorem lookupName_amended_witness :
    (lookupName 10 pC Option.none Option.none colTokC srcC OList.none
      eC).ret ≠ 0 ∧
    ((lookupName 10 pC Option.none Option.none colTokC srcC OList.none
      eC).p.nErr = pC.nErr + 1 ∧
    ((lookupName 10 pC Option.none Option.none colTokC srcC OList.none
        eC).p.zErrMsg = Option.some ("no such column: " ++
        lkQualifiedName (lkOptName Option.none) (lkOptName Option.none)
          (lkName colTokC)) ∨
      (lookupName 10 pC Option.none Option.none colTokC srcC OList.none
        eC).p.zErrMsg = Option.some ("ambiguous column name: " ++
        lkQualifiedName (lkOptName Option.none) (lkOptName Option.none)
          (lkName colTokC))) ∧
    (lookupName 10 pC Option.none Option.none colTokC srcC OList.none
      eC).e.op = TK.COLUMN ∧
    (lookupName 10 pC Option.none Option.none colTokC srcC OList.none
      eC).e.pLeft = OExpr.none ∧
    (lookupName 10 pC Option.none Option.none colTokC srcC OList.none
      eC).e.pRight = OExpr.none) :=
  ⟨by decide,
    lookupName_amended 10 pC Option.none Option.none colTokC srcC
      OList.none eC (by decide)⟩

end SqliteExpr
